import Mathlib

/-!
Unscented Kalman filter: embedding and verified properties.

Shallow embedding of `bayes_filter/unscented_kalman_filter.cpp`. The definitions are written
over any scalar type `K` with the operations the source uses. Most properties are proved
over an arbitrary ordered field, such as the rationals or the reals: exact arithmetic stands
in for `double`, and rounding is not modelled. The type `Double` adds to the exact finite
values one value `nan` for whatever is not a finite number, so that a division by zero and
what follows from it can be followed through the code.

* `VectorXd`, `MatrixXd` are the dynamically sized Eigen containers. Every Eigen operation
  whose operands must agree in size returns `none` when they do not (the failed assertion).
* `UnscentedTransform` is declared in a header that is not part of the sources at hand; its
  operations are modelled from the specification.
* `UnscentedKalmanFilter` carries the belief and the collaborators the source calls.
-/

set_option linter.unusedSectionVars false

namespace bf

/-- Dynamically sized column vector (`Eigen::VectorXd`). -/
structure VectorXd (K : Type) where
  size : Nat
  coeff : Fin size → K

/-- Dynamically sized dense matrix (`Eigen::MatrixXd`). -/
structure MatrixXd (K : Type) where
  rows : Nat
  cols : Nat
  coeff : Fin rows → Fin cols → K

section Definitions

variable {K : Type} [AddCommMonoid K] [Monoid K] [Sub K] [Div K] [NatCast K]

namespace VectorXd

/-- Entry `i`, read as `0` outside the vector; used only to build results. -/
def get (v : VectorXd K) (i : Nat) : K :=
  if h : i < v.size then v.coeff ⟨i, h⟩ else 0

/-- The vector of size `n` with entries `f 0, ..., f (n-1)`. -/
def ofFn (n : Nat) (f : Nat → K) : VectorXd K :=
  ⟨n, fun i => f i.val⟩

/-- Sum `a + b`; Eigen asserts equal sizes. -/
def add (a b : VectorXd K) : Option (VectorXd K) :=
  if a.size = b.size then some (ofFn a.size fun i => a.get i + b.get i) else none

/-- Difference `a - b`; Eigen asserts equal sizes. -/
def sub (a b : VectorXd K) : Option (VectorXd K) :=
  if a.size = b.size then some (ofFn a.size fun i => a.get i - b.get i) else none

end VectorXd

namespace MatrixXd

/-- Entry `(i, j)`, read as `0` outside the matrix; used only to build results. -/
def get (A : MatrixXd K) (i j : Nat) : K :=
  if h : i < A.rows ∧ j < A.cols then A.coeff ⟨i, h.1⟩ ⟨j, h.2⟩ else 0

/-- The `r x c` matrix with entries `f i j`. -/
def ofFn (r c : Nat) (f : Nat → Nat → K) : MatrixXd K :=
  ⟨r, c, fun i j => f i.val j.val⟩

/-- The matrix `MatrixXd::Zero(r, c)` (named in lower case: `Zero` is taken). -/
def zero (r c : Nat) : MatrixXd K :=
  ofFn r c fun _ _ => 0

/-- The matrix `MatrixXd::Identity(r, c)`. -/
def Identity (r c : Nat) : MatrixXd K :=
  ofFn r c fun i j => if i = j then 1 else 0

/-- The call `A.size()`: the number of coefficients. -/
def size (A : MatrixXd K) : Nat :=
  A.rows * A.cols

/-- The call `A.transpose()`. -/
def transpose (A : MatrixXd K) : MatrixXd K :=
  ofFn A.cols A.rows fun i j => A.get j i

/-- Scalar multiple `k * A`. -/
def smul (k : K) (A : MatrixXd K) : MatrixXd K :=
  ofFn A.rows A.cols fun i j => k * A.get i j

/-- Sum `A + B`; Eigen asserts equal shapes. -/
def add (A B : MatrixXd K) : Option (MatrixXd K) :=
  if A.rows = B.rows ∧ A.cols = B.cols then
    some (ofFn A.rows A.cols fun i j => A.get i j + B.get i j)
  else none

/-- Difference `A - B`; Eigen asserts equal shapes. -/
def sub (A B : MatrixXd K) : Option (MatrixXd K) :=
  if A.rows = B.rows ∧ A.cols = B.cols then
    some (ofFn A.rows A.cols fun i j => A.get i j - B.get i j)
  else none

/-- Product `A * B`; Eigen asserts `A.cols() == B.rows()`. -/
def mul (A B : MatrixXd K) : Option (MatrixXd K) :=
  if A.cols = B.rows then
    some (ofFn A.rows B.cols fun i j => ∑ k ∈ Finset.range A.cols, A.get i k * B.get k j)
  else none

/-- Product `A * v` with a vector; Eigen asserts `A.cols() == v.size()`. -/
def mulVec (A : MatrixXd K) (v : VectorXd K) : Option (VectorXd K) :=
  if A.cols = v.size then
    some (VectorXd.ofFn A.rows fun i => ∑ k ∈ Finset.range A.cols, A.get i k * v.get k)
  else none

/-- Column `j` as a vector: `A.col(j)` read as a value. -/
def col (A : MatrixXd K) (j : Nat) : VectorXd K :=
  VectorXd.ofFn A.rows fun i => A.get i j

/-- Assignment `A.col(j) = v`. A column block cannot be resized, so Eigen asserts that
`v` has `A.rows()` entries, and that `j` is a column of `A`. -/
def setCol (A : MatrixXd K) (j : Nat) (v : VectorXd K) : Option (MatrixXd K) :=
  if j < A.cols ∧ v.size = A.rows then
    some (ofFn A.rows A.cols fun i k => if k = j then v.get i else A.get i k)
  else none

/-- Assignment `A(i, j) = x`; Eigen asserts that the index is inside the matrix. -/
def setCoeff (A : MatrixXd K) (i j : Nat) (x : K) : Option (MatrixXd K) :=
  if i < A.rows ∧ j < A.cols then
    some (ofFn A.rows A.cols fun a b => if a = i ∧ b = j then x else A.get a b)
  else none

/-- Read `A(i, j)`; Eigen asserts that the index is inside the matrix. -/
def coeffAt (A : MatrixXd K) (i j : Nat) : Option K :=
  if h : i < A.rows ∧ j < A.cols then some (A.coeff ⟨i, h.1⟩ ⟨j, h.2⟩) else none

/-- The call `A.resize(r, c)`: nothing happens when the shape is already `r x c`; otherwise the old
coefficients are not kept in place (the storage is reallocated whenever the number of
coefficients changes) and the new ones are whatever the storage holds, here `junk i j`. -/
def resize (A : MatrixXd K) (r c : Nat) (junk : Nat → Nat → K) : MatrixXd K :=
  if A.rows = r ∧ A.cols = c then A else ofFn r c junk

/-- The call `A.inverse()`: Eigen asserts that `A` is square and returns a matrix of the same shape.
The coefficients come from the library routine `inv`, about which nothing is assumed (for a
singular `A` the library divides by a zero determinant and its result is not finite). -/
def inverse (inv : MatrixXd K → MatrixXd K) (A : MatrixXd K) : Option (MatrixXd K) :=
  if A.rows = A.cols then some (ofFn A.rows A.cols fun i j => (inv A).get i j) else none

/-- The loop `for (i = 0; i < k; ++i) M.col(i) = g(M.col(i));` that both `predict` and the
test helper `linearTransformSig` run over the sigma points: the state after the iterations
`0, ..., k-1`. An iteration fails when `g` fails or the column assignment does. -/
def forCols (g : VectorXd K → Option (VectorXd K)) : Nat → MatrixXd K → Option (MatrixXd K)
  | 0, M => some M
  | k + 1, M => do
    let M1 ← forCols g k M
    let v ← g (M1.col k)
    M1.setCol k v

end MatrixXd

/-- Modelled from the spec: the type `SigmaPoints`, declared in the missing header of the
transform. The fields are those the source and the tests use: `points` holds one point per
column and `weights` holds the mean weights in row 0 and the covariance weights in row 1. -/
structure SigmaPoints (K : Type) where
  points : MatrixXd K
  weights : MatrixXd K

/-- Modelled from the spec: the configuration of the unscented transform, whose header and
implementation are missing. `alpha`, `beta`, `kappa` are the three scalar parameters;
`matSqrt` is the matrix decomposition used for the square root, which the specification
leaves open (any `S` with `S * S^T = (n + lambda) * cov` is acceptable). -/
structure UnscentedTransform (K : Type) where
  alpha : K
  beta : K
  kappa : K
  matSqrt : MatrixXd K → MatrixXd K

namespace UnscentedTransform

/-- Modelled from the spec: `calcLambda(n) = alpha^2 * (n + kappa) - n` (implementation
missing). -/
def calcLambda (T : UnscentedTransform K) (n : Nat) : K :=
  T.alpha ^ 2 * ((n : K) + T.kappa) - (n : K)

/-- Modelled from the spec: the vector that becomes sigma point `c` before normalisation,
namely the mean for `c = 0`, `mean + column_c(S)` for `c = 1..n` and
`mean - column_(c-n)(S)` for `c = n+1..2n` (implementation missing). -/
def rawPoint (mean : VectorXd K) (S : MatrixXd K) (c : Nat) : VectorXd K :=
  VectorXd.ofFn mean.size fun a =>
    if c = 0 then mean.get a
    else if c ≤ mean.size then mean.get a + S.get a (c - 1)
    else mean.get a - S.get a (c - 1 - mean.size)

/-- Modelled from the spec: `calcSigmaPoints(mean, cov, normalize)` (implementation missing).
With `n = mean.size()` and `lambda = calcLambda(n)`, `S` is the square root of
`(n + lambda) * cov`, the points are the normalised raw points, and the weights are
`wMean_0 = lambda / (n + lambda)`, `wCov_0 = wMean_0 + (1 - alpha^2 + beta)` and
`wMean_i = wCov_i = 1 / (2 (n + lambda))` for `i = 1..2n`. -/
def calcSigmaPoints (T : UnscentedTransform K) (mean : VectorXd K) (cov : MatrixXd K)
    (normalize : VectorXd K → VectorXd K) : SigmaPoints K :=
  let n := mean.size
  let lam := T.calcLambda n
  let S := T.matSqrt (MatrixXd.smul ((n : K) + lam) cov)
  let w0 := lam / ((n : K) + lam)
  let wi := 1 / (2 * ((n : K) + lam))
  { points := MatrixXd.ofFn n (2 * n + 1) fun r c => (normalize (rawPoint mean S c)).get r
    weights := MatrixXd.ofFn 2 (2 * n + 1) fun r c =>
      if c = 0 then (if r = 0 then w0 else w0 + (1 - T.alpha ^ 2 + T.beta)) else wi }

/-- Modelled from the spec: `recoverMean(sigma, normalize)`, the weighted sum of the points
with the mean weights, normalised once (implementation missing). -/
def recoverMean (_T : UnscentedTransform K) (sigma : SigmaPoints K)
    (normalize : VectorXd K → VectorXd K) : VectorXd K :=
  normalize (VectorXd.ofFn sigma.points.rows fun r =>
    ∑ c ∈ Finset.range sigma.points.cols, sigma.weights.get 0 c * sigma.points.get r c)

/-- Modelled from the spec: the normalised deviation `normalize(p_c - mean)` of sigma
point `c` from `mean` (implementation missing). -/
def deviation (sigma : SigmaPoints K) (mean : VectorXd K)
    (normalize : VectorXd K → VectorXd K) (c : Nat) : VectorXd K :=
  normalize (VectorXd.ofFn sigma.points.rows fun a => sigma.points.get a c - mean.get a)

/-- Modelled from the spec: `recoverCovariance(sigma, mean, normalize)`, the sum over the
points of `wCov_c * d_c * d_c^T` with `d_c = normalize(p_c - mean)` (implementation
missing). -/
def recoverCovariance (_T : UnscentedTransform K) (sigma : SigmaPoints K) (mean : VectorXd K)
    (normalize : VectorXd K → VectorXd K) : MatrixXd K :=
  MatrixXd.ofFn sigma.points.rows sigma.points.rows fun r s =>
    ∑ c ∈ Finset.range sigma.points.cols,
      sigma.weights.get 1 c * (deviation sigma mean normalize c).get r
        * (deviation sigma mean normalize c).get s

/-- Modelled from the spec: `recoverCrossCovariance(sigmaA, meanA, normA, sigmaB, meanB,
normB)`, the sum over the points of `wCov_c(A) * dA_c * dB_c^T` with both deviations
normalised by their own function (implementation missing). -/
def recoverCrossCovariance (_T : UnscentedTransform K)
    (sigmaA : SigmaPoints K) (meanA : VectorXd K) (normA : VectorXd K → VectorXd K)
    (sigmaB : SigmaPoints K) (meanB : VectorXd K) (normB : VectorXd K → VectorXd K) :
    MatrixXd K :=
  MatrixXd.ofFn sigmaA.points.rows sigmaB.points.rows fun r s =>
    ∑ c ∈ Finset.range sigmaA.points.cols,
      sigmaA.weights.get 1 c * (deviation sigmaA meanA normA c).get r
        * (deviation sigmaB meanB normB c).get s

/-- Modelled from the spec: `calcCrossCov(meanA, sigmaA, meanB, sigmaB)`, the cross
covariance without normalisation (implementation missing). -/
def calcCrossCov (T : UnscentedTransform K) (meanA : VectorXd K) (sigmaA : SigmaPoints K)
    (meanB : VectorXd K) (sigmaB : SigmaPoints K) : MatrixXd K :=
  T.recoverCrossCovariance sigmaA meanA id sigmaB meanB id

/-- Modelled from the spec: `recoverDistrib(sigma)`, the recovered mean together with the
covariance recovered about it (implementation missing). -/
def recoverDistrib (T : UnscentedTransform K) (sigma : SigmaPoints K) :
    VectorXd K × MatrixXd K :=
  (T.recoverMean sigma id, T.recoverCovariance sigma (T.recoverMean sigma id) id)

end UnscentedTransform

/-- The filter of `unscented_kalman_filter.cpp`: the transform, the two normalisation
functions and the belief `(state_, cov_)`, together with the collaborators the source
calls and that live elsewhere: the motion and sensor models (the values carried by their
results), `mat2vec` of `math.h`, the coefficients of Eigen's `inverse()`, and `uninit`, the
content of freshly allocated storage at the resize of iteration `i`. -/
structure UnscentedKalmanFilter (K : Type) where
  unscentTrans_ : UnscentedTransform K
  normState_ : VectorXd K → VectorXd K
  normObs_ : VectorXd K → VectorXd K
  motionModel : VectorXd K → VectorXd K → MatrixXd K → VectorXd K
  sensorModel : VectorXd K → MatrixXd K → MatrixXd K
  mat2vec : MatrixXd K → VectorXd K
  inv : MatrixXd K → MatrixXd K
  uninit : Nat → Nat → Nat → K
  state_ : VectorXd K
  cov_ : MatrixXd K

/-- The default normalisation `noNormalize`. -/
def noNormalize (v : VectorXd K) : VectorXd K :=
  v

namespace UnscentedKalmanFilter

/-- The method `getEstimate()`: the current belief. -/
def getEstimate (f : UnscentedKalmanFilter K) : VectorXd K × MatrixXd K :=
  (f.state_, f.cov_)

/-- The method `init(state, cov)`: both assertions, then the belief is replaced. -/
def init (f : UnscentedKalmanFilter K) (state : VectorXd K) (cov : MatrixXd K) :
    Option (UnscentedKalmanFilter K) :=
  if state.size = cov.rows ∧ state.size = cov.cols then
    some { f with state_ := state, cov_ := cov }
  else none

/-- The method `predict(controls, observations, motionCov)`: both assertions, the sigma
points of the belief, the loop through the motion model, the recovered moments, and the
new belief with the process noise added. -/
def predict (f : UnscentedKalmanFilter K) (controls : VectorXd K)
    (observations motionCov : MatrixXd K) : Option (UnscentedKalmanFilter K) :=
  if f.state_.size = motionCov.rows ∧ f.state_.size = motionCov.cols then do
    let sigma := f.unscentTrans_.calcSigmaPoints f.state_ f.cov_ f.normState_
    let points ← sigma.points.forCols
      (fun p => some (f.normState_ (f.motionModel p controls observations))) sigma.points.cols
    let sigma1 : SigmaPoints K := { sigma with points := points }
    let mu := f.unscentTrans_.recoverMean sigma1 f.normState_
    let cov := f.unscentTrans_.recoverCovariance sigma1 mu f.normState_
    let cov1 ← cov.add motionCov
    some { f with state_ := mu, cov_ := cov1 }
  else none

/-- The loop of `correct` that writes the diagonal of `obsCov`: the state after the
iterations `i = 0, ..., k-1`. The index `j = i % sensorCov.rows()` is undefined for an
empty `sensorCov`. (The counter is an `unsigned int`; it cannot wrap, because a vector
with `2^32` entries would need an `obsCov` of `2^64` coefficients.) -/
def tileLoop (sensorCov : MatrixXd K) : Nat → MatrixXd K → Option (MatrixXd K)
  | 0, obsCov => some obsCov
  | i + 1, obsCov => do
    let acc ← tileLoop sensorCov i obsCov
    if sensorCov.rows = 0 then none
    else do
      let j := i % sensorCov.rows
      let x ← sensorCov.coeffAt j j
      acc.setCoeff i i x

/-- The loop of `correct` that pushes the sigma points through the sensor model: the
points of `sigmaB` after the iterations `i = 0, ..., k-1`. -/
def sensorLoop (f : UnscentedKalmanFilter K) (observations : MatrixXd K)
    (sigmaA : SigmaPoints K) : Nat → MatrixXd K → Option (MatrixXd K)
  | 0, B => some B
  | i + 1, B => do
    let B1 ← sensorLoop f observations sigmaA i B
    let smResult := f.sensorModel (sigmaA.points.col i) observations
    let B2 := if B1.rows < smResult.size then
        B1.resize smResult.size sigmaA.points.cols (f.uninit i)
      else B1
    let tmp := f.mat2vec smResult
    B2.setCol i (f.normObs_ tmp)

/-- The first part of `correct`: the assertion that `sensorCov` is square, then `obsCov`,
the zero matrix of the size of `obs` whose diagonal the loop fills from `sensorCov`. -/
def obsNoiseCov (sensorCov : MatrixXd K) (obs : VectorXd K) : Option (MatrixXd K) :=
  if sensorCov.rows = sensorCov.cols then
    tileLoop sensorCov obs.size (MatrixXd.zero obs.size obs.size)
  else none

/-- The method `correct(observations, sensorCov)`: the noise covariance, the two sigma
sets, the recovered moments, the five assertions, the Kalman gain and the update. -/
def correct (f : UnscentedKalmanFilter K) (observations sensorCov : MatrixXd K) :
    Option (UnscentedKalmanFilter K) :=
  let obs := f.mat2vec observations
  do
    let obsCov ← obsNoiseCov sensorCov obs
    let sigmaA := f.unscentTrans_.calcSigmaPoints f.state_ f.cov_ f.normState_
    let pointsB ← sensorLoop f observations sigmaA sigmaA.points.cols
      ((MatrixXd.zero 0 0).resize 0 sigmaA.points.cols fun _ _ => 0)
    let sigmaB : SigmaPoints K := { points := pointsB, weights := sigmaA.weights }
    let mu := f.unscentTrans_.recoverMean sigmaB f.normObs_
    let cov := f.unscentTrans_.recoverCovariance sigmaB mu f.normObs_
    let crossCov := f.unscentTrans_.recoverCrossCovariance
      sigmaA f.state_ f.normState_ sigmaB mu f.normObs_
    if mu.size = obs.size ∧ cov.rows = obsCov.rows ∧ cov.cols = obsCov.cols
        ∧ crossCov.rows = f.state_.size ∧ crossCov.cols = mu.size then do
      let cov1 ← cov.add obsCov
      let covInv ← cov1.inverse f.inv
      let kalGain ← crossCov.mul covInv
      let innovation ← obs.sub mu
      let step ← kalGain.mulVec (f.normObs_ innovation)
      let state1 ← f.state_.add step
      let t ← kalGain.mul cov1
      let t1 ← t.mul kalGain.transpose
      let cov2 ← f.cov_.sub t1
      some { f with state_ := state1, cov_ := cov2 }
    else none

/-- The value `sigmaA` of `correct`: the sigma points of the current belief. -/
def stateSigma (f : UnscentedKalmanFilter K) : SigmaPoints K :=
  f.unscentTrans_.calcSigmaPoints f.state_ f.cov_ f.normState_

/-- The value `sigmaB` of `correct` once the sensor loop has produced `pointsB`. -/
def obsSigma (f : UnscentedKalmanFilter K) (pointsB : MatrixXd K) : SigmaPoints K :=
  { points := pointsB, weights := f.stateSigma.weights }

/-- The value `mu` of `correct`: the predicted-observation mean. -/
def obsMean (f : UnscentedKalmanFilter K) (pointsB : MatrixXd K) : VectorXd K :=
  f.unscentTrans_.recoverMean (f.obsSigma pointsB) f.normObs_

/-- The value `cov` of `correct` before the noise is added: the recovered
predicted-observation covariance. -/
def obsCovariance (f : UnscentedKalmanFilter K) (pointsB : MatrixXd K) : MatrixXd K :=
  f.unscentTrans_.recoverCovariance (f.obsSigma pointsB) (f.obsMean pointsB) f.normObs_

/-- The value `crossCov` of `correct`. -/
def crossCovariance (f : UnscentedKalmanFilter K) (pointsB : MatrixXd K) : MatrixXd K :=
  f.unscentTrans_.recoverCrossCovariance f.stateSigma f.state_ f.normState_
    (f.obsSigma pointsB) (f.obsMean pointsB) f.normObs_

/-- The value `kalGain` of `correct` once the loops have produced `obsCov` and `pointsB`:
the cross covariance times the inverse of the innovation covariance `cov + obsCov`. -/
def kalGain (f : UnscentedKalmanFilter K) (pointsB obsCov : MatrixXd K) :
    Option (MatrixXd K) := do
  let cov1 ← (f.obsCovariance pointsB).add obsCov
  let covInv ← cov1.inverse f.inv
  (f.crossCovariance pointsB).mul covInv

end UnscentedKalmanFilter

/-- The test helper `linearTransform(state, facs)`: the entrywise product, which is
`diag(facs) * state`. -/
def linearTransform (state facs : VectorXd K) : Option (VectorXd K) :=
  if state.size = facs.size then
    some (VectorXd.ofFn state.size fun i => state.get i * facs.get i)
  else none

/-- The test helper `linearTransformSig(sigma, facs)`: every point is replaced by its
entrywise product with `facs`; the weights are copied. -/
def linearTransformSig (sigma : SigmaPoints K) (facs : VectorXd K) : Option (SigmaPoints K) :=
  if facs.size = sigma.points.rows then do
    let points ← sigma.points.forCols (fun p => linearTransform p facs) sigma.points.cols
    some { sigma with points := points }
  else none

/-- The block-diagonal matrix made of `k` copies of the square matrix `M`: entry `(a, b)`
is `M(a mod m, b mod m)` when `a` and `b` lie in the same block and `0` otherwise. -/
def blockDiag (M : MatrixXd K) (k : Nat) : MatrixXd K :=
  MatrixXd.ofFn (k * M.rows) (k * M.rows) fun a b =>
    if a / M.rows = b / M.rows then M.get (a % M.rows) (b % M.rows) else 0

/-- The diagonal part of `M`: its diagonal entries, and `0` elsewhere. -/
def diagPart (M : MatrixXd K) : MatrixXd K :=
  MatrixXd.ofFn M.rows M.cols fun i j => if i = j then M.get i j else 0

/-- The diagonal matrix `D = diag(facs)` whose action on a vector is `linearTransform`. -/
def diagMat (facs : VectorXd K) : MatrixXd K :=
  MatrixXd.ofFn facs.size facs.size fun i j => if i = j then facs.get i else 0

/-- The matrix `S` is a square root of `M`: it has as many columns as `M` and `S * S^T = M`. -/
def IsSqrtOf (S M : MatrixXd K) : Prop :=
  S.cols = M.cols ∧ S.mul S.transpose = some M

/-- The matrix `A` is symmetric: it is square and `A(i, j) = A(j, i)` for all its entries. -/
def MatrixXd.IsSymmetric (A : MatrixXd K) : Prop :=
  A.rows = A.cols ∧ ∀ i j, i < A.rows → j < A.rows → A.get i j = A.get j i

/-- The sigma set in which every point `p` is replaced by `g p`; the weights are kept. -/
def mapPoints (g : VectorXd K → VectorXd K) (sigma : SigmaPoints K) : SigmaPoints K :=
  { points := MatrixXd.ofFn sigma.points.rows sigma.points.cols fun r c =>
      (g (sigma.points.col c)).get r
    weights := sigma.weights }

/-- A vector seen as a matrix with a single column. -/
def VectorXd.asMatrix (v : VectorXd K) : MatrixXd K :=
  MatrixXd.ofFn v.size 1 fun i _ => v.get i

/-! ### Scalars that need not be finite -/

/-- The values of a `double` as far as finiteness goes: a finite number, kept exact as a
rational (rounding is not modelled), or `nan`, which stands for every value that is not a
finite number (an infinity or a NaN). -/
inductive Double where
  | fin (q : ℚ)
  | nan
  deriving DecidableEq

namespace Double

/-- Sum: exact on finite values, not finite as soon as an operand is not finite. -/
def add : Double → Double → Double
  | fin a, fin b => fin (a + b)
  | _, _ => nan

/-- Difference: exact on finite values, not finite as soon as an operand is not finite. -/
def sub : Double → Double → Double
  | fin a, fin b => fin (a - b)
  | _, _ => nan

/-- Product: exact on finite values, not finite as soon as an operand is not finite (in
particular `0 * nan = nan`, as for `0 * inf` and `0 * NaN`). -/
def mul : Double → Double → Double
  | fin a, fin b => fin (a * b)
  | _, _ => nan

/-- Quotient: exact on finite values with a divisor other than zero; a division by zero
gives an infinity or a NaN, so a value that is not finite. -/
def div : Double → Double → Double
  | fin a, fin b => if b = 0 then nan else fin (a / b)
  | _, _ => nan

/-- Square root: for a finite square of a rational the exact root; of a negative number
or of `nan`, `nan`. -/
def sqrt : Double → Double
  | fin a => if 0 ≤ a then fin (Rat.sqrt a) else nan
  | nan => nan

instance : Zero Double := ⟨fin 0⟩

instance : One Double := ⟨fin 1⟩

instance : Add Double := ⟨add⟩

instance : Mul Double := ⟨mul⟩

instance : Sub Double := ⟨sub⟩

instance : Div Double := ⟨div⟩

instance : NatCast Double := ⟨fun n => fin n⟩

instance : AddCommMonoid Double where
  nsmul := nsmulRec
  add_assoc a b c := by
    show add (add a b) c = add a (add b c)
    cases a <;> cases b <;> cases c <;> simp [add, add_assoc]
  zero_add a := by
    show add (fin 0) a = a
    cases a <;> simp [add]
  add_zero a := by
    show add a (fin 0) = a
    cases a <;> simp [add]
  add_comm a b := by
    show add a b = add b a
    cases a <;> cases b <;> simp [add, add_comm]

instance : Monoid Double where
  mul_assoc a b c := by
    show mul (mul a b) c = mul a (mul b c)
    cases a <;> cases b <;> cases c <;> simp [mul, mul_assoc]
  one_mul a := by
    show mul (fin 1) a = a
    cases a <;> simp [mul]
  mul_one a := by
    show mul a (fin 1) = a
    cases a <;> simp [mul]

end Double

/-! ### Concrete inputs over the rationals -/

namespace Examples

/-- Square root of a diagonal matrix whose diagonal entries are squares of rationals. -/
def diagSqrt (M : MatrixXd ℚ) : MatrixXd ℚ :=
  MatrixXd.ofFn M.rows M.cols fun i j => if i = j then Rat.sqrt (M.get i i) else 0

/-- Inverse of a diagonal matrix. -/
def diagInv (M : MatrixXd ℚ) : MatrixXd ℚ :=
  MatrixXd.ofFn M.rows M.cols fun i j => if i = j then (M.get i i)⁻¹ else 0

/-- Stacking of the columns of a matrix into one vector. -/
def stackCols (M : MatrixXd K) : VectorXd K :=
  VectorXd.ofFn (M.rows * M.cols) fun k => M.get (k % M.rows) (k / M.rows)

/-- The transform with `alpha = 1`, `beta = 1`, `kappa = 1` of the tests. -/
def trans111 : UnscentedTransform ℚ :=
  { alpha := 1, beta := 1, kappa := 1, matSqrt := diagSqrt }

/-- A degenerate transform: `alpha = 0`, so that `n + lambda = 0` in every dimension. -/
def trans000 : UnscentedTransform ℚ :=
  { alpha := 0, beta := 0, kappa := 0, matSqrt := diagSqrt }

/-- A filter with identity motion and sensor models, default normalisation and the belief
`(state, cov)`. -/
def identityFilter (T : UnscentedTransform ℚ) (state : VectorXd ℚ) (cov : MatrixXd ℚ) :
    UnscentedKalmanFilter ℚ :=
  { unscentTrans_ := T
    normState_ := noNormalize
    normObs_ := noNormalize
    motionModel := fun p _ _ => p
    sensorModel := fun p _ => p.asMatrix
    mat2vec := stackCols
    inv := diagInv
    uninit := fun _ _ _ => 0
    state_ := state
    cov_ := cov }

/-- The vector `(1, 1, 1)`. -/
def ones3 : VectorXd ℚ :=
  VectorXd.ofFn 3 fun _ => 1

/-- The vector `(1, 1)`. -/
def ones2 : VectorXd ℚ :=
  VectorXd.ofFn 2 fun _ => 1

/-- The covariance `diag(1, 0, 0)` of the test with zero uncertainty. -/
def cov100 : MatrixXd ℚ :=
  MatrixXd.ofFn 3 3 fun i j => if i = 0 ∧ j = 0 then 1 else 0

/-- The filter of the examples: belief `((1, 1, 1), I)`, identity models. -/
def filter3 : UnscentedKalmanFilter ℚ :=
  identityFilter trans111 ones3 (MatrixXd.Identity 3 3)

/-- A matrix with `c` columns written row by row, as the expected values of the tests. -/
def ofRows (c : Nat) (L : List (List ℚ)) : MatrixXd ℚ :=
  MatrixXd.ofFn L.length c fun i j => (L.getD i []).getD j 0

/-- Expected sigma points of the test with zero uncertainty. -/
def sexpZero : MatrixXd ℚ :=
  ofRows 7 [[1, 3, 1, 1, -1, 1, 1], [1, 1, 1, 1, 1, 1, 1], [1, 1, 1, 1, 1, 1, 1]]

/-- The scaling factors `(1, 2, 3)` of the tests. -/
def facs123 : VectorXd ℚ :=
  VectorXd.ofFn 3 fun i => (i : ℚ) + 1

/-- The vector `(1)`. -/
def one1 : VectorXd ℚ :=
  VectorXd.ofFn 1 fun _ => 1

/-- The transform with `alpha = 1`, `beta = 0`, `kappa = 3`: in dimension `1` it has
`lambda = 3` and `n + lambda = 4`. -/
def trans103 : UnscentedTransform ℚ :=
  { alpha := 1, beta := 0, kappa := 3, matSqrt := diagSqrt }

/-- A sensor model whose result has one entry at the state `1` and two entries at every
other state. -/
def growingSensor (p : VectorXd ℚ) (_observations : MatrixXd ℚ) : MatrixXd ℚ :=
  if p.get 0 = 1 then MatrixXd.ofFn 1 1 fun _ _ => p.get 0
  else MatrixXd.ofFn 2 1 fun _ _ => p.get 0

/-- A filter of dimension `1` with belief `((1), I)` and the sensor model `growingSensor`;
fresh storage holds the value `7`. -/
def filterGrow : UnscentedKalmanFilter ℚ :=
  { identityFilter trans103 one1 (MatrixXd.Identity 1 1) with
    sensorModel := growingSensor
    uninit := fun _ _ _ => 7 }

/-- Square root of a diagonal matrix of `double` values whose finite diagonal entries are
squares of rationals. -/
def diagSqrtD (M : MatrixXd Double) : MatrixXd Double :=
  MatrixXd.ofFn M.rows M.cols fun i j => if i = j then (M.get i i).sqrt else 0

/-- The call `inverse()` on a `1 x 1` matrix `(a)`: the matrix `(1 / a)`. -/
def inverse1 (M : MatrixXd Double) : MatrixXd Double :=
  MatrixXd.ofFn 1 1 fun _ _ => 1 / M.get 0 0

/-- The transform `trans103` with `double` values. -/
def trans103D : UnscentedTransform Double :=
  { alpha := 1, beta := 0, kappa := 3, matSqrt := diagSqrtD }

/-- The vector `(1)` with `double` values. -/
def one1D : VectorXd Double :=
  VectorXd.ofFn 1 fun _ => 1

/-- A filter of dimension `1` with `double` values: belief `((1), (c))`, identity motion and
sensor models, default normalisation. -/
def filterD (c : Double) : UnscentedKalmanFilter Double :=
  { unscentTrans_ := trans103D
    normState_ := noNormalize
    normObs_ := noNormalize
    motionModel := fun p _ _ => p
    sensorModel := fun p _ => p.asMatrix
    mat2vec := stackCols
    inv := inverse1
    uninit := fun _ _ _ => 0
    state_ := one1D
    cov_ := MatrixXd.ofFn 1 1 fun _ _ => c }

/-- A `2 x 2` sensor covariance with correlated components. -/
def corrCov : MatrixXd ℚ :=
  MatrixXd.ofFn 2 2 fun i j => if i = j then 1 else 1 / 2

end Examples

end Definitions

/-! ## Basic facts about the containers -/

section Containers

variable {K : Type} [AddCommMonoid K] [Monoid K] [Sub K] [Div K] [NatCast K]

namespace VectorXd

@[simp] theorem size_ofFn (n : Nat) (f : Nat → K) : (ofFn n f).size = n := rfl

@[simp] theorem getv_ofFn (n : Nat) (f : Nat → K) (i : Nat) :
    (ofFn n f).get i = if i < n then f i else 0 := by
  unfold get ofFn
  by_cases h : i < n <;> simp [h]

theorem get_of_lt (n : Nat) (f : Nat → K) {i : Nat} (h : i < n) : (ofFn n f).get i = f i := by
  simp [h]

theorem get_of_size_le (v : VectorXd K) {i : Nat} (h : v.size ≤ i) : v.get i = 0 := by
  unfold get
  simp [Nat.not_lt.mpr h]

/-- Two vectors of the same size with the same entries are equal. -/
theorem extv_get {a b : VectorXd K} (hs : a.size = b.size)
    (h : ∀ i, i < a.size → a.get i = b.get i) : a = b := by
  obtain ⟨n, f⟩ := a
  obtain ⟨m, g⟩ := b
  simp only at hs
  subst hs
  congr
  funext i
  have := h i.val i.isLt
  simpa [get] using this

theorem ofFnv_congr {n : Nat} {f g : Nat → K} (h : ∀ i, i < n → f i = g i) :
    ofFn n f = ofFn n g := by
  refine extv_get (by simp) ?_
  intro i hi
  simp only [size_ofFn] at hi
  simp [hi, h i hi]

theorem ofFnv_get (v : VectorXd K) : ofFn v.size v.get = v := by
  refine extv_get (by simp) ?_
  intro i hi
  simp only [size_ofFn] at hi
  simp [hi]

end VectorXd

namespace MatrixXd

@[simp] theorem rows_ofFn (r c : Nat) (f : Nat → Nat → K) : (ofFn r c f).rows = r := rfl

@[simp] theorem cols_ofFn (r c : Nat) (f : Nat → Nat → K) : (ofFn r c f).cols = c := rfl

@[simp] theorem get_ofFn (r c : Nat) (f : Nat → Nat → K) (i j : Nat) :
    (ofFn r c f).get i j = if i < r ∧ j < c then f i j else 0 := by
  unfold get ofFn
  by_cases h : i < r ∧ j < c <;> simp [h]

theorem get_of_rows_le (A : MatrixXd K) {i : Nat} (j : Nat) (h : A.rows ≤ i) :
    A.get i j = 0 := by
  unfold get
  have : ¬ (i < A.rows ∧ j < A.cols) := fun hh => absurd hh.1 (Nat.not_lt.mpr h)
  simp [this]

theorem get_of_cols_le (A : MatrixXd K) (i : Nat) {j : Nat} (h : A.cols ≤ j) :
    A.get i j = 0 := by
  unfold get
  have : ¬ (i < A.rows ∧ j < A.cols) := fun hh => absurd hh.2 (Nat.not_lt.mpr h)
  simp [this]

/-- Two matrices of the same shape with the same entries are equal. -/
theorem ext_get {A B : MatrixXd K} (hr : A.rows = B.rows) (hc : A.cols = B.cols)
    (h : ∀ i j, i < A.rows → j < A.cols → A.get i j = B.get i j) : A = B := by
  obtain ⟨r, c, f⟩ := A
  obtain ⟨r1, c1, g⟩ := B
  simp only at hr hc
  subst hr
  subst hc
  congr
  funext i j
  have := h i.val j.val i.isLt j.isLt
  simpa [get] using this

theorem ofFn_congr {r c : Nat} {f g : Nat → Nat → K}
    (h : ∀ i j, i < r → j < c → f i j = g i j) : ofFn r c f = ofFn r c g := by
  refine ext_get (by simp) (by simp) ?_
  intro i j hi hj
  simp only [rows_ofFn, cols_ofFn] at hi hj
  simp [hi, hj, h i j hi hj]

theorem ofFn_get (A : MatrixXd K) : ofFn A.rows A.cols A.get = A := by
  refine ext_get (by simp) (by simp) ?_
  intro i j hi hj
  simp only [rows_ofFn, cols_ofFn] at hi hj
  simp [hi, hj]

theorem coeffAt_eq_get {A : MatrixXd K} {i j : Nat} (hi : i < A.rows) (hj : j < A.cols) :
    A.coeffAt i j = some (A.get i j) := by
  unfold coeffAt get
  simp [hi, hj]

@[simp] theorem size_col (A : MatrixXd K) (j : Nat) : (A.col j).size = A.rows := rfl

theorem get_col (A : MatrixXd K) (j i : Nat) : (A.col j).get i = A.get i j := by
  unfold col
  by_cases h : i < A.rows
  · simp [h]
  · simp [h, get_of_rows_le A j (Nat.le_of_not_lt h)]

end MatrixXd

/-! ## The column loop -/

namespace MatrixXd

/-- Closed form of the column loop when every step succeeds with a vector of the right
size: the first `k` columns are replaced, the others are kept. -/
theorem forCols_eq (g : VectorXd K → Option (VectorXd K)) (h : VectorXd K → VectorXd K)
    (M : MatrixXd K) (k : Nat) (hk : k ≤ M.cols)
    (hg : ∀ c, c < k → g (M.col c) = some (h (M.col c)))
    (hsz : ∀ c, c < k → (h (M.col c)).size = M.rows) :
    M.forCols g k = some (ofFn M.rows M.cols fun r c =>
      if c < k then (h (M.col c)).get r else M.get r c) := by
  induction k with
  | zero =>
    simp only [forCols, Option.some.injEq]
    rw [← ofFn_get M]
    exact ofFn_congr fun i j _ _ => by simp [ofFn_get]
  | succ k ih =>
    have hkc : k < M.cols := hk
    rw [forCols, ih (Nat.le_of_lt hkc) (fun c hc => hg c (Nat.lt_succ_of_lt hc))
      (fun c hc => hsz c (Nat.lt_succ_of_lt hc))]
    have hcol : (ofFn M.rows M.cols fun r c =>
        if c < k then (h (M.col c)).get r else M.get r c).col k = M.col k := by
      unfold col
      refine VectorXd.ofFnv_congr fun i hi => ?_
      simp only [rows_ofFn] at hi
      simp [hi, hkc]
    simp only [Option.bind_eq_bind, Option.some_bind, hcol, hg k (Nat.lt_succ_self k)]
    simp only [setCol, rows_ofFn, cols_ofFn, hkc, hsz k (Nat.lt_succ_self k), and_self,
      if_true, Option.some.injEq]
    refine ofFn_congr fun i c hi hc => ?_
    by_cases h1 : c = k
    · subst h1
      simp
    · have : c < k + 1 ↔ c < k := by omega
      simp [h1, hi, hc, this]

end MatrixXd

end Containers

variable {K : Type} [LinearOrderedField K]

/-! ## Sigma points and recovered moments -/

namespace UnscentedTransform

/-- A sum over the `2n+1` sigma points splits into the centre, the `n` points on the
positive side and the `n` points on the negative side. -/
theorem sum_sigma_split (F : Nat → K) (n : Nat) :
    ∑ c ∈ Finset.range (2 * n + 1), F c
      = F 0 + ∑ i ∈ Finset.range n, F (i + 1) + ∑ i ∈ Finset.range n, F (n + i + 1) := by
  rw [Finset.sum_range_succ', two_mul, Finset.sum_range_add]
  ring

section Points

variable {K : Type} [AddCommMonoid K] [Monoid K] [Sub K] [Div K] [NatCast K]

theorem rawPoint_get_zero (mean : VectorXd K) (S : MatrixXd K) {r : Nat}
    (hr : r < mean.size) : (rawPoint mean S 0).get r = mean.get r := by
  simp [rawPoint, hr]

theorem rawPoint_get_pos (mean : VectorXd K) (S : MatrixXd K) {r i : Nat}
    (hr : r < mean.size) (hi : i < mean.size) :
    (rawPoint mean S (i + 1)).get r = mean.get r + S.get r i := by
  have h1 : i + 1 ≤ mean.size := hi
  simp [rawPoint, hr, h1]

theorem rawPoint_get_neg (mean : VectorXd K) (S : MatrixXd K) {r : Nat} (i : Nat)
    (hr : r < mean.size) :
    (rawPoint mean S (mean.size + i + 1)).get r = mean.get r - S.get r i := by
  have h1 : ¬ (mean.size + i + 1 ≤ mean.size) := by omega
  have h2 : mean.size + i + 1 - 1 - mean.size = i := by omega
  simp [rawPoint, hr, h1, h2]

/-- Entries of the sigma points computed with the identity normalisation. -/
theorem calcSigmaPoints_points_get (T : UnscentedTransform K) (mean : VectorXd K)
    (cov : MatrixXd K) {r c : Nat} (hr : r < mean.size) (hc : c < 2 * mean.size + 1) :
    (T.calcSigmaPoints mean cov id).points.get r c
      = (rawPoint mean (T.matSqrt (MatrixXd.smul
          ((mean.size : K) + T.calcLambda mean.size) cov)) c).get r := by
  simp [calcSigmaPoints, hr, hc]

theorem calcSigmaPoints_rows (T : UnscentedTransform K) (mean : VectorXd K)
    (cov : MatrixXd K) (nrm : VectorXd K → VectorXd K) :
    (T.calcSigmaPoints mean cov nrm).points.rows = mean.size := rfl

theorem calcSigmaPoints_cols (T : UnscentedTransform K) (mean : VectorXd K)
    (cov : MatrixXd K) (nrm : VectorXd K → VectorXd K) :
    (T.calcSigmaPoints mean cov nrm).points.cols = 2 * mean.size + 1 := rfl

/-- The weights of `calcSigmaPoints`, entry by entry. -/
theorem calcSigmaPoints_weights_get (T : UnscentedTransform K) (mean : VectorXd K)
    (cov : MatrixXd K) (nrm : VectorXd K → VectorXd K) {r c : Nat} (hr : r < 2)
    (hc : c < 2 * mean.size + 1) :
    (T.calcSigmaPoints mean cov nrm).weights.get r c =
      if c = 0 then
        (if r = 0 then T.calcLambda mean.size / ((mean.size : K) + T.calcLambda mean.size)
         else T.calcLambda mean.size / ((mean.size : K) + T.calcLambda mean.size)
           + (1 - T.alpha ^ 2 + T.beta))
      else 1 / (2 * ((mean.size : K) + T.calcLambda mean.size)) := by
  simp [calcSigmaPoints, hr, hc]

end Points

/-- What a square root of `k * cov` satisfies entry by entry. -/
theorem IsSqrtOf.entries {S cov : MatrixXd K} {k : K} {n : Nat}
    (hS : IsSqrtOf S (MatrixXd.smul k cov)) (hr : cov.rows = n) (hc : cov.cols = n) :
    S.rows = n ∧ S.cols = n ∧ ∀ r s, r < n → s < n →
      ∑ i ∈ Finset.range n, S.get r i * S.get s i = k * cov.get r s := by
  obtain ⟨h1, h2⟩ := hS
  have hSc : S.cols = n := by rw [h1]; exact hc
  have h3 : S.cols = S.transpose.rows := rfl
  rw [MatrixXd.mul, if_pos h3] at h2
  have h4 := Option.some.inj h2
  have hSr : S.rows = n := by
    have := congrArg MatrixXd.rows h4
    simpa [MatrixXd.smul, hr] using this
  refine ⟨hSr, hSc, fun r s hr1 hs1 => ?_⟩
  have h5 := congrArg (fun M => M.get r s) h4
  simp only [MatrixXd.get_ofFn, MatrixXd.transpose, MatrixXd.smul, MatrixXd.cols_ofFn,
    MatrixXd.rows_ofFn, hSr, hSc, hr, hc, hr1, hs1, and_self, if_true] at h5
  rw [← h5]
  refine Finset.sum_congr rfl fun i hi => ?_
  have hi1 : i < n := Finset.mem_range.mp hi
  simp [hi1, hs1]

end UnscentedTransform

namespace UnscentedTransform

/-- The mean weights of `calcSigmaPoints` add up to `1` when `n + lambda` is not zero. -/
theorem sum_mean_weights (T : UnscentedTransform K) (mean : VectorXd K) (cov : MatrixXd K)
    (nrm : VectorXd K → VectorXd K)
    (hlam : (mean.size : K) + T.calcLambda mean.size ≠ 0) :
    ∑ c ∈ Finset.range (2 * mean.size + 1), (T.calcSigmaPoints mean cov nrm).weights.get 0 c
      = 1 := by
  rw [sum_sigma_split]
  rw [calcSigmaPoints_weights_get T mean cov nrm (by decide) (by omega)]
  have h1 : ∀ i ∈ Finset.range mean.size,
      (T.calcSigmaPoints mean cov nrm).weights.get 0 (i + 1)
        = 1 / (2 * ((mean.size : K) + T.calcLambda mean.size)) := by
    intro i hi
    have hi1 : i < mean.size := Finset.mem_range.mp hi
    rw [calcSigmaPoints_weights_get T mean cov nrm (by decide) (by omega)]
    simp
  have h2 : ∀ i ∈ Finset.range mean.size,
      (T.calcSigmaPoints mean cov nrm).weights.get 0 (mean.size + i + 1)
        = 1 / (2 * ((mean.size : K) + T.calcLambda mean.size)) := by
    intro i hi
    have hi1 : i < mean.size := Finset.mem_range.mp hi
    rw [calcSigmaPoints_weights_get T mean cov nrm (by decide) (by omega)]
    simp
  rw [Finset.sum_congr rfl h1, Finset.sum_congr rfl h2]
  simp only [if_true, Finset.sum_const, Finset.card_range, nsmul_eq_mul]
  field_simp
  ring

/-- With the identity normalisation the weighted mean of the sigma points is the mean
they were built from. -/
theorem weighted_mean_entry (T : UnscentedTransform K) (mean : VectorXd K) (cov : MatrixXd K)
    (hlam : (mean.size : K) + T.calcLambda mean.size ≠ 0) {r : Nat} (hr : r < mean.size) :
    ∑ c ∈ Finset.range (2 * mean.size + 1),
      (T.calcSigmaPoints mean cov id).weights.get 0 c
        * (T.calcSigmaPoints mean cov id).points.get r c = mean.get r := by
  rw [sum_sigma_split]
  rw [calcSigmaPoints_weights_get T mean cov id (by decide) (by omega),
    calcSigmaPoints_points_get T mean cov hr (by omega), rawPoint_get_zero mean _ hr]
  have h1 : ∀ i ∈ Finset.range mean.size,
      (T.calcSigmaPoints mean cov id).weights.get 0 (i + 1)
        * (T.calcSigmaPoints mean cov id).points.get r (i + 1)
      = 1 / (2 * ((mean.size : K) + T.calcLambda mean.size)) * (mean.get r
        + (T.matSqrt (MatrixXd.smul
          ((mean.size : K) + T.calcLambda mean.size) cov)).get r i) := by
    intro i hi
    have hi1 : i < mean.size := Finset.mem_range.mp hi
    rw [calcSigmaPoints_weights_get T mean cov id (by decide) (by omega),
      calcSigmaPoints_points_get T mean cov hr (by omega), rawPoint_get_pos mean _ hr hi1]
    simp
  have h2 : ∀ i ∈ Finset.range mean.size,
      (T.calcSigmaPoints mean cov id).weights.get 0 (mean.size + i + 1)
        * (T.calcSigmaPoints mean cov id).points.get r (mean.size + i + 1)
      = 1 / (2 * ((mean.size : K) + T.calcLambda mean.size)) * (mean.get r
        - (T.matSqrt (MatrixXd.smul
          ((mean.size : K) + T.calcLambda mean.size) cov)).get r i) := by
    intro i hi
    have hi1 : i < mean.size := Finset.mem_range.mp hi
    rw [calcSigmaPoints_weights_get T mean cov id (by decide) (by omega),
      calcSigmaPoints_points_get T mean cov hr (by omega), rawPoint_get_neg mean _ i hr]
    simp
  rw [Finset.sum_congr rfl h1, Finset.sum_congr rfl h2, add_assoc, ← Finset.sum_add_distrib]
  have h3 : ∀ i ∈ Finset.range mean.size,
      1 / (2 * ((mean.size : K) + T.calcLambda mean.size)) * (mean.get r
        + (T.matSqrt (MatrixXd.smul
          ((mean.size : K) + T.calcLambda mean.size) cov)).get r i)
      + 1 / (2 * ((mean.size : K) + T.calcLambda mean.size)) * (mean.get r
        - (T.matSqrt (MatrixXd.smul
          ((mean.size : K) + T.calcLambda mean.size) cov)).get r i)
      = mean.get r / ((mean.size : K) + T.calcLambda mean.size) := by
    intro i _
    field_simp
    ring
  rw [Finset.sum_congr rfl h3]
  simp only [if_true, Finset.sum_const, Finset.card_range, nsmul_eq_mul]
  field_simp
  ring

/-- With the identity normalisation the weighted second moment of the sigma points about
the mean is the covariance they were built from, for any valid square root. -/
theorem weighted_cov_entry (T : UnscentedTransform K) (mean : VectorXd K) (cov : MatrixXd K)
    (hrows : cov.rows = mean.size) (hcols : cov.cols = mean.size)
    (hlam : (mean.size : K) + T.calcLambda mean.size ≠ 0)
    (hS : IsSqrtOf (T.matSqrt (MatrixXd.smul ((mean.size : K) + T.calcLambda mean.size) cov))
      (MatrixXd.smul ((mean.size : K) + T.calcLambda mean.size) cov))
    {r s : Nat} (hr : r < mean.size) (hs : s < mean.size) :
    ∑ c ∈ Finset.range (2 * mean.size + 1),
      (T.calcSigmaPoints mean cov id).weights.get 1 c
        * ((T.calcSigmaPoints mean cov id).points.get r c - mean.get r)
        * ((T.calcSigmaPoints mean cov id).points.get s c - mean.get s) = cov.get r s := by
  obtain ⟨_, _, hent⟩ := IsSqrtOf.entries hS hrows hcols
  rw [sum_sigma_split]
  rw [calcSigmaPoints_points_get T mean cov hr (by omega), rawPoint_get_zero mean _ hr]
  have h1 : ∀ i ∈ Finset.range mean.size,
      (T.calcSigmaPoints mean cov id).weights.get 1 (i + 1)
        * ((T.calcSigmaPoints mean cov id).points.get r (i + 1) - mean.get r)
        * ((T.calcSigmaPoints mean cov id).points.get s (i + 1) - mean.get s)
      = 1 / (2 * ((mean.size : K) + T.calcLambda mean.size))
        * ((T.matSqrt (MatrixXd.smul
            ((mean.size : K) + T.calcLambda mean.size) cov)).get r i
          * (T.matSqrt (MatrixXd.smul
            ((mean.size : K) + T.calcLambda mean.size) cov)).get s i) := by
    intro i hi
    have hi1 : i < mean.size := Finset.mem_range.mp hi
    rw [calcSigmaPoints_weights_get T mean cov id (by decide) (by omega),
      calcSigmaPoints_points_get T mean cov hr (by omega),
      calcSigmaPoints_points_get T mean cov hs (by omega),
      rawPoint_get_pos mean _ hr hi1, rawPoint_get_pos mean _ hs hi1]
    simp only [Nat.succ_ne_zero, if_false]
    ring
  have h2 : ∀ i ∈ Finset.range mean.size,
      (T.calcSigmaPoints mean cov id).weights.get 1 (mean.size + i + 1)
        * ((T.calcSigmaPoints mean cov id).points.get r (mean.size + i + 1) - mean.get r)
        * ((T.calcSigmaPoints mean cov id).points.get s (mean.size + i + 1) - mean.get s)
      = 1 / (2 * ((mean.size : K) + T.calcLambda mean.size))
        * ((T.matSqrt (MatrixXd.smul
            ((mean.size : K) + T.calcLambda mean.size) cov)).get r i
          * (T.matSqrt (MatrixXd.smul
            ((mean.size : K) + T.calcLambda mean.size) cov)).get s i) := by
    intro i hi
    have hi1 : i < mean.size := Finset.mem_range.mp hi
    rw [calcSigmaPoints_weights_get T mean cov id (by decide) (by omega),
      calcSigmaPoints_points_get T mean cov hr (by omega),
      calcSigmaPoints_points_get T mean cov hs (by omega),
      rawPoint_get_neg mean _ i hr, rawPoint_get_neg mean _ i hs]
    simp only [Nat.succ_ne_zero, if_false]
    ring
  rw [Finset.sum_congr rfl h1, Finset.sum_congr rfl h2, ← Finset.mul_sum, hent r s hr hs]
  field_simp
  ring

end UnscentedTransform

namespace UnscentedTransform

/-- Round trip of the mean (identity normalisation). -/
theorem recoverMean_calcSigmaPoints (T : UnscentedTransform K) (mean : VectorXd K)
    (cov : MatrixXd K) (hlam : (mean.size : K) + T.calcLambda mean.size ≠ 0) :
    T.recoverMean (T.calcSigmaPoints mean cov id) id = mean := by
  simp only [recoverMean, id]
  refine VectorXd.extv_get rfl fun r hr => ?_
  have hr1 : r < mean.size := hr
  rw [VectorXd.getv_ofFn, if_pos (show r < (T.calcSigmaPoints mean cov id).points.rows from hr1)]
  exact weighted_mean_entry T mean cov hlam hr1

/-- Deviation of a sigma point from a vector, entry by entry (identity normalisation). -/
theorem deviation_get (sigma : SigmaPoints K) (mean : VectorXd K) (c : Nat) {r : Nat}
    (hr : r < sigma.points.rows) :
    (deviation sigma mean id c).get r = sigma.points.get r c - mean.get r := by
  simp [deviation, hr]

/-- Round trip of the covariance (identity normalisation, any valid square root). -/
theorem recoverCovariance_calcSigmaPoints (T : UnscentedTransform K) (mean : VectorXd K)
    (cov : MatrixXd K) (hrows : cov.rows = mean.size) (hcols : cov.cols = mean.size)
    (hlam : (mean.size : K) + T.calcLambda mean.size ≠ 0)
    (hS : IsSqrtOf (T.matSqrt (MatrixXd.smul ((mean.size : K) + T.calcLambda mean.size) cov))
      (MatrixXd.smul ((mean.size : K) + T.calcLambda mean.size) cov)) :
    T.recoverCovariance (T.calcSigmaPoints mean cov id) mean id = cov := by
  refine MatrixXd.ext_get hrows.symm hcols.symm fun r s hr hs => ?_
  have hr1 : r < mean.size := hr
  have hs1 : s < mean.size := hs
  simp only [recoverCovariance]
  rw [MatrixXd.get_ofFn, if_pos ⟨hr, hs⟩]
  rw [← weighted_cov_entry T mean cov hrows hcols hlam hS hr1 hs1]
  refine Finset.sum_congr rfl fun c _ => ?_
  rw [deviation_get _ _ _ hr, deviation_get _ _ _ hs]

end UnscentedTransform

namespace Examples

theorem ratSqrt_mul_self (q : ℚ) : Rat.sqrt (q * q) * Rat.sqrt (q * q) = q * q := by
  rw [Rat.sqrt_eq, abs_mul_abs_self]

/-- A diagonal matrix whose entries square to the diagonal of the diagonal matrix `M` is a
square root of `M`. -/
theorem diagonal_isSqrtOf (M : MatrixXd ℚ) (ρ : Nat → ℚ) (hsq : M.rows = M.cols)
    (hoff : ∀ i j, i < M.rows → j < M.rows → i ≠ j → M.get i j = 0)
    (hdiag : ∀ i, i < M.rows → ρ i * ρ i = M.get i i) :
    IsSqrtOf (MatrixXd.ofFn M.rows M.cols fun i j => if i = j then ρ i else 0) M := by
  refine ⟨rfl, ?_⟩
  have h3 : (MatrixXd.ofFn M.rows M.cols fun i j => if i = j then ρ i else 0).cols
      = (MatrixXd.ofFn M.rows M.cols fun i j => if i = j then ρ i else 0).transpose.rows := rfl
  rw [MatrixXd.mul, if_pos h3]
  simp only [Option.some.injEq]
  refine MatrixXd.ext_get rfl hsq fun i j hi hj => ?_
  have hi1 : i < M.rows := hi
  have hj1 : j < M.rows := hj
  have hj2 : j < M.cols := hsq ▸ hj1
  have hi2 : i < M.cols := hsq ▸ hi1
  rw [MatrixXd.get_ofFn, if_pos ⟨hi, hj⟩]
  simp only [MatrixXd.transpose, MatrixXd.get_ofFn, MatrixXd.rows_ofFn, MatrixXd.cols_ofFn]
  have hterm : ∀ k ∈ Finset.range M.cols,
      (if i < M.rows ∧ k < M.cols then if i = k then ρ i else 0 else 0)
        * (if k < M.cols ∧ j < M.rows then
            if j < M.rows ∧ k < M.cols then if j = k then ρ j else 0 else 0
          else 0)
      = if i = k then (if j = i then ρ i * ρ i else 0) else 0 := by
    intro k hk
    have hk1 : k < M.cols := Finset.mem_range.mp hk
    by_cases hik : i = k
    · subst hik
      by_cases hji : j = i
      · subst hji
        simp [hi1, hk1]
      · simp [hi1, hk1, hj1, hji]
    · simp [hik]
  rw [Finset.sum_congr rfl hterm, Finset.sum_ite_eq, if_pos (Finset.mem_range.mpr hi2)]
  by_cases hji : j = i
  · subst hji
    rw [if_pos rfl, hdiag j hj1]
  · rw [if_neg hji, hoff i j hi1 hj1 (fun h => hji h.symm)]

/-- The entrywise root of a diagonal matrix with square diagonal entries is a square root
of it. -/
theorem diagSqrt_isSqrtOf (M : MatrixXd ℚ) (hsq : M.rows = M.cols)
    (hoff : ∀ i j, i < M.rows → j < M.rows → i ≠ j → M.get i j = 0)
    (hdiag : ∀ i, i < M.rows → ∃ q, M.get i i = q * q) :
    IsSqrtOf (diagSqrt M) M := by
  refine diagonal_isSqrtOf M (fun i => Rat.sqrt (M.get i i)) hsq hoff fun i hi => ?_
  obtain ⟨q, hq⟩ := hdiag i hi
  show Rat.sqrt (M.get i i) * Rat.sqrt (M.get i i) = M.get i i
  rw [hq, ratSqrt_mul_self]

/-- Scaled identity matrices meet the conditions of `diagSqrt_isSqrtOf`. -/
theorem diagSqrt_smul_identity (n : Nat) (q : ℚ) :
    IsSqrtOf (diagSqrt (MatrixXd.smul (q * q) (MatrixXd.Identity n n)))
      (MatrixXd.smul (q * q) (MatrixXd.Identity n n)) := by
  refine diagSqrt_isSqrtOf _ rfl (fun i j hi hj hij => ?_) (fun i hi => ⟨q, ?_⟩)
  · have hi1 : i < n := hi
    have hj1 : j < n := hj
    simp [MatrixXd.smul, MatrixXd.Identity, hi1, hj1, hij]
  · have hi1 : i < n := hi
    simp [MatrixXd.smul, MatrixXd.Identity, hi1]

end Examples

/-! ## The noise covariance built by `correct` -/

section NoiseCovariance

variable {K : Type} [AddCommMonoid K] [Monoid K] [Sub K] [Div K] [NatCast K]

namespace UnscentedKalmanFilter

/-- Closed form of the tiling loop after `k` iterations on the zero matrix. -/
theorem tileLoop_zero (sc : MatrixXd K) (hsq : sc.rows = sc.cols) (hm : 0 < sc.rows)
    (L k : Nat) (hk : k ≤ L) :
    tileLoop sc k (MatrixXd.zero L L) = some (MatrixXd.ofFn L L fun a b =>
      if a = b ∧ a < k then sc.get (a % sc.rows) (a % sc.rows) else 0) := by
  induction k with
  | zero =>
    simp only [tileLoop, MatrixXd.zero, Option.some.injEq]
    exact MatrixXd.ofFn_congr fun i j _ _ => by simp
  | succ k ih =>
    have hkL : k < L := hk
    have hj : k % sc.rows < sc.rows := Nat.mod_lt _ hm
    rw [tileLoop, ih (Nat.le_of_lt hkL)]
    simp only [Option.bind_eq_bind, Option.some_bind, Nat.ne_of_gt hm, if_false]
    rw [MatrixXd.coeffAt_eq_get hj (hsq ▸ hj)]
    simp only [Option.some_bind, MatrixXd.setCoeff, MatrixXd.rows_ofFn, MatrixXd.cols_ofFn,
      hkL, and_self, if_true, Option.some.injEq]
    refine MatrixXd.ofFn_congr fun a b ha hb => ?_
    by_cases h1 : a = k ∧ b = k
    · obtain ⟨rfl, rfl⟩ := h1
      simp
    · rw [if_neg h1, MatrixXd.get_ofFn, if_pos ⟨ha, hb⟩]
      by_cases h2 : a = b
      · subst h2
        have hak : a ≠ k := fun h => h1 ⟨h, h⟩
        have : a < k + 1 ↔ a < k := by omega
        simp [this]
      · simp [h2]

/-- Closed form of `obsCov`: a diagonal matrix that repeats the diagonal of `sensorCov`. -/
theorem obsNoiseCov_eq (sc : MatrixXd K) (hsq : sc.rows = sc.cols) (hm : 0 < sc.rows)
    (obs : VectorXd K) :
    obsNoiseCov sc obs = some (MatrixXd.ofFn obs.size obs.size fun a b =>
      if a = b then sc.get (a % sc.rows) (a % sc.rows) else 0) := by
  rw [obsNoiseCov, if_pos hsq, tileLoop_zero sc hsq hm obs.size obs.size (Nat.le_refl _)]
  simp only [Option.some.injEq]
  refine MatrixXd.ofFn_congr fun a b ha _ => ?_
  simp [ha]

end UnscentedKalmanFilter

end NoiseCovariance

/-- C3 (refuted as stated): for the `2 x 2` covariance with ones on the diagonal and
`1/2` off it, and an observation of length `1 * 2`, the noise covariance built by
`correct` is not the block-diagonal matrix made of one copy of that covariance. -/
theorem obsNoiseCov_not_blockDiag :
    Examples.corrCov.rows = 2 ∧ Examples.corrCov.cols = 2 ∧ Examples.ones2.size = 1 * 2 ∧
    UnscentedKalmanFilter.obsNoiseCov Examples.corrCov Examples.ones2
      ≠ some (blockDiag Examples.corrCov 1) := by
  refine ⟨rfl, rfl, rfl, ?_⟩
  rw [UnscentedKalmanFilter.obsNoiseCov_eq Examples.corrCov rfl (by decide)]
  intro h
  have h1 := congrArg (fun M => M.get 0 1) (Option.some.inj h)
  simp [blockDiag, Examples.corrCov, Examples.ones2] at h1

/-- C3 (amended): for a square `m x m` `sensorCov` with `m >= 1` and an observation vector
of length `k * m`, the noise covariance built by `correct` is the block-diagonal matrix
made of `k` copies of the diagonal part of `sensorCov`: the off-diagonal entries of
`sensorCov` are not copied, and all other entries are zero. -/
theorem obsNoiseCov_blockDiag_diagPart (sensorCov : MatrixXd K) (obs : VectorXd K) (k : Nat)
    (hsq : sensorCov.rows = sensorCov.cols) (hm : 1 ≤ sensorCov.rows)
    (hL : obs.size = k * sensorCov.rows) :
    UnscentedKalmanFilter.obsNoiseCov sensorCov obs
      = some (blockDiag (diagPart sensorCov) k) := by
  rw [UnscentedKalmanFilter.obsNoiseCov_eq sensorCov hsq hm]
  simp only [Option.some.injEq]
  have hmod : ∀ a, a % sensorCov.rows < sensorCov.rows := fun a => Nat.mod_lt _ hm
  refine MatrixXd.ext_get (by simp [blockDiag, diagPart, hL])
    (by simp [blockDiag, diagPart, hL]) ?_
  intro a b ha hb
  simp only [MatrixXd.rows_ofFn, MatrixXd.cols_ofFn] at ha hb
  have ha1 : a < k * sensorCov.rows := hL ▸ ha
  have hb1 : b < k * sensorCov.rows := hL ▸ hb
  simp only [blockDiag, diagPart, MatrixXd.rows_ofFn, MatrixXd.get_ofFn, ha, hb, ha1, hb1,
    and_self, if_true, hmod, ← hsq]
  by_cases hab : a = b
  · subst hab
    simp
  · rw [if_neg hab]
    by_cases hd : a / sensorCov.rows = b / sensorCov.rows
    · have hne : a % sensorCov.rows ≠ b % sensorCov.rows := by
        intro hmm
        apply hab
        rw [← Nat.div_add_mod a sensorCov.rows, ← Nat.div_add_mod b sensorCov.rows, hd, hmm]
      simp [hd, hne]
    · simp [hd]

/-- Witness of C3 (amended): the correlated `2 x 2` covariance and one measurement. -/
theorem obsNoiseCov_blockDiag_diagPart_witness :
    UnscentedKalmanFilter.obsNoiseCov Examples.corrCov Examples.ones2
      = some (blockDiag (diagPart Examples.corrCov) 1) :=
  obsNoiseCov_blockDiag_diagPart Examples.corrCov Examples.ones2 1 rfl (by decide) rfl

/-! ## The prediction step -/

/-- C2: for a filter with state dimension `n`, an `n x n` `motionCov`, and a motion model
and state normalisation that return vectors of dimension `n` on the sigma points,
`predict` succeeds and replaces the belief by `(m, P + motionCov)`: the sigma set is
`calcSigmaPoints(state, cov, normalizeState)` with every point `p` replaced by
`normalizeState(estimateState(p, controls, observations))`, `m` is its recovered mean and
`P` its covariance recovered about `m`, both with `normalizeState`; `motionCov` enters
only through the entrywise sum, and nothing else of the filter changes. -/
theorem predict_eq (f : UnscentedKalmanFilter K) (controls : VectorXd K)
    (observations motionCov : MatrixXd K)
    (hr : motionCov.rows = f.state_.size) (hc : motionCov.cols = f.state_.size)
    (hmodel : ∀ c, c < 2 * f.state_.size + 1 →
      (f.normState_ (f.motionModel
        ((f.unscentTrans_.calcSigmaPoints f.state_ f.cov_ f.normState_).points.col c)
        controls observations)).size = f.state_.size) :
    let sigma := mapPoints (fun p => f.normState_ (f.motionModel p controls observations))
      (f.unscentTrans_.calcSigmaPoints f.state_ f.cov_ f.normState_)
    let m := f.unscentTrans_.recoverMean sigma f.normState_
    let P := f.unscentTrans_.recoverCovariance sigma m f.normState_
    f.predict controls observations motionCov
      = some { f with
          state_ := m
          cov_ := MatrixXd.ofFn f.state_.size f.state_.size fun i j =>
            P.get i j + motionCov.get i j }
    ∧ P.add motionCov = some (MatrixXd.ofFn f.state_.size f.state_.size fun i j =>
            P.get i j + motionCov.get i j) := by
  intro sigma m P
  have hPr : P.rows = f.state_.size := rfl
  have hPc : P.cols = f.state_.size := rfl
  have hadd : P.add motionCov = some (MatrixXd.ofFn f.state_.size f.state_.size fun i j =>
      P.get i j + motionCov.get i j) := by
    simp [MatrixXd.add, hPr, hPc, hr, hc]
  refine ⟨?_, hadd⟩
  have hloop := MatrixXd.forCols_eq
    (fun p => some (f.normState_ (f.motionModel p controls observations)))
    (fun p => f.normState_ (f.motionModel p controls observations))
    (f.unscentTrans_.calcSigmaPoints f.state_ f.cov_ f.normState_).points
    (f.unscentTrans_.calcSigmaPoints f.state_ f.cov_ f.normState_).points.cols
    (Nat.le_refl _) (fun _ _ => rfl) hmodel
  have hpts : (MatrixXd.ofFn
      (f.unscentTrans_.calcSigmaPoints f.state_ f.cov_ f.normState_).points.rows
      (f.unscentTrans_.calcSigmaPoints f.state_ f.cov_ f.normState_).points.cols fun r c =>
        if c < (f.unscentTrans_.calcSigmaPoints f.state_ f.cov_ f.normState_).points.cols then
          (f.normState_ (f.motionModel
            ((f.unscentTrans_.calcSigmaPoints f.state_ f.cov_ f.normState_).points.col c)
            controls observations)).get r
        else (f.unscentTrans_.calcSigmaPoints f.state_ f.cov_ f.normState_).points.get r c)
      = sigma.points := by
    simp only [sigma, mapPoints]
    refine MatrixXd.ofFn_congr fun i j _ hj => ?_
    simp [hj]
  rw [hpts] at hloop
  rw [UnscentedKalmanFilter.predict, if_pos ⟨hr.symm, hc.symm⟩]
  simp only [Option.bind_eq_bind, hloop, Option.some_bind]
  show (P.add motionCov).bind _ = _
  rw [hadd]
  rfl

/-- Witness of C2: the filter with belief `((1, 1, 1), I)`, identity motion model and
zero process noise. -/
theorem predict_eq_witness :
    let sigma := mapPoints
      (fun p => Examples.filter3.normState_
        (Examples.filter3.motionModel p Examples.ones3 (MatrixXd.zero 3 3)))
      (Examples.filter3.unscentTrans_.calcSigmaPoints Examples.filter3.state_
        Examples.filter3.cov_ Examples.filter3.normState_)
    let m := Examples.filter3.unscentTrans_.recoverMean sigma Examples.filter3.normState_
    let P := Examples.filter3.unscentTrans_.recoverCovariance sigma m
      Examples.filter3.normState_
    Examples.filter3.predict Examples.ones3 (MatrixXd.zero 3 3) (MatrixXd.zero 3 3)
      = some { Examples.filter3 with
          state_ := m
          cov_ := MatrixXd.ofFn Examples.filter3.state_.size Examples.filter3.state_.size
            fun i j => P.get i j + (MatrixXd.zero 3 3 : MatrixXd ℚ).get i j }
    ∧ P.add (MatrixXd.zero 3 3)
      = some (MatrixXd.ofFn Examples.filter3.state_.size Examples.filter3.state_.size
          fun i j => P.get i j + (MatrixXd.zero 3 3 : MatrixXd ℚ).get i j) :=
  predict_eq Examples.filter3 Examples.ones3 (MatrixXd.zero 3 3) (MatrixXd.zero 3 3) rfl rfl
    (fun _ _ => rfl)

/-! ## Round trip and weights of the transform -/

namespace Examples

theorem trans000_denominator (n : Nat) : (n : ℚ) + trans000.calcLambda n = 0 := by
  simp [UnscentedTransform.calcLambda, trans000]

/-- Every mean weight of the degenerate transform is a quotient by zero. -/
theorem trans000_weights (mean : VectorXd ℚ) (cov : MatrixXd ℚ) (c : Nat) :
    (trans000.calcSigmaPoints mean cov id).weights.get 0 c = 0 := by
  simp only [UnscentedTransform.calcSigmaPoints, MatrixXd.get_ofFn, trans000_denominator]
  simp

/-- So is every covariance weight of the degenerate transform but the first. -/
theorem trans000_weights_cov (mean : VectorXd ℚ) (cov : MatrixXd ℚ) {c : Nat} (hc : c ≠ 0) :
    (trans000.calcSigmaPoints mean cov id).weights.get 1 c = 0 := by
  simp only [UnscentedTransform.calcSigmaPoints, MatrixXd.get_ofFn, trans000_denominator]
  simp [hc]

end Examples

/-- C5 (refuted as stated): with `alpha = 0` the dimension `n = 2` has `n + lambda = 0`;
the zero matrix is then a valid square root of `(n + lambda) * I`, and the mean recovered
from the sigma points of `((1, 1), I)` is not `(1, 1)`. -/
theorem roundTrip_fails_alpha_zero :
    IsSqrtOf (Examples.trans000.matSqrt (MatrixXd.smul
        ((Examples.ones2.size : ℚ) + Examples.trans000.calcLambda Examples.ones2.size)
        (MatrixXd.Identity 2 2)))
      (MatrixXd.smul
        ((Examples.ones2.size : ℚ) + Examples.trans000.calcLambda Examples.ones2.size)
        (MatrixXd.Identity 2 2))
    ∧ Examples.trans000.recoverMean
        (Examples.trans000.calcSigmaPoints Examples.ones2 (MatrixXd.Identity 2 2) id) id
      ≠ Examples.ones2 := by
  constructor
  · have h : (Examples.ones2.size : ℚ) + Examples.trans000.calcLambda Examples.ones2.size
        = 0 * 0 := by
      rw [Examples.trans000_denominator]
      norm_num
    rw [h]
    exact Examples.diagSqrt_smul_identity 2 0
  · intro h
    have h1 := congrArg (fun v => v.get 0) h
    simp [UnscentedTransform.recoverMean, Examples.trans000_weights, Examples.ones2,
      UnscentedTransform.calcSigmaPoints_rows] at h1

/-- C5 (amended): for a mean `mu` of dimension `n`, an `n x n` covariance `Sigma`,
parameters with `n + lambda` different from zero, the identity normalisation and any
square root `S` with `S * S^T = (n + lambda) * Sigma`: the mean recovered from
`calcSigmaPoints(mu, Sigma)` is `mu`, the covariance recovered about `mu` is `Sigma`, and
`recoverDistrib` returns `(mu, Sigma)`. -/
theorem roundTrip_identity (T : UnscentedTransform K) (mu : VectorXd K) (Sigma : MatrixXd K)
    (hrows : Sigma.rows = mu.size) (hcols : Sigma.cols = mu.size)
    (hlam : (mu.size : K) + T.calcLambda mu.size ≠ 0)
    (hS : IsSqrtOf (T.matSqrt (MatrixXd.smul ((mu.size : K) + T.calcLambda mu.size) Sigma))
      (MatrixXd.smul ((mu.size : K) + T.calcLambda mu.size) Sigma)) :
    T.recoverMean (T.calcSigmaPoints mu Sigma id) id = mu
    ∧ T.recoverCovariance (T.calcSigmaPoints mu Sigma id) mu id = Sigma
    ∧ T.recoverDistrib (T.calcSigmaPoints mu Sigma id) = (mu, Sigma) := by
  have h1 := UnscentedTransform.recoverMean_calcSigmaPoints T mu Sigma hlam
  have h2 := UnscentedTransform.recoverCovariance_calcSigmaPoints T mu Sigma hrows hcols hlam hS
  refine ⟨h1, h2, ?_⟩
  rw [UnscentedTransform.recoverDistrib, h1, h2]

/-- Witness of C5 (amended): the first test of the round trip, `mu = (1, 1, 1)`,
`Sigma = I`, `alpha = beta = kappa = 1`, where `n + lambda = 4 = 2 * 2`. -/
theorem roundTrip_identity_witness :
    Examples.trans111.recoverDistrib
      (Examples.trans111.calcSigmaPoints Examples.ones3 (MatrixXd.Identity 3 3) id)
      = (Examples.ones3, MatrixXd.Identity 3 3) :=
  (roundTrip_identity Examples.trans111 Examples.ones3 (MatrixXd.Identity 3 3) rfl rfl
    (by norm_num [UnscentedTransform.calcLambda, Examples.trans111, Examples.ones3])
    (by
      have h : (Examples.ones3.size : ℚ) + Examples.trans111.calcLambda Examples.ones3.size
          = 2 * 2 := by
        norm_num [UnscentedTransform.calcLambda, Examples.trans111, Examples.ones3]
      rw [h]
      exact Examples.diagSqrt_smul_identity 3 2)).2.2

/-- C6 (refuted as stated): with `alpha = 0` and `n = 2` the denominator `n + lambda` is
zero, no number `w` satisfies `w * (n + lambda) = lambda`, and the mean weights computed
by the quotients do not add up to `1`. -/
theorem weights_sum_fails_alpha_zero :
    (2 : ℚ) + Examples.trans000.calcLambda 2 = 0
    ∧ (¬ ∃ w : ℚ, w * ((2 : ℚ) + Examples.trans000.calcLambda 2)
        = Examples.trans000.calcLambda 2)
    ∧ ∑ c ∈ Finset.range (2 * Examples.ones2.size + 1),
        (Examples.trans000.calcSigmaPoints Examples.ones2 (MatrixXd.Identity 2 2) id).weights.get
          0 c ≠ 1 := by
  have h0 : (2 : ℚ) + Examples.trans000.calcLambda 2 = 0 := by
    have := Examples.trans000_denominator 2
    simpa using this
  refine ⟨h0, ?_, ?_⟩
  · rintro ⟨w, hw⟩
    rw [h0, mul_zero] at hw
    have h1 : Examples.trans000.calcLambda 2 = -2 := by linarith
    rw [h1] at hw
    norm_num at hw
  · simp [Examples.trans000_weights]

/-- C6 (amended): for all `alpha`, `beta`, `kappa` and every dimension `n` with
`n + lambda` different from zero, the weights of `calcSigmaPoints` are
`wMean_0 = lambda / (n + lambda)` and `wMean_i = wCov_i = 1 / (2 (n + lambda))` for
`i = 1..2n`; the `2n+1` mean weights add up to exactly `1`, and
`wCov_0 = wMean_0 + (1 - alpha^2 + beta)`. -/
theorem weights_sum_one (T : UnscentedTransform K) (mean : VectorXd K) (cov : MatrixXd K)
    (nrm : VectorXd K → VectorXd K)
    (hlam : (mean.size : K) + T.calcLambda mean.size ≠ 0) :
    ∑ c ∈ Finset.range (2 * mean.size + 1), (T.calcSigmaPoints mean cov nrm).weights.get 0 c
      = 1
    ∧ (T.calcSigmaPoints mean cov nrm).weights.get 1 0
      = (T.calcSigmaPoints mean cov nrm).weights.get 0 0 + (1 - T.alpha ^ 2 + T.beta)
    ∧ (T.calcSigmaPoints mean cov nrm).weights.get 0 0
      = T.calcLambda mean.size / ((mean.size : K) + T.calcLambda mean.size)
    ∧ ∀ c, 1 ≤ c → c ≤ 2 * mean.size →
      (T.calcSigmaPoints mean cov nrm).weights.get 0 c
        = 1 / (2 * ((mean.size : K) + T.calcLambda mean.size))
      ∧ (T.calcSigmaPoints mean cov nrm).weights.get 1 c
        = 1 / (2 * ((mean.size : K) + T.calcLambda mean.size)) := by
  refine ⟨UnscentedTransform.sum_mean_weights T mean cov nrm hlam, ?_, ?_, ?_⟩
  · rw [UnscentedTransform.calcSigmaPoints_weights_get T mean cov nrm (by decide) (by omega),
      UnscentedTransform.calcSigmaPoints_weights_get T mean cov nrm (by decide) (by omega)]
    simp
  · rw [UnscentedTransform.calcSigmaPoints_weights_get T mean cov nrm (by decide) (by omega)]
    simp
  · intro c h1 h2
    have hc : c ≠ 0 := by omega
    rw [UnscentedTransform.calcSigmaPoints_weights_get T mean cov nrm (by decide) (by omega),
      UnscentedTransform.calcSigmaPoints_weights_get T mean cov nrm (by decide) (by omega)]
    simp [hc]

/-- Witness of C6 (amended): `alpha = beta = kappa = 1` and `n = 3`, where
`n + lambda = 4`. -/
theorem weights_sum_one_witness :
    ∑ c ∈ Finset.range (2 * Examples.ones3.size + 1),
      (Examples.trans111.calcSigmaPoints Examples.ones3 (MatrixXd.Identity 3 3) id).weights.get
        0 c = 1 :=
  (weights_sum_one Examples.trans111 Examples.ones3 (MatrixXd.Identity 3 3) id
    (by norm_num [UnscentedTransform.calcLambda, Examples.trans111, Examples.ones3])).1

/-! ## Linear scaling of the sigma points -/

/-- A sum that a diagonal factor collapses to a single term. -/
theorem sum_diag_left (n i : Nat) (a : K) (F : Nat → K) :
    ∑ k ∈ Finset.range n, (if i = k then a else 0) * F k = if i < n then a * F i else 0 := by
  simp only [ite_mul, zero_mul]
  rw [Finset.sum_ite_eq]
  simp

theorem diagMat_get (facs : VectorXd K) (i j : Nat) :
    (diagMat facs).get i j = if i = j then facs.get i else 0 := by
  simp only [diagMat, MatrixXd.get_ofFn]
  by_cases hij : i = j
  · subst hij
    by_cases hi : i < facs.size
    · simp [hi]
    · simp [hi, VectorXd.get_of_size_le facs (Nat.le_of_not_lt hi)]
  · simp [hij]

/-- The product `diag(facs) * v` is the entrywise product. -/
theorem diagMat_mulVec (facs v : VectorXd K) (h : facs.size = v.size) :
    (diagMat facs).mulVec v = some (VectorXd.ofFn facs.size fun i => facs.get i * v.get i) := by
  have hc : (diagMat facs).cols = v.size := h
  rw [MatrixXd.mulVec, if_pos hc]
  simp only [Option.some.injEq]
  refine VectorXd.ofFnv_congr fun i hi => ?_
  have hi1 : i < facs.size := hi
  simp only [diagMat_get]
  rw [sum_diag_left]
  simp [diagMat, hi1]

/-- The product `diag(facs) * M` scales the rows of `M`. -/
theorem diagMat_mul (facs : VectorXd K) (M : MatrixXd K) (h : M.rows = facs.size) :
    (diagMat facs).mul M
      = some (MatrixXd.ofFn facs.size M.cols fun i j => facs.get i * M.get i j) := by
  have hc : (diagMat facs).cols = M.rows := h.symm
  rw [MatrixXd.mul, if_pos hc]
  simp only [Option.some.injEq]
  refine MatrixXd.ofFn_congr fun i j hi _ => ?_
  have hi1 : i < facs.size := hi
  simp only [diagMat_get]
  rw [sum_diag_left]
  simp [diagMat, hi1]

/-- The product `M * diag(facs)` scales the columns of `M`. -/
theorem mul_diagMat (facs : VectorXd K) (M : MatrixXd K) (h : M.cols = facs.size) :
    M.mul (diagMat facs)
      = some (MatrixXd.ofFn M.rows facs.size fun i j => M.get i j * facs.get j) := by
  have hc : M.cols = (diagMat facs).rows := h
  rw [MatrixXd.mul, if_pos hc]
  simp only [Option.some.injEq]
  refine MatrixXd.ofFn_congr fun i j _ hj => ?_
  have hj1 : j < M.cols := h ▸ hj
  simp only [diagMat_get, mul_ite, mul_zero, Finset.sum_ite_eq', Finset.mem_range, hj1,
    if_true]

/-- A diagonal matrix is its own transpose. -/
theorem diagMat_transpose (facs : VectorXd K) : (diagMat facs).transpose = diagMat facs := by
  refine MatrixXd.ext_get rfl rfl fun i j hi hj => ?_
  have hi1 : i < facs.size := hi
  have hj1 : j < facs.size := hj
  rw [MatrixXd.transpose, MatrixXd.get_ofFn, if_pos ⟨hi, hj⟩, diagMat_get, diagMat_get]
  by_cases hij : i = j
  · subst hij
    simp
  · simp [hij, Ne.symm hij]

/-- Closed form of `linearTransformSig`. -/
theorem linearTransformSig_eq (sigma : SigmaPoints K) (facs : VectorXd K)
    (h : facs.size = sigma.points.rows) :
    linearTransformSig sigma facs = some
      { points := MatrixXd.ofFn sigma.points.rows sigma.points.cols fun r c =>
          sigma.points.get r c * facs.get r
        weights := sigma.weights } := by
  have hloop := MatrixXd.forCols_eq (fun p => linearTransform p facs)
    (fun p => VectorXd.ofFn p.size fun i => p.get i * facs.get i)
    sigma.points sigma.points.cols (Nat.le_refl _)
    (fun c _ => by
      have hsz : (sigma.points.col c).size = facs.size := h.symm
      simp [linearTransform, h.symm])
    (fun _ _ => rfl)
  rw [linearTransformSig, if_pos h]
  simp only [Option.bind_eq_bind, hloop, Option.some_bind, Option.some.injEq]
  congr 1
  refine MatrixXd.ofFn_congr fun r c hr hc => ?_
  simp [hc, hr, MatrixXd.get_col]

namespace UnscentedTransform

/-- Mean recovered from the scaled sigma points. -/
theorem recoverMean_scaled (T : UnscentedTransform K) (mu facs : VectorXd K)
    (Sigma : MatrixXd K) (hf : facs.size = mu.size)
    (hlam : (mu.size : K) + T.calcLambda mu.size ≠ 0) :
    T.recoverMean
      { points := MatrixXd.ofFn mu.size (2 * mu.size + 1) fun r c =>
          (T.calcSigmaPoints mu Sigma id).points.get r c * facs.get r
        weights := (T.calcSigmaPoints mu Sigma id).weights } id
      = VectorXd.ofFn facs.size fun i => facs.get i * mu.get i := by
  simp only [recoverMean, id]
  refine VectorXd.extv_get hf.symm fun r hr => ?_
  have hr1 : r < mu.size := hr
  have hr2 : r < facs.size := hf ▸ hr1
  simp only [MatrixXd.rows_ofFn, MatrixXd.cols_ofFn, VectorXd.getv_ofFn, hr1, hr2, if_true]
  rw [← weighted_mean_entry T mu Sigma hlam hr1, Finset.mul_sum]
  refine Finset.sum_congr rfl fun c hc => ?_
  have hc1 : c < 2 * mu.size + 1 := Finset.mem_range.mp hc
  rw [MatrixXd.get_ofFn, if_pos ⟨hr1, hc1⟩]
  ring

/-- Second moments of the scaled sigma points, entry by entry: the deviations of the
first set are scaled by `a` and those of the second by `b`. -/
theorem weighted_cov_scaled (T : UnscentedTransform K) (mu : VectorXd K) (Sigma : MatrixXd K)
    (hrows : Sigma.rows = mu.size) (hcols : Sigma.cols = mu.size)
    (hlam : (mu.size : K) + T.calcLambda mu.size ≠ 0)
    (hS : IsSqrtOf (T.matSqrt (MatrixXd.smul ((mu.size : K) + T.calcLambda mu.size) Sigma))
      (MatrixXd.smul ((mu.size : K) + T.calcLambda mu.size) Sigma))
    {r s : Nat} (hr : r < mu.size) (hs : s < mu.size) (a b : K) :
    ∑ c ∈ Finset.range (2 * mu.size + 1),
      (T.calcSigmaPoints mu Sigma id).weights.get 1 c
        * ((T.calcSigmaPoints mu Sigma id).points.get r c * a - a * mu.get r)
        * ((T.calcSigmaPoints mu Sigma id).points.get s c * b - b * mu.get s)
      = a * Sigma.get r s * b := by
  rw [← weighted_cov_entry T mu Sigma hrows hcols hlam hS hr hs, Finset.mul_sum,
    Finset.sum_mul]
  refine Finset.sum_congr rfl fun c _ => ?_
  ring

end UnscentedTransform

/-- C7 (refuted as stated): with `alpha = 0`, `mu = (1, 1)`, `Sigma = I` and `D = I`
(all factors `1`), the zero matrix is a valid square root of `(n + lambda) * Sigma`, the
scaled sigma set exists, `D * mu = (1, 1)`, and the mean that `recoverDistrib` returns
for the scaled set is not `D * mu`. -/
theorem linear_scaling_fails_alpha_zero :
    IsSqrtOf (Examples.trans000.matSqrt (MatrixXd.smul
        ((Examples.ones2.size : ℚ) + Examples.trans000.calcLambda Examples.ones2.size)
        (MatrixXd.Identity 2 2)))
      (MatrixXd.smul
        ((Examples.ones2.size : ℚ) + Examples.trans000.calcLambda Examples.ones2.size)
        (MatrixXd.Identity 2 2))
    ∧ (diagMat Examples.ones2).mulVec Examples.ones2 = some Examples.ones2
    ∧ ∃ sigmaD, linearTransformSig
        (Examples.trans000.calcSigmaPoints Examples.ones2 (MatrixXd.Identity 2 2) id)
        Examples.ones2 = some sigmaD
      ∧ (Examples.trans000.recoverDistrib sigmaD).1 ≠ Examples.ones2 := by
  refine ⟨?_, ?_, _, linearTransformSig_eq _ _ rfl, ?_⟩
  · have h : (Examples.ones2.size : ℚ) + Examples.trans000.calcLambda Examples.ones2.size
        = 0 * 0 := by
      rw [Examples.trans000_denominator]
      norm_num
    rw [h]
    exact Examples.diagSqrt_smul_identity 2 0
  · rw [diagMat_mulVec _ _ rfl]
    simp only [Option.some.injEq]
    refine VectorXd.extv_get rfl fun i hi => ?_
    have hi1 : i < 2 := hi
    simp [Examples.ones2, hi1]
  · intro h
    have h1 := congrArg (fun v => v.get 0) h
    simp [UnscentedTransform.recoverDistrib, UnscentedTransform.recoverMean,
      Examples.trans000_weights, Examples.ones2, UnscentedTransform.calcSigmaPoints_rows] at h1

/-- C7 (amended): for a mean `mu` of dimension `n`, an `n x n` covariance `Sigma`,
parameters with `n + lambda` different from zero, a decomposition that returns a valid
square root `S` of `(n + lambda) * Sigma`, so `S * S^T = (n + lambda) * Sigma`, and the
diagonal matrix `D = diag(facs)`: replacing every sigma point `p` of `calcSigmaPoints(mu, Sigma)`
by `D * p` (weights unchanged, as `linearTransformSig` does) and calling `recoverDistrib`
yields the mean `D * mu` and the covariance `D * Sigma * D^T`. -/
theorem linear_scaling_recoverDistrib (T : UnscentedTransform K) (mu facs : VectorXd K)
    (Sigma : MatrixXd K) (hrows : Sigma.rows = mu.size) (hcols : Sigma.cols = mu.size)
    (hf : facs.size = mu.size) (hlam : (mu.size : K) + T.calcLambda mu.size ≠ 0)
    (hS : IsSqrtOf (T.matSqrt (MatrixXd.smul ((mu.size : K) + T.calcLambda mu.size) Sigma))
      (MatrixXd.smul ((mu.size : K) + T.calcLambda mu.size) Sigma)) :
    ∃ sigmaD meanD DS covD,
      linearTransformSig (T.calcSigmaPoints mu Sigma id) facs = some sigmaD
      ∧ (diagMat facs).mulVec mu = some meanD
      ∧ (diagMat facs).mul Sigma = some DS
      ∧ DS.mul (diagMat facs).transpose = some covD
      ∧ T.recoverDistrib sigmaD = (meanD, covD) := by
  have hmean := UnscentedTransform.recoverMean_scaled T mu facs Sigma hf hlam
  refine ⟨_, _, _,
    MatrixXd.ofFn facs.size facs.size (fun i j => facs.get i * Sigma.get i j * facs.get j),
    linearTransformSig_eq _ _ hf, diagMat_mulVec facs mu hf,
    diagMat_mul facs Sigma (hrows.trans hf.symm), ?_, ?_⟩
  · rw [diagMat_transpose, mul_diagMat facs (MatrixXd.ofFn facs.size Sigma.cols _)
      (hcols.trans hf.symm)]
    simp only [Option.some.injEq, MatrixXd.rows_ofFn]
    refine MatrixXd.ofFn_congr fun i j hi hj => ?_
    have hj1 : j < Sigma.cols := by rw [hcols, ← hf]; exact hj
    simp [hi, hj1]
  · rw [UnscentedTransform.recoverDistrib]
    simp only [UnscentedTransform.calcSigmaPoints_rows, UnscentedTransform.calcSigmaPoints_cols]
    rw [hmean]
    refine Prod.ext rfl (MatrixXd.ext_get hf.symm hf.symm fun r s hr hs => ?_)
    have hr1 : r < mu.size := hr
    have hs1 : s < mu.size := hs
    show (T.recoverCovariance _ _ _).get r s = (MatrixXd.ofFn _ _ _).get r s
    have hr2 : r < facs.size := hf ▸ hr1
    have hs2 : s < facs.size := hf ▸ hs1
    have hs3 : s < Sigma.cols := hcols ▸ hs1
    simp only [UnscentedTransform.recoverCovariance, MatrixXd.rows_ofFn, MatrixXd.cols_ofFn,
      MatrixXd.get_ofFn, hr1, hs1, hr2, hs2, hs3, and_self, if_true]
    rw [← UnscentedTransform.weighted_cov_scaled T mu Sigma hrows hcols hlam hS hr1 hs1
      (facs.get r) (facs.get s)]
    refine Finset.sum_congr rfl fun c hc => ?_
    have hc1 : c < 2 * mu.size + 1 := Finset.mem_range.mp hc
    rw [UnscentedTransform.deviation_get _ _ _ hr, UnscentedTransform.deviation_get _ _ _ hs]
    simp [hr1, hs1, hr2, hs2, hc1]

namespace Examples

theorem trans111_denominator : (ones3.size : ℚ) + trans111.calcLambda ones3.size ≠ 0 := by
  norm_num [UnscentedTransform.calcLambda, trans111, ones3]

theorem trans111_sqrt_identity :
    IsSqrtOf (trans111.matSqrt (MatrixXd.smul
        ((ones3.size : ℚ) + trans111.calcLambda ones3.size) (MatrixXd.Identity 3 3)))
      (MatrixXd.smul ((ones3.size : ℚ) + trans111.calcLambda ones3.size)
        (MatrixXd.Identity 3 3)) := by
  have h : (ones3.size : ℚ) + trans111.calcLambda ones3.size = 2 * 2 := by
    norm_num [UnscentedTransform.calcLambda, trans111, ones3]
  rw [h]
  exact diagSqrt_smul_identity 3 2

theorem trans000_sqrt_identity :
    IsSqrtOf (trans000.matSqrt (MatrixXd.smul
        ((ones2.size : ℚ) + trans000.calcLambda ones2.size) (MatrixXd.Identity 2 2)))
      (MatrixXd.smul ((ones2.size : ℚ) + trans000.calcLambda ones2.size)
        (MatrixXd.Identity 2 2)) := by
  have h : (ones2.size : ℚ) + trans000.calcLambda ones2.size = 0 * 0 := by
    rw [trans000_denominator]
    norm_num
  rw [h]
  exact diagSqrt_smul_identity 2 0

end Examples

/-- Witness of C7 (amended): the test with `mu = (1, 1, 1)`, `Sigma = I` and the factors
`(1, 2, 3)`. -/
theorem linear_scaling_recoverDistrib_witness :
    ∃ sigmaD meanD DS covD,
      linearTransformSig
        (Examples.trans111.calcSigmaPoints Examples.ones3 (MatrixXd.Identity 3 3) id)
        Examples.facs123 = some sigmaD
      ∧ (diagMat Examples.facs123).mulVec Examples.ones3 = some meanD
      ∧ (diagMat Examples.facs123).mul (MatrixXd.Identity 3 3) = some DS
      ∧ DS.mul (diagMat Examples.facs123).transpose = some covD
      ∧ Examples.trans111.recoverDistrib sigmaD = (meanD, covD) :=
  linear_scaling_recoverDistrib Examples.trans111 Examples.ones3 Examples.facs123
    (MatrixXd.Identity 3 3) rfl rfl rfl Examples.trans111_denominator
    Examples.trans111_sqrt_identity

/-! ## Cross covariance -/

/-- C8 (refuted as stated): with `alpha = 0`, `mu = (1, 1)` and `Sigma = I`, for which the
zero matrix is a valid square root of `(n + lambda) * Sigma`, the self cross-covariance of
the sigma set is not `Sigma`. -/
theorem crossCov_fails_alpha_zero :
    IsSqrtOf (Examples.trans000.matSqrt (MatrixXd.smul
        ((Examples.ones2.size : ℚ) + Examples.trans000.calcLambda Examples.ones2.size)
        (MatrixXd.Identity 2 2)))
      (MatrixXd.smul
        ((Examples.ones2.size : ℚ) + Examples.trans000.calcLambda Examples.ones2.size)
        (MatrixXd.Identity 2 2))
    ∧ Examples.trans000.calcCrossCov Examples.ones2
        (Examples.trans000.calcSigmaPoints Examples.ones2 (MatrixXd.Identity 2 2) id)
        Examples.ones2
        (Examples.trans000.calcSigmaPoints Examples.ones2 (MatrixXd.Identity 2 2) id)
      ≠ MatrixXd.Identity 2 2 := by
  refine ⟨Examples.trans000_sqrt_identity, fun h => ?_⟩
  have hr : 0 < Examples.ones2.size := by decide
  have hp : (Examples.trans000.calcSigmaPoints Examples.ones2 (MatrixXd.Identity 2 2)
      id).points.get 0 0 = 1 := by
    rw [UnscentedTransform.calcSigmaPoints_points_get _ _ _ hr (by decide),
      UnscentedTransform.rawPoint_get_zero _ _ hr]
    simp [Examples.ones2]
  have hL : (Examples.trans000.calcCrossCov Examples.ones2
      (Examples.trans000.calcSigmaPoints Examples.ones2 (MatrixXd.Identity 2 2) id)
      Examples.ones2
      (Examples.trans000.calcSigmaPoints Examples.ones2 (MatrixXd.Identity 2 2) id)).get 0 0
      = 0 := by
    rw [UnscentedTransform.calcCrossCov, UnscentedTransform.recoverCrossCovariance,
      MatrixXd.get_ofFn, if_pos ⟨hr, hr⟩]
    refine Finset.sum_eq_zero fun c _ => ?_
    by_cases hc : c = 0
    · subst hc
      rw [UnscentedTransform.deviation_get _ _ _ hr, hp]
      simp [Examples.ones2]
    · rw [Examples.trans000_weights_cov _ _ hc]
      ring
  have h1 := congrArg (fun M => M.get 0 0) h
  simp only [hL] at h1
  simp [MatrixXd.Identity] at h1

/-- C8 (amended): for a mean `mu` of dimension `n`, an `n x n` covariance `Sigma`,
parameters with `n + lambda` different from zero, a decomposition that returns a valid
square root `S` of `(n + lambda) * Sigma`, so `S * S^T = (n + lambda) * Sigma`, and the
diagonal matrix `D = diag(facs)`, with `sigma = calcSigmaPoints(mu, Sigma)` and `sigmaD` the same
set with every point `p` replaced by `D * p`:
`calcCrossCov(mu, sigma, D * mu, sigmaD) = Sigma * D`, and the self cross-covariance
`calcCrossCov(mu, sigma, mu, sigma)` is `Sigma`. -/
theorem crossCov_linear (T : UnscentedTransform K) (mu facs : VectorXd K)
    (Sigma : MatrixXd K) (hrows : Sigma.rows = mu.size) (hcols : Sigma.cols = mu.size)
    (hf : facs.size = mu.size) (hlam : (mu.size : K) + T.calcLambda mu.size ≠ 0)
    (hS : IsSqrtOf (T.matSqrt (MatrixXd.smul ((mu.size : K) + T.calcLambda mu.size) Sigma))
      (MatrixXd.smul ((mu.size : K) + T.calcLambda mu.size) Sigma)) :
    (∃ sigmaD meanD SD,
      linearTransformSig (T.calcSigmaPoints mu Sigma id) facs = some sigmaD
      ∧ (diagMat facs).mulVec mu = some meanD
      ∧ Sigma.mul (diagMat facs) = some SD
      ∧ T.calcCrossCov mu (T.calcSigmaPoints mu Sigma id) meanD sigmaD = SD)
    ∧ T.calcCrossCov mu (T.calcSigmaPoints mu Sigma id) mu (T.calcSigmaPoints mu Sigma id)
      = Sigma := by
  constructor
  · refine ⟨_, _, _, linearTransformSig_eq _ _ hf, diagMat_mulVec facs mu hf,
      mul_diagMat facs Sigma (hcols.trans hf.symm), ?_⟩
    refine MatrixXd.ext_get hrows.symm hf.symm fun r s hr hs => ?_
    have hr1 : r < mu.size := hr
    have hs1 : s < mu.size := hs
    have hs2 : s < facs.size := hf ▸ hs1
    have hr3 : r < Sigma.rows := hrows ▸ hr1
    have key := UnscentedTransform.weighted_cov_scaled T mu Sigma hrows hcols hlam hS hr1 hs1
      1 (facs.get s)
    simp only [one_mul, mul_one] at key
    rw [UnscentedTransform.calcCrossCov, UnscentedTransform.recoverCrossCovariance,
      MatrixXd.get_ofFn, if_pos ⟨hr1, hs1⟩, MatrixXd.get_ofFn, if_pos ⟨hr3, hs2⟩, ← key]
    refine Finset.sum_congr rfl fun c hc => ?_
    have hc1 : c < 2 * mu.size + 1 := Finset.mem_range.mp hc
    rw [UnscentedTransform.deviation_get _ _ _ hr1, UnscentedTransform.deviation_get _ _ _ hs1,
      MatrixXd.get_ofFn, if_pos ⟨hs1, hc1⟩, VectorXd.getv_ofFn, if_pos hs2]
  · refine MatrixXd.ext_get hrows.symm hcols.symm fun r s hr hs => ?_
    have hr1 : r < mu.size := hr
    have hs1 : s < mu.size := hs
    rw [UnscentedTransform.calcCrossCov, UnscentedTransform.recoverCrossCovariance,
      MatrixXd.get_ofFn, if_pos ⟨hr1, hs1⟩,
      ← UnscentedTransform.weighted_cov_entry T mu Sigma hrows hcols hlam hS hr1 hs1]
    refine Finset.sum_congr rfl fun c _ => ?_
    rw [UnscentedTransform.deviation_get _ _ _ hr1, UnscentedTransform.deviation_get _ _ _ hs1]

/-- Witness of C8 (amended): the test with `mu = (1, 1, 1)`, `Sigma = I` and the factors
`(1, 2, 3)`. -/
theorem crossCov_linear_witness :
    Examples.trans111.calcCrossCov Examples.ones3
      (Examples.trans111.calcSigmaPoints Examples.ones3 (MatrixXd.Identity 3 3) id)
      Examples.ones3
      (Examples.trans111.calcSigmaPoints Examples.ones3 (MatrixXd.Identity 3 3) id)
      = MatrixXd.Identity 3 3 :=
  (crossCov_linear Examples.trans111 Examples.ones3 Examples.facs123
    (MatrixXd.Identity 3 3) rfl rfl rfl Examples.trans111_denominator
    Examples.trans111_sqrt_identity).2

/-! ## Sigma points of an identity covariance -/

namespace Examples

/-- On a scaled identity the entrywise root is the scaled identity of the root. -/
theorem diagSqrt_smul_identity_eq (n : Nat) (q : ℚ) (hq : 0 ≤ q) :
    diagSqrt (MatrixXd.smul (q * q) (MatrixXd.Identity n n))
      = MatrixXd.smul q (MatrixXd.Identity n n) := by
  refine MatrixXd.ext_get rfl rfl fun i j hi hj => ?_
  have hi1 : i < n := hi
  have hj1 : j < n := hj
  simp only [diagSqrt, MatrixXd.smul, MatrixXd.Identity, MatrixXd.rows_ofFn, MatrixXd.cols_ofFn,
    MatrixXd.get_ofFn, hi1, hj1, and_self, if_true, mul_one]
  by_cases hij : i = j
  · simp [hij, Rat.sqrt_eq, abs_of_nonneg hq]
  · simp [hij]

end Examples

namespace Examples

theorem trans111_denominator_eq : (ones3.size : ℚ) + trans111.calcLambda ones3.size = 2 * 2 := by
  norm_num [UnscentedTransform.calcLambda, trans111, ones3]

end Examples

/-- C10: for a mean `mu`, a covariance `Sigma` whose diagonal entry `Sigma[j][j]` is zero
and any valid square root of `(n + lambda) * Sigma`, `calcSigmaPoints(mu, Sigma)` with the
identity normalisation returns its `2n+1` points, and each of them has `j`-th coordinate
exactly `mu[j]`. -/
theorem zero_variance_axis (T : UnscentedTransform K) (mu : VectorXd K) (Sigma : MatrixXd K)
    (hrows : Sigma.rows = mu.size) (hcols : Sigma.cols = mu.size)
    (hS : IsSqrtOf (T.matSqrt (MatrixXd.smul ((mu.size : K) + T.calcLambda mu.size) Sigma))
      (MatrixXd.smul ((mu.size : K) + T.calcLambda mu.size) Sigma))
    (j : Nat) (hj : j < mu.size) (hzero : Sigma.get j j = 0) :
    (T.calcSigmaPoints mu Sigma id).points.rows = mu.size
    ∧ (T.calcSigmaPoints mu Sigma id).points.cols = 2 * mu.size + 1
    ∧ ∀ c, c < 2 * mu.size + 1 → (T.calcSigmaPoints mu Sigma id).points.get j c = mu.get j := by
  refine ⟨rfl, rfl, fun c hc => ?_⟩
  obtain ⟨_, _, hent⟩ := UnscentedTransform.IsSqrtOf.entries hS hrows hcols
  have hsum := hent j j hj hj
  rw [hzero, mul_zero] at hsum
  have hrow : ∀ i, i < mu.size →
      (T.matSqrt (MatrixXd.smul ((mu.size : K) + T.calcLambda mu.size) Sigma)).get j i = 0 := by
    intro i hi
    have h := (Finset.sum_eq_zero_iff_of_nonneg (fun k _ => mul_self_nonneg _)).mp hsum i
      (Finset.mem_range.mpr hi)
    exact mul_self_eq_zero.mp h
  rw [UnscentedTransform.calcSigmaPoints_points_get T mu Sigma hj hc]
  by_cases hc0 : c = 0
  · subst hc0
    exact UnscentedTransform.rawPoint_get_zero mu _ hj
  · by_cases hcn : c ≤ mu.size
    · have e : c = (c - 1) + 1 := by omega
      rw [e, UnscentedTransform.rawPoint_get_pos mu _ hj (by omega), hrow _ (by omega), add_zero]
    · have e : c = mu.size + (c - 1 - mu.size) + 1 := by omega
      rw [e, UnscentedTransform.rawPoint_get_neg mu _ _ hj, hrow _ (by omega), sub_zero]

namespace Examples

theorem cov100_sqrt :
    IsSqrtOf (trans111.matSqrt (MatrixXd.smul
        ((ones3.size : ℚ) + trans111.calcLambda ones3.size) cov100))
      (MatrixXd.smul ((ones3.size : ℚ) + trans111.calcLambda ones3.size) cov100) := by
  rw [trans111_denominator_eq]
  refine diagSqrt_isSqrtOf _ rfl (fun i j hi hj hij => ?_) (fun i hi => ?_)
  · have hi1 : i < 3 := hi
    have hj1 : j < 3 := hj
    have : ¬ (i = 0 ∧ j = 0) := fun h => hij (h.1.trans h.2.symm)
    simp [MatrixXd.smul, cov100, hi1, hj1, this]
  · have hi1 : i < 3 := hi
    by_cases h0 : i = 0
    · exact ⟨2, by simp [MatrixXd.smul, cov100, h0]⟩
    · exact ⟨0, by simp [MatrixXd.smul, cov100, hi1, h0]⟩

/-- The root that the tests' decomposition yields for `4 * diag(1, 0, 0)`. -/
theorem cov100_sqrt_get (r i : Nat) :
    (diagSqrt (MatrixXd.smul (2 * 2) cov100)).get r i = if r = 0 ∧ i = 0 then 2 else 0 := by
  have h4 : Rat.sqrt (2 * 2) = 2 := by rw [Rat.sqrt_eq]; norm_num
  by_cases hr : r < 3
  · by_cases hi : i < 3
    · by_cases h0 : r = 0
      · subst h0
        by_cases h1 : i = 0
        · subst h1
          simp [diagSqrt, MatrixXd.smul, cov100, h4]
        · simp [diagSqrt, MatrixXd.smul, cov100, hi, h1, Ne.symm h1]
      · by_cases hri : r = i
        · subst hri
          simp [diagSqrt, MatrixXd.smul, cov100, hr, h0]
        · simp [diagSqrt, MatrixXd.smul, cov100, hr, hi, h0, hri]
    · have hne : ¬ (r = 0 ∧ i = 0) := fun h => hi (by omega)
      simp [diagSqrt, MatrixXd.smul, cov100, hi, hne]
  · have hne : ¬ (r = 0 ∧ i = 0) := fun h => hr (by omega)
    simp [diagSqrt, MatrixXd.smul, cov100, hr, hne]

/-- The sigma points of the test with zero uncertainty, as a table. -/
theorem cov100_points_table :
    (trans111.calcSigmaPoints ones3 cov100 id).points = sexpZero := by
  refine MatrixXd.ext_get rfl rfl fun r c hr hc => ?_
  have hr1 : r < ones3.size := hr
  have hc1 : c < 2 * ones3.size + 1 := hc
  have hr2 : r < 3 := hr
  have hc2 : c < 7 := hc
  rw [UnscentedTransform.calcSigmaPoints_points_get _ _ _ hr1 hc1, trans111_denominator_eq]
  show (UnscentedTransform.rawPoint ones3 (diagSqrt (MatrixXd.smul (2 * 2) cov100)) c).get r = _
  simp only [UnscentedTransform.rawPoint, VectorXd.getv_ofFn, hr1, if_true, cov100_sqrt_get]
  interval_cases r <;> interval_cases c <;> norm_num [ones3, sexpZero, ofRows]

end Examples

/-- Witness of C10: the test with zero uncertainty, `mu = (1, 1, 1)` and
`Sigma = diag(1, 0, 0)`: the coordinates `1` and `2` of every sigma point are `1`, and with
the entrywise root the points are the expected table. -/
theorem zero_variance_axis_witness :
    (Examples.trans111.calcSigmaPoints Examples.ones3 Examples.cov100 id).points.get 1 3
      = Examples.ones3.get 1
    ∧ (Examples.trans111.calcSigmaPoints Examples.ones3 Examples.cov100 id).points
      = Examples.sexpZero :=
  ⟨(zero_variance_axis Examples.trans111 Examples.ones3 Examples.cov100 rfl rfl
      Examples.cov100_sqrt 1 (by decide) (by simp [Examples.cov100])).2.2 3 (by decide),
    Examples.cov100_points_table⟩

/-! ## Identity and zero matrices -/

namespace MatrixXd

section Shapes

variable {K : Type} [AddCommMonoid K] [Monoid K] [Sub K] [Div K] [NatCast K]

theorem zero_get (r c i j : Nat) : (zero r c : MatrixXd K).get i j = 0 := by
  simp [zero]

theorem Identity_get (n i j : Nat) (hi : i < n) (hj : j < n) :
    (Identity n n : MatrixXd K).get i j = if i = j then 1 else 0 := by
  simp [Identity, hi, hj]

theorem resize_rows (A : MatrixXd K) (r c : Nat) (junk : Nat → Nat → K) :
    (A.resize r c junk).rows = r := by
  unfold resize
  split_ifs with h
  · exact h.1
  · rfl

theorem resize_cols (A : MatrixXd K) (r c : Nat) (junk : Nat → Nat → K) :
    (A.resize r c junk).cols = c := by
  unfold resize
  split_ifs with h
  · exact h.2
  · rfl

/-- Adding the zero matrix changes nothing. -/
theorem add_zero_eq (A : MatrixXd K) : A.add (zero A.rows A.cols) = some A := by
  have h : A.rows = (zero A.rows A.cols : MatrixXd K).rows
      ∧ A.cols = (zero A.rows A.cols : MatrixXd K).cols := ⟨rfl, rfl⟩
  rw [add, if_pos h]
  simp only [Option.some.injEq]
  refine ext_get rfl rfl fun i j hi hj => ?_
  rw [get_ofFn, if_pos ⟨hi, hj⟩, zero_get, add_zero]

end Shapes

/-- Subtracting a matrix from itself gives the zero matrix. -/
theorem sub_self_eq (A : MatrixXd K) : A.sub A = some (zero A.rows A.cols) := by
  rw [sub, if_pos ⟨rfl, rfl⟩]
  simp only [Option.some.injEq, zero]
  exact ofFn_congr fun i j _ _ => sub_self _

/-- The identity is neutral on the left. -/
theorem Identity_mul (A : MatrixXd K) : (Identity A.rows A.rows).mul A = some A := by
  have h : (Identity A.rows A.rows : MatrixXd K).cols = A.rows := rfl
  rw [mul, if_pos h]
  simp only [Option.some.injEq]
  refine ext_get rfl rfl fun i j hi hj => ?_
  have hi1 : i < A.rows := hi
  rw [get_ofFn, if_pos ⟨hi, hj⟩]
  have hterm : ∀ k ∈ Finset.range A.rows,
      (Identity A.rows A.rows : MatrixXd K).get i k * A.get k j
        = if i = k then A.get k j else 0 := by
    intro k hk
    rw [Identity_get _ _ _ hi1 (Finset.mem_range.mp hk)]
    by_cases hik : i = k <;> simp [hik]
  show ∑ k ∈ Finset.range A.rows, _ = _
  rw [Finset.sum_congr rfl hterm, Finset.sum_ite_eq, if_pos (Finset.mem_range.mpr hi1)]

/-- The transposed identity is neutral on the right. -/
theorem mul_Identity_transpose (A : MatrixXd K) :
    A.mul (Identity A.cols A.cols).transpose = some A := by
  have h : A.cols = ((Identity A.cols A.cols : MatrixXd K).transpose).rows := rfl
  rw [mul, if_pos h]
  simp only [Option.some.injEq]
  refine ext_get rfl rfl fun i j hi hj => ?_
  have hj1 : j < A.cols := hj
  rw [get_ofFn, if_pos ⟨hi, hj⟩]
  have hterm : ∀ k ∈ Finset.range A.cols,
      A.get i k * ((Identity A.cols A.cols : MatrixXd K).transpose).get k j
        = if j = k then A.get i k else 0 := by
    intro k hk
    have hk1 : k < A.cols := Finset.mem_range.mp hk
    rw [transpose, get_ofFn, if_pos ⟨hk1, hj1⟩, Identity_get _ _ _ hj1 hk1]
    by_cases hjk : j = k <;> simp [hjk]
  rw [Finset.sum_congr rfl hterm, Finset.sum_ite_eq, if_pos (Finset.mem_range.mpr hj1)]

/-- The column loop with the identity step returns the matrix it started from. -/
theorem forCols_some (M : MatrixXd K) : M.forCols (fun p => some p) M.cols = some M := by
  rw [forCols_eq (fun p => some p) (fun p => p) M M.cols (Nat.le_refl _) (fun _ _ => rfl)
    (fun _ _ => rfl)]
  simp only [Option.some.injEq]
  refine ext_get rfl rfl fun i j hi hj => ?_
  have hi1 : i < M.rows := hi
  have hj1 : j < M.cols := hj
  simp [hi1, hj1, get_col]

end MatrixXd

theorem noNormalize_eq_id : (noNormalize : VectorXd K → VectorXd K) = id := rfl

/-! ## The correction step -/

namespace UnscentedKalmanFilter

section Steps

variable {K : Type} [AddCommMonoid K] [Monoid K] [Sub K] [Div K] [NatCast K]

/-- What a successful call of `correct` computes, step by step, and conversely. -/
theorem correct_eq_some_iff (f g : UnscentedKalmanFilter K) (observations sensorCov : MatrixXd K) :
    f.correct observations sensorCov = some g ↔
    ∃ obsCov pointsB S Sinv Kg innovation step state1 KS KSK cov2,
      obsNoiseCov sensorCov (f.mat2vec observations) = some obsCov
      ∧ sensorLoop f observations
          (f.unscentTrans_.calcSigmaPoints f.state_ f.cov_ f.normState_)
          (f.unscentTrans_.calcSigmaPoints f.state_ f.cov_ f.normState_).points.cols
          ((MatrixXd.zero 0 0).resize 0
            (f.unscentTrans_.calcSigmaPoints f.state_ f.cov_ f.normState_).points.cols
            fun _ _ => 0) = some pointsB
      ∧ ((f.unscentTrans_.recoverMean
            { points := pointsB
              weights := (f.unscentTrans_.calcSigmaPoints f.state_ f.cov_
                f.normState_).weights } f.normObs_).size = (f.mat2vec observations).size
        ∧ pointsB.rows = obsCov.rows ∧ pointsB.rows = obsCov.cols
        ∧ f.state_.size = f.state_.size
        ∧ pointsB.rows = (f.unscentTrans_.recoverMean
            { points := pointsB
              weights := (f.unscentTrans_.calcSigmaPoints f.state_ f.cov_
                f.normState_).weights } f.normObs_).size)
      ∧ (f.unscentTrans_.recoverCovariance
            { points := pointsB
              weights := (f.unscentTrans_.calcSigmaPoints f.state_ f.cov_
                f.normState_).weights }
            (f.unscentTrans_.recoverMean
              { points := pointsB
                weights := (f.unscentTrans_.calcSigmaPoints f.state_ f.cov_
                  f.normState_).weights } f.normObs_) f.normObs_).add obsCov = some S
      ∧ S.inverse f.inv = some Sinv
      ∧ (f.unscentTrans_.recoverCrossCovariance
            (f.unscentTrans_.calcSigmaPoints f.state_ f.cov_ f.normState_) f.state_
            f.normState_
            { points := pointsB
              weights := (f.unscentTrans_.calcSigmaPoints f.state_ f.cov_
                f.normState_).weights }
            (f.unscentTrans_.recoverMean
              { points := pointsB
                weights := (f.unscentTrans_.calcSigmaPoints f.state_ f.cov_
                  f.normState_).weights } f.normObs_) f.normObs_).mul Sinv = some Kg
      ∧ (f.mat2vec observations).sub (f.unscentTrans_.recoverMean
            { points := pointsB
              weights := (f.unscentTrans_.calcSigmaPoints f.state_ f.cov_
                f.normState_).weights } f.normObs_) = some innovation
      ∧ Kg.mulVec (f.normObs_ innovation) = some step
      ∧ f.state_.add step = some state1
      ∧ Kg.mul S = some KS
      ∧ KS.mul Kg.transpose = some KSK
      ∧ f.cov_.sub KSK = some cov2
      ∧ g = { f with state_ := state1, cov_ := cov2 } := by
  constructor
  · intro h
    rw [correct] at h
    simp only [Option.bind_eq_bind, Option.bind_eq_some] at h
    obtain ⟨obsCov, h1, pointsB, h2, h3⟩ := h
    split_ifs at h3 with hd
    simp only [Option.bind_eq_bind, Option.bind_eq_some] at h3
    obtain ⟨S, hS, Sinv, hSinv, Kg, hKg, innovation, hin, step, hstep, state1, hst, KS, hKS,
      KSK, hKSK, cov2, hc2, hg⟩ := h3
    exact ⟨obsCov, pointsB, S, Sinv, Kg, innovation, step, state1, KS, KSK, cov2, h1, h2, hd,
      hS, hSinv, hKg, hin, hstep, hst, hKS, hKSK, hc2, (Option.some.inj hg).symm⟩
  · rintro ⟨obsCov, pointsB, S, Sinv, Kg, innovation, step, state1, KS, KSK, cov2, h1, h2, hd,
      hS, hSinv, hKg, hin, hstep, hst, hKS, hKSK, hc2, hg⟩
    rw [correct]
    simp only [Option.bind_eq_bind, h1, h2, Option.some_bind]
    split_ifs with hd1
    · simp only [Option.bind_eq_bind, hS, hSinv, hKg, hin, hstep, hst, hKS, hKSK, hc2,
        Option.some_bind, hg]
    · exact absurd hd hd1

/-- Closed form of the sensor loop when every flattened sensor result, before and after
normalisation, has `d` entries: after `k+1` iterations the first `k+1` columns hold the
normalised results and the others what the first resize left there. -/
theorem sensorLoop_eq (f : UnscentedKalmanFilter K) (observations : MatrixXd K)
    (A : SigmaPoints K) (d : Nat) (B0 : MatrixXd K) (hB0r : B0.rows = 0)
    (hB0c : B0.cols = A.points.cols)
    (hsize : ∀ c, c < A.points.cols → (f.sensorModel (A.points.col c) observations).size = d)
    (hvec : ∀ c, c < A.points.cols →
      (f.normObs_ (f.mat2vec (f.sensorModel (A.points.col c) observations))).size = d)
    (k : Nat) (hk : k + 1 ≤ A.points.cols) :
    sensorLoop f observations A (k + 1) B0 = some (MatrixXd.ofFn d A.points.cols fun r c =>
      if c < k + 1 then
        (f.normObs_ (f.mat2vec (f.sensorModel (A.points.col c) observations))).get r
      else f.uninit 0 r c) := by
  induction k with
  | zero =>
    have h0 : 0 < A.points.cols := hk
    rw [sensorLoop, sensorLoop]
    simp only [Option.bind_eq_bind, Option.some_bind, hsize 0 h0, hB0r]
    by_cases hd : 0 < d
    · have hne : ¬ (B0.rows = d ∧ B0.cols = A.points.cols) := by
        intro h
        omega
      rw [if_pos hd, MatrixXd.resize, if_neg hne]
      simp only [MatrixXd.setCol, MatrixXd.rows_ofFn, MatrixXd.cols_ofFn, h0, hvec 0 h0,
        and_self, if_true, Option.some.injEq]
      refine MatrixXd.ofFn_congr fun r c hr hc => ?_
      by_cases hc0 : c = 0
      · simp [hc0]
      · simp [hc0, hr, hc]
    · have hd0 : d = 0 := by omega
      rw [if_neg hd]
      have hcond : 0 < B0.cols ∧
          (f.normObs_ (f.mat2vec (f.sensorModel (A.points.col 0) observations))).size
            = B0.rows := by
        rw [hB0c, hB0r, hvec 0 h0]
        exact ⟨h0, hd0⟩
      rw [MatrixXd.setCol, if_pos hcond]
      simp only [Option.some.injEq]
      refine MatrixXd.ext_get (by simp [hB0r, hd0]) (by simp [hB0c]) fun r c hr _ => ?_
      have : r < B0.rows := hr
      omega
  | succ k ih =>
    have hk1 : k + 1 < A.points.cols := hk
    rw [sensorLoop, ih (Nat.le_of_lt hk1)]
    simp only [Option.bind_eq_bind, Option.some_bind, hsize (k + 1) hk1, MatrixXd.rows_ofFn,
      lt_irrefl, if_false]
    simp only [MatrixXd.setCol, MatrixXd.rows_ofFn, MatrixXd.cols_ofFn, hk1, hvec (k + 1) hk1,
      and_self, if_true, Option.some.injEq]
    refine MatrixXd.ofFn_congr fun r c hr hc => ?_
    by_cases hc0 : c = k + 1
    · simp [hc0]
    · have : c < k + 1 + 1 ↔ c < k + 1 := by omega
      simp [hc0, hr, hc, this]

end Steps

/-- With an identity motion model, the default normalisation and no process noise,
`predict` returns the filter unchanged. -/
theorem predict_identity (f : UnscentedKalmanFilter K) (controls : VectorXd K)
    (observations : MatrixXd K)
    (hns : f.normState_ = noNormalize)
    (hmm : ∀ p c o, f.motionModel p c o = p)
    (hrows : f.cov_.rows = f.state_.size) (hcols : f.cov_.cols = f.state_.size)
    (hlam : (f.state_.size : K) + f.unscentTrans_.calcLambda f.state_.size ≠ 0)
    (hS : IsSqrtOf (f.unscentTrans_.matSqrt (MatrixXd.smul
        ((f.state_.size : K) + f.unscentTrans_.calcLambda f.state_.size) f.cov_))
      (MatrixXd.smul ((f.state_.size : K) + f.unscentTrans_.calcLambda f.state_.size) f.cov_)) :
    f.predict controls observations (MatrixXd.zero f.state_.size f.state_.size) = some f := by
  obtain ⟨T, ns, no, mm, sm, m2v, inv, un, st, cv⟩ := f
  simp only at hns hmm hrows hcols hlam hS
  subst hns
  have hz : (MatrixXd.zero st.size st.size : MatrixXd K) = MatrixXd.zero cv.rows cv.cols := by
    rw [hrows, hcols]
  rw [predict, if_pos ⟨rfl, rfl⟩]
  simp only [noNormalize_eq_id, hmm, id_eq, Option.bind_eq_bind, MatrixXd.forCols_some,
    Option.some_bind]
  rw [UnscentedTransform.recoverMean_calcSigmaPoints T st cv hlam,
    UnscentedTransform.recoverCovariance_calcSigmaPoints T st cv hrows hcols hlam hS, hz,
    MatrixXd.add_zero_eq]
  rfl

/-- The cross covariance of a sigma set with itself is the covariance it was built from
(identity normalisation). -/
theorem recoverCrossCovariance_self (T : UnscentedTransform K) (mean : VectorXd K)
    (cov : MatrixXd K) (hrows : cov.rows = mean.size) (hcols : cov.cols = mean.size)
    (hlam : (mean.size : K) + T.calcLambda mean.size ≠ 0)
    (hS : IsSqrtOf (T.matSqrt (MatrixXd.smul ((mean.size : K) + T.calcLambda mean.size) cov))
      (MatrixXd.smul ((mean.size : K) + T.calcLambda mean.size) cov)) :
    T.recoverCrossCovariance (T.calcSigmaPoints mean cov id) mean id
      (T.calcSigmaPoints mean cov id) mean id = cov := by
  refine MatrixXd.ext_get hrows.symm hcols.symm fun r s hr hs => ?_
  have hr1 : r < mean.size := hr
  have hs1 : s < mean.size := hs
  rw [UnscentedTransform.recoverCrossCovariance, MatrixXd.get_ofFn, if_pos ⟨hr1, hs1⟩,
    ← UnscentedTransform.weighted_cov_entry T mean cov hrows hcols hlam hS hr1 hs1]
  refine Finset.sum_congr rfl fun c _ => ?_
  rw [UnscentedTransform.deviation_get _ _ _ hr1, UnscentedTransform.deviation_get _ _ _ hs1]

section IdentitySensor

variable {K : Type} [AddCommMonoid K] [Monoid K] [Sub K] [Div K] [NatCast K]

/-- With an identity sensor model the sensor loop rebuilds the state sigma points. -/
theorem sensorLoop_identity (f : UnscentedKalmanFilter K) (observations : MatrixXd K)
    (A : SigmaPoints K) (B0 : MatrixXd K) (hB0r : B0.rows = 0) (hB0c : B0.cols = A.points.cols)
    (hcols : 0 < A.points.cols)
    (hno : f.normObs_ = noNormalize)
    (hsm : ∀ p o, f.sensorModel p o = p.asMatrix)
    (hm2v : ∀ v : VectorXd K, f.mat2vec v.asMatrix = v) :
    sensorLoop f observations A A.points.cols B0 = some A.points := by
  obtain ⟨k, hk⟩ : ∃ k, A.points.cols = k + 1 := ⟨A.points.cols - 1, by omega⟩
  have hval : ∀ c, f.normObs_ (f.mat2vec (f.sensorModel (A.points.col c) observations))
      = A.points.col c := by
    intro c
    rw [hsm, hm2v, hno]
    rfl
  have h := sensorLoop_eq f observations A A.points.rows B0 hB0r hB0c
    (fun c _ => by rw [hsm]; simp [MatrixXd.size, VectorXd.asMatrix])
    (fun c _ => by rw [hval]; rfl) k (by omega)
  rw [hk, h]
  simp only [Option.some.injEq]
  refine MatrixXd.ext_get rfl rfl fun r c hr hc => ?_
  have hr1 : r < A.points.rows := hr
  have hc1 : c < A.points.cols := hc
  have hc2 : c < k + 1 := by omega
  rw [MatrixXd.get_ofFn, if_pos ⟨hr1, hc1⟩, if_pos hc2, hval, MatrixXd.get_col]

end IdentitySensor

/-- The identity times a vector of differences `v - v` is the zero vector, so adding it
changes nothing. -/
theorem add_Identity_mulVec_zero (st : VectorXd K) :
    ∃ step, (MatrixXd.Identity st.size st.size).mulVec
        (VectorXd.ofFn st.size fun i => st.get i - st.get i) = some step
      ∧ st.add step = some st := by
  have hc : (MatrixXd.Identity st.size st.size : MatrixXd K).cols
      = (VectorXd.ofFn st.size fun i => st.get i - st.get i).size := rfl
  refine ⟨_, by rw [MatrixXd.mulVec, if_pos hc], ?_⟩
  have hsz : st.size = (VectorXd.ofFn (MatrixXd.Identity st.size st.size : MatrixXd K).rows
      fun i => ∑ k ∈ Finset.range (MatrixXd.Identity st.size st.size : MatrixXd K).cols,
        (MatrixXd.Identity st.size st.size : MatrixXd K).get i k
          * (VectorXd.ofFn st.size fun i => st.get i - st.get i).get k).size := rfl
  rw [VectorXd.add, if_pos hsz]
  simp only [Option.some.injEq]
  refine VectorXd.extv_get rfl fun i hi => ?_
  have hi1 : i < st.size := hi
  have hi2 : i < (MatrixXd.Identity st.size st.size : MatrixXd K).rows := hi1
  rw [VectorXd.getv_ofFn, if_pos hi1, VectorXd.getv_ofFn, if_pos hi2]
  have hz : ∑ k ∈ Finset.range st.size, (MatrixXd.Identity st.size st.size : MatrixXd K).get i k
      * (VectorXd.ofFn st.size fun i => st.get i - st.get i).get k = 0 := by
    refine Finset.sum_eq_zero fun k _ => ?_
    simp
  exact (congrArg (fun x => st.get i + x) hz).trans (add_zero _)

/-- With identity sensor model, default normalisation, no sensor noise, the current mean
as observation and an inverse of the covariance at hand, `correct` keeps the mean and
sets the covariance to zero. -/
theorem correct_identity (f : UnscentedKalmanFilter K) (m : Nat) (hm : 1 ≤ m)
    (hns : f.normState_ = noNormalize) (hno : f.normObs_ = noNormalize)
    (hsm : ∀ p o, f.sensorModel p o = p.asMatrix)
    (hm2v : ∀ v : VectorXd K, f.mat2vec v.asMatrix = v)
    (hrows : f.cov_.rows = f.state_.size) (hcols : f.cov_.cols = f.state_.size)
    (hlam : (f.state_.size : K) + f.unscentTrans_.calcLambda f.state_.size ≠ 0)
    (hS : IsSqrtOf (f.unscentTrans_.matSqrt (MatrixXd.smul
        ((f.state_.size : K) + f.unscentTrans_.calcLambda f.state_.size) f.cov_))
      (MatrixXd.smul ((f.state_.size : K) + f.unscentTrans_.calcLambda f.state_.size) f.cov_))
    (hinv : f.cov_.mul (f.inv f.cov_)
      = some (MatrixXd.Identity f.state_.size f.state_.size)) :
    f.correct f.state_.asMatrix (MatrixXd.zero m m)
      = some { f with cov_ := MatrixXd.zero f.state_.size f.state_.size } := by
  have hloop := sensorLoop_identity f f.state_.asMatrix
    (f.unscentTrans_.calcSigmaPoints f.state_ f.cov_ f.normState_)
    ((MatrixXd.zero 0 0).resize 0
      (f.unscentTrans_.calcSigmaPoints f.state_ f.cov_ f.normState_).points.cols fun _ _ => 0)
    (MatrixXd.resize_rows _ _ _ _) (MatrixXd.resize_cols _ _ _ _)
    (Nat.succ_pos _) hno hsm hm2v
  have hobs : obsNoiseCov (MatrixXd.zero m m) (f.mat2vec f.state_.asMatrix)
      = some (MatrixXd.zero f.state_.size f.state_.size) := by
    rw [hm2v, obsNoiseCov_eq (MatrixXd.zero m m) rfl hm]
    simp only [Option.some.injEq, MatrixXd.zero]
    exact MatrixXd.ofFn_congr fun a b _ _ => by simp
  obtain ⟨T, ns, no, mm, sm, m2v, inv, un, st, cv⟩ := f
  simp only at hns hno hsm hm2v hrows hcols hlam hS hinv hloop hobs
  subst hns
  subst hno
  rw [noNormalize_eq_id] at hloop
  have hmean := UnscentedTransform.recoverMean_calcSigmaPoints T st cv hlam
  have hcov := UnscentedTransform.recoverCovariance_calcSigmaPoints T st cv hrows hcols hlam hS
  have hcross := recoverCrossCovariance_self T st cv hrows hcols hlam hS
  have hz : (MatrixXd.zero st.size st.size : MatrixXd K) = MatrixXd.zero cv.rows cv.cols := by
    rw [hrows, hcols]
  -- the library inverse has the shape of the covariance
  have hdim : cv.cols = (inv cv).rows ∧ (inv cv).cols = st.size := by
    rw [MatrixXd.mul] at hinv
    split_ifs at hinv with h1
    exact ⟨h1, congrArg MatrixXd.cols (Option.some.inj hinv)⟩
  have hSinv : MatrixXd.inverse inv cv = some (inv cv) := by
    rw [MatrixXd.inverse, if_pos (hrows.trans hcols.symm)]
    simp only [Option.some.injEq]
    refine MatrixXd.ext_get (by simp [hrows, ← hdim.1, hcols]) (by simp [hcols, hdim.2])
      fun i j hi hj => ?_
    rw [MatrixXd.get_ofFn, if_pos ⟨hi, hj⟩]
  obtain ⟨step, hstep, hadd⟩ := add_Identity_mulVec_zero st
  refine (correct_eq_some_iff _ _ _ _).mpr
    ⟨MatrixXd.zero st.size st.size, (T.calcSigmaPoints st cv id).points, cv, inv cv,
      MatrixXd.Identity st.size st.size, VectorXd.ofFn st.size fun i => st.get i - st.get i,
      step, st, cv, cv, MatrixXd.zero st.size st.size, hobs, hloop, ?_, ?_, hSinv, ?_, ?_, ?_,
      hadd, ?_, ?_, ?_, rfl⟩
  · show (T.recoverMean (T.calcSigmaPoints st cv id) id).size = (m2v st.asMatrix).size ∧ _
    rw [hmean, hm2v]
    exact ⟨rfl, rfl, rfl, rfl, rfl⟩
  · show (T.recoverCovariance (T.calcSigmaPoints st cv id)
      (T.recoverMean (T.calcSigmaPoints st cv id) id) id).add _ = _
    rw [hmean, hcov, hz, MatrixXd.add_zero_eq]
  · show (T.recoverCrossCovariance (T.calcSigmaPoints st cv id) st id
      (T.calcSigmaPoints st cv id) (T.recoverMean (T.calcSigmaPoints st cv id) id) id).mul _ = _
    rw [hmean, hcross, hinv]
  · show (m2v st.asMatrix).sub (T.recoverMean (T.calcSigmaPoints st cv id) id) = _
    rw [hmean, hm2v, VectorXd.sub, if_pos rfl]
  · exact hstep
  · rw [← hrows]
    exact MatrixXd.Identity_mul cv
  · rw [← hcols]
    exact MatrixXd.mul_Identity_transpose cv
  · rw [hz]
    exact MatrixXd.sub_self_eq cv

end UnscentedKalmanFilter

namespace Examples

section Stacking

variable {K : Type} [AddCommMonoid K] [Monoid K] [Sub K] [Div K] [NatCast K]

theorem stackCols_asMatrix (v : VectorXd K) : stackCols v.asMatrix = v := by
  refine VectorXd.extv_get (by simp [stackCols, VectorXd.asMatrix]) fun k hk => ?_
  have hk1 : k < v.size := by simpa [stackCols, VectorXd.asMatrix] using hk
  have hmod : k % v.size = k := Nat.mod_eq_of_lt hk1
  have hdiv : k / v.size = 0 := Nat.div_eq_of_lt hk1
  simp [stackCols, VectorXd.asMatrix, hk1, hmod, hdiv]

end Stacking

theorem diagInv_identity (n : Nat) :
    diagInv (MatrixXd.Identity n n) = MatrixXd.Identity n n := by
  refine MatrixXd.ext_get rfl rfl fun i j hi hj => ?_
  have hi1 : i < n := hi
  have hj1 : j < n := hj
  by_cases hij : i = j
  · simp [diagInv, MatrixXd.Identity, hi1, hj1, hij]
  · simp [diagInv, MatrixXd.Identity, hi1, hj1, hij]

/-- The filter of the examples after `correct`: the same mean, no uncertainty left. -/
theorem filter3_correct :
    filter3.correct filter3.state_.asMatrix (MatrixXd.zero 3 3)
      = some { filter3 with cov_ := MatrixXd.zero 3 3 } :=
  UnscentedKalmanFilter.correct_identity filter3 3 (by decide) rfl rfl (fun _ _ => rfl)
    stackCols_asMatrix rfl rfl trans111_denominator trans111_sqrt_identity
    (by
      show (MatrixXd.Identity 3 3).mul (diagInv (MatrixXd.Identity 3 3)) = _
      rw [diagInv_identity]
      exact MatrixXd.Identity_mul (MatrixXd.Identity 3 3))

/-- The filter of the examples is not changed by `predict`. -/
theorem filter3_predict :
    filter3.predict ones3 (MatrixXd.zero 3 3) (MatrixXd.zero 3 3) = some filter3 :=
  UnscentedKalmanFilter.predict_identity filter3 ones3 (MatrixXd.zero 3 3) rfl
    (fun _ _ _ => rfl) rfl rfl trans111_denominator trans111_sqrt_identity

end Examples

/-! ## Predict followed by correct -/

/-- C4 (refuted as stated): the filter with belief `((1, 1, 1), I)`, identity motion and
sensor models, default normalisation, `motionCov = 0`, `sensorCov = 0` and the mean as
observation. `predict` followed by `correct` succeeds, and `getEstimate` then returns the
mean `(1, 1, 1)` with the zero covariance, which is not the belief it started from. -/
theorem predict_correct_not_fixed :
    ∃ f1 f2, Examples.filter3.predict Examples.ones3 (MatrixXd.zero 3 3) (MatrixXd.zero 3 3)
        = some f1
      ∧ f1.correct Examples.filter3.state_.asMatrix (MatrixXd.zero 3 3) = some f2
      ∧ f2.getEstimate = (Examples.ones3, MatrixXd.zero 3 3)
      ∧ f2.getEstimate ≠ Examples.filter3.getEstimate := by
  refine ⟨_, _, Examples.filter3_predict, Examples.filter3_correct, rfl, fun h => ?_⟩
  have h1 := congrArg (fun e : VectorXd ℚ × MatrixXd ℚ => e.2.get 0 0) h
  simp [UnscentedKalmanFilter.getEstimate, Examples.filter3, Examples.identityFilter,
    MatrixXd.zero, MatrixXd.Identity] at h1

/-- C4 (amended): in exact arithmetic (an ordered field, no rounding), for a filter with
belief `(mu, Sigma)` of dimension `n`, parameters with `n + lambda` different from zero, a
decomposition that returns a valid square root `S` of `(n + lambda) * Sigma`, the default
normalisation, an identity motion model, an identity sensor model, `motionCov = 0`, a
square `sensorCov = 0` with at least one row, the observation `mu`, and a `Sigma` of which
`inverse()` returns an inverse: `predict` leaves the belief unchanged, and the following
`correct` keeps the mean `mu` and replaces the covariance by the zero matrix. -/
theorem predict_correct_identity (f : UnscentedKalmanFilter K) (controls : VectorXd K)
    (observationsHint : MatrixXd K) (m : Nat) (hm : 1 ≤ m)
    (hns : f.normState_ = noNormalize) (hno : f.normObs_ = noNormalize)
    (hmm : ∀ p c o, f.motionModel p c o = p)
    (hsm : ∀ p o, f.sensorModel p o = p.asMatrix)
    (hm2v : ∀ v : VectorXd K, f.mat2vec v.asMatrix = v)
    (hrows : f.cov_.rows = f.state_.size) (hcols : f.cov_.cols = f.state_.size)
    (hlam : (f.state_.size : K) + f.unscentTrans_.calcLambda f.state_.size ≠ 0)
    (hS : IsSqrtOf (f.unscentTrans_.matSqrt (MatrixXd.smul
        ((f.state_.size : K) + f.unscentTrans_.calcLambda f.state_.size) f.cov_))
      (MatrixXd.smul ((f.state_.size : K) + f.unscentTrans_.calcLambda f.state_.size) f.cov_))
    (hinv : f.cov_.mul (f.inv f.cov_)
      = some (MatrixXd.Identity f.state_.size f.state_.size)) :
    ∃ f1 f2, f.predict controls observationsHint (MatrixXd.zero f.state_.size f.state_.size)
        = some f1
      ∧ f1.getEstimate = f.getEstimate
      ∧ f1.correct f.state_.asMatrix (MatrixXd.zero m m) = some f2
      ∧ f2.getEstimate = (f.state_, MatrixXd.zero f.state_.size f.state_.size) :=
  ⟨f, _, UnscentedKalmanFilter.predict_identity f controls observationsHint hns hmm hrows hcols
      hlam hS, rfl,
    UnscentedKalmanFilter.correct_identity f m hm hns hno hsm hm2v hrows hcols hlam hS hinv,
    rfl⟩

/-- Witness of C4 (amended): the filter with belief `((1, 1, 1), I)`. -/
theorem predict_correct_identity_witness :
    ∃ f1 f2, Examples.filter3.predict Examples.ones3 (MatrixXd.zero 3 3)
        (MatrixXd.zero Examples.filter3.state_.size Examples.filter3.state_.size) = some f1
      ∧ f1.getEstimate = Examples.filter3.getEstimate
      ∧ f1.correct Examples.filter3.state_.asMatrix (MatrixXd.zero 3 3) = some f2
      ∧ f2.getEstimate = (Examples.filter3.state_,
          MatrixXd.zero Examples.filter3.state_.size Examples.filter3.state_.size) :=
  predict_correct_identity Examples.filter3 Examples.ones3 (MatrixXd.zero 3 3) 3 (by decide)
    rfl rfl (fun _ _ _ => rfl) (fun _ _ => rfl) Examples.stackCols_asMatrix rfl rfl
    Examples.trans111_denominator Examples.trans111_sqrt_identity
    (by
      show (MatrixXd.Identity 3 3).mul (Examples.diagInv (MatrixXd.Identity 3 3)) = _
      rw [Examples.diagInv_identity]
      exact MatrixXd.Identity_mul (MatrixXd.Identity 3 3))

/-! ## The update formulas of `correct` -/

/-- C1: for every call of `correct` that completes, with `obs` the flattened observation
matrix, `S` the recovered predicted-observation covariance plus the tiled sensor noise,
`C` the cross covariance of the state sigma set and the observation sigma set and
`K = C * S^-1` (the inverse as the library returns it): the new belief mean is
`state + K * normalizeObservation(obs - predictedObsMean)`, the new belief covariance is
`cov - K * S * K^T`, and nothing else of the filter changes. -/
theorem correct_update (f g : UnscentedKalmanFilter K) (observations sensorCov : MatrixXd K)
    (h : f.correct observations sensorCov = some g) :
    ∃ obsCov pointsB S Sinv Kg innovation step KS KSK,
      UnscentedKalmanFilter.obsNoiseCov sensorCov (f.mat2vec observations) = some obsCov
      ∧ f.sensorLoop observations f.stateSigma f.stateSigma.points.cols
          ((MatrixXd.zero 0 0).resize 0 f.stateSigma.points.cols fun _ _ => 0) = some pointsB
      ∧ (f.obsCovariance pointsB).add obsCov = some S
      ∧ S.inverse f.inv = some Sinv
      ∧ (f.crossCovariance pointsB).mul Sinv = some Kg
      ∧ (f.mat2vec observations).sub (f.obsMean pointsB) = some innovation
      ∧ Kg.mulVec (f.normObs_ innovation) = some step
      ∧ f.state_.add step = some g.state_
      ∧ Kg.mul S = some KS
      ∧ KS.mul Kg.transpose = some KSK
      ∧ f.cov_.sub KSK = some g.cov_
      ∧ g = { f with state_ := g.state_, cov_ := g.cov_ } := by
  obtain ⟨obsCov, pointsB, S, Sinv, Kg, innovation, step, state1, KS, KSK, cov2, h1, h2, _,
    hS, hSinv, hKg, hin, hstep, hst, hKS, hKSK, hc2, hg⟩ :=
    (UnscentedKalmanFilter.correct_eq_some_iff f g observations sensorCov).mp h
  subst hg
  exact ⟨obsCov, pointsB, S, Sinv, Kg, innovation, step, KS, KSK, h1, h2, hS, hSinv, hKg, hin,
    hstep, hst, hKS, hKSK, hc2, rfl⟩

/-- Witness of C1: the filter with belief `((1, 1, 1), I)`, identity sensor model, no
sensor noise and the mean as observation, for which `correct` completes. -/
theorem correct_update_witness :
    ∃ obsCov pointsB S Sinv Kg innovation step KS KSK,
      UnscentedKalmanFilter.obsNoiseCov (MatrixXd.zero 3 3)
        (Examples.filter3.mat2vec Examples.filter3.state_.asMatrix) = some obsCov
      ∧ Examples.filter3.sensorLoop Examples.filter3.state_.asMatrix Examples.filter3.stateSigma
          Examples.filter3.stateSigma.points.cols
          ((MatrixXd.zero 0 0).resize 0 Examples.filter3.stateSigma.points.cols fun _ _ => 0)
        = some pointsB
      ∧ (Examples.filter3.obsCovariance pointsB).add obsCov = some S
      ∧ S.inverse Examples.filter3.inv = some Sinv
      ∧ (Examples.filter3.crossCovariance pointsB).mul Sinv = some Kg
      ∧ (Examples.filter3.mat2vec Examples.filter3.state_.asMatrix).sub
          (Examples.filter3.obsMean pointsB) = some innovation
      ∧ Kg.mulVec (Examples.filter3.normObs_ innovation) = some step
      ∧ Examples.filter3.state_.add step = some Examples.ones3
      ∧ Kg.mul S = some KS
      ∧ KS.mul Kg.transpose = some KSK
      ∧ Examples.filter3.cov_.sub KSK = some (MatrixXd.zero 3 3)
      ∧ ({ Examples.filter3 with cov_ := MatrixXd.zero 3 3 } : UnscentedKalmanFilter ℚ)
        = { Examples.filter3 with state_ := Examples.ones3, cov_ := MatrixXd.zero 3 3 } :=
  correct_update Examples.filter3 { Examples.filter3 with cov_ := MatrixXd.zero 3 3 }
    Examples.filter3.state_.asMatrix (MatrixXd.zero 3 3) Examples.filter3_correct

/-! ## Initialisation and the assertions of `predict` -/

/-- C11: for a state vector of size `n` and a matrix `cov`, `init(state, cov)` succeeds
exactly when `cov` has `n` rows and `n` columns. On success the filter differs from the old
one only in its belief, and `getEstimate`, a function of the filter that changes nothing,
returns exactly `(state, cov)`. When a dimension of `cov` differs from `n` the call fails,
so that no filter with a replaced belief results. -/
theorem init_spec (f : UnscentedKalmanFilter K) (state : VectorXd K) (cov : MatrixXd K) :
    ((∃ g, f.init state cov = some g) ↔ (cov.rows = state.size ∧ cov.cols = state.size))
    ∧ (∀ g, f.init state cov = some g →
        g.getEstimate = (state, cov) ∧ g = { f with state_ := state, cov_ := cov })
    ∧ ((cov.rows ≠ state.size ∨ cov.cols ≠ state.size) → f.init state cov = none) := by
  refine ⟨⟨?_, ?_⟩, ?_, ?_⟩
  · rintro ⟨g, hg⟩
    rw [UnscentedKalmanFilter.init] at hg
    split_ifs at hg with h
    exact ⟨h.1.symm, h.2.symm⟩
  · intro h
    exact ⟨_, by rw [UnscentedKalmanFilter.init, if_pos ⟨h.1.symm, h.2.symm⟩]⟩
  · intro g hg
    rw [UnscentedKalmanFilter.init] at hg
    split_ifs at hg with h
    have hg1 := (Option.some.inj hg).symm
    subst hg1
    exact ⟨rfl, rfl⟩
  · intro h
    have hn : ¬ (state.size = cov.rows ∧ state.size = cov.cols) := by
      intro hh
      rcases h with h | h
      · exact h hh.1.symm
      · exact h hh.2.symm
    rw [UnscentedKalmanFilter.init, if_neg hn]

/-- Witness of C11: `init` of the example filter with `((1, 1), I)` succeeds with that
belief, and fails with the state `(1, 1)` and a `3 x 3` covariance. -/
theorem init_spec_witness :
    (∃ g, Examples.filter3.init Examples.ones2 (MatrixXd.Identity 2 2) = some g
      ∧ g.getEstimate = (Examples.ones2, MatrixXd.Identity 2 2))
    ∧ Examples.filter3.init Examples.ones2 (MatrixXd.Identity 3 3) = none := by
  have H := init_spec Examples.filter3 Examples.ones2 (MatrixXd.Identity 2 2)
  obtain ⟨g, hg⟩ := H.1.mpr ⟨rfl, rfl⟩
  exact ⟨⟨g, hg, (H.2.1 g hg).1⟩,
    (init_spec Examples.filter3 Examples.ones2 (MatrixXd.Identity 3 3)).2.2
      (Or.inl (by decide))⟩

/-- C12: for a filter with state dimension `n` and a `motionCov` whose row count or column
count differs from `n`, `predict` fails, whatever the motion model is (it is not
consulted), so that no filter with a changed belief results. -/
theorem predict_rejects_motionCov (f : UnscentedKalmanFilter K) (controls : VectorXd K)
    (observations motionCov : MatrixXd K)
    (h : motionCov.rows ≠ f.state_.size ∨ motionCov.cols ≠ f.state_.size)
    (mm : VectorXd K → VectorXd K → MatrixXd K → VectorXd K) :
    ({ f with motionModel := mm } : UnscentedKalmanFilter K).predict controls observations
      motionCov = none := by
  have hn : ¬ (f.state_.size = motionCov.rows ∧ f.state_.size = motionCov.cols) := by
    intro hh
    rcases h with h | h
    · exact h hh.1.symm
    · exact h hh.2.symm
  rw [UnscentedKalmanFilter.predict]
  exact if_neg hn

/-- Witness of C12: the example filter of dimension `3` with a `2 x 2` `motionCov`. -/
theorem predict_rejects_motionCov_witness :
    ({ Examples.filter3 with motionModel := fun p _ _ => p } : UnscentedKalmanFilter ℚ).predict
      Examples.ones3 (MatrixXd.zero 3 3) (MatrixXd.zero 2 2) = none :=
  predict_rejects_motionCov Examples.filter3 Examples.ones3 (MatrixXd.zero 3 3)
    (MatrixXd.zero 2 2) (Or.inl (by decide)) (fun p _ _ => p)

/-! ## The tiling loop: result and safety -/

namespace UnscentedKalmanFilter

/-- With an empty `sensorCov` every iteration of the tiling loop is a modulo by zero. -/
theorem tileLoop_rows_zero (sc : MatrixXd K) (h : sc.rows = 0) (k : Nat) (M : MatrixXd K) :
    tileLoop sc (k + 1) M = none := by
  rw [tileLoop]
  cases tileLoop sc k M with
  | none => rfl
  | some acc => simp [h]

end UnscentedKalmanFilter

/-- C16: for a square `sensorCov` with `m >= 1` rows and a flattened observation vector of
any length `L`, multiple of `m` or not, the noise covariance built by `correct` exists and
is the `L x L` matrix whose entry `(i, i)` is `sensorCov[i mod m][i mod m]` for every
`i < L` and whose off-diagonal entries are all zero. -/
theorem obsNoiseCov_diagonal (sensorCov : MatrixXd K) (obs : VectorXd K)
    (hsq : sensorCov.rows = sensorCov.cols) (hm : 1 ≤ sensorCov.rows) :
    ∃ obsCov, UnscentedKalmanFilter.obsNoiseCov sensorCov obs = some obsCov
      ∧ obsCov.rows = obs.size ∧ obsCov.cols = obs.size
      ∧ (∀ i, i < obs.size →
        obsCov.get i i = sensorCov.get (i % sensorCov.rows) (i % sensorCov.rows))
      ∧ (∀ i j, i < obs.size → j < obs.size → i ≠ j → obsCov.get i j = 0) := by
  refine ⟨_, UnscentedKalmanFilter.obsNoiseCov_eq sensorCov hsq hm obs, rfl, rfl, ?_, ?_⟩
  · intro i hi
    simp [hi]
  · intro i j hi hj hij
    simp [hi, hj, hij]

/-- Witness of C16: a `2 x 2` `sensorCov` and observations of length `3`, which is not a
multiple of `2`; the whole of `correct` goes through with such a length. -/
theorem obsNoiseCov_diagonal_witness :
    (∃ obsCov, UnscentedKalmanFilter.obsNoiseCov Examples.corrCov Examples.ones3 = some obsCov
      ∧ obsCov.rows = Examples.ones3.size ∧ obsCov.cols = Examples.ones3.size
      ∧ (∀ i, i < Examples.ones3.size →
        obsCov.get i i
          = Examples.corrCov.get (i % Examples.corrCov.rows) (i % Examples.corrCov.rows))
      ∧ (∀ i j, i < Examples.ones3.size → j < Examples.ones3.size → i ≠ j →
        obsCov.get i j = 0))
    ∧ ∃ g, Examples.filter3.correct Examples.filter3.state_.asMatrix (MatrixXd.zero 2 2)
        = some g :=
  ⟨obsNoiseCov_diagonal Examples.corrCov Examples.ones3 rfl (by decide),
    _, UnscentedKalmanFilter.correct_identity Examples.filter3 2 (by decide) rfl rfl
      (fun _ _ => rfl) Examples.stackCols_asMatrix rfl rfl Examples.trans111_denominator
      Examples.trans111_sqrt_identity
      (by
        show (MatrixXd.Identity 3 3).mul (Examples.diagInv (MatrixXd.Identity 3 3)) = _
        rw [Examples.diagInv_identity]
        exact MatrixXd.Identity_mul (MatrixXd.Identity 3 3))⟩

/-- C20: for a square `sensorCov` with at least one row and any observation vector, every
index `j = i mod sensorCov.rows()` of the tiling loop lies inside `sensorCov`, every write
`obsCov(i, i)` lies inside `obsCov`, and the loop completes. The precondition is needed: an
empty `sensorCov` passes the assertion of squareness, and with a non-empty observation
vector the loop then fails at its modulo by zero. -/
theorem tileLoop_safe (sensorCov : MatrixXd K) (obs : VectorXd K) :
    (sensorCov.rows = sensorCov.cols → 1 ≤ sensorCov.rows →
      (∀ i, i < obs.size →
        i % sensorCov.rows < sensorCov.rows ∧ i % sensorCov.rows < sensorCov.cols
        ∧ i < (MatrixXd.zero obs.size obs.size : MatrixXd K).rows
        ∧ i < (MatrixXd.zero obs.size obs.size : MatrixXd K).cols)
      ∧ ∃ obsCov, UnscentedKalmanFilter.obsNoiseCov sensorCov obs = some obsCov)
    ∧ (sensorCov.rows = 0 → sensorCov.cols = 0 → 0 < obs.size →
      sensorCov.rows = sensorCov.cols
      ∧ UnscentedKalmanFilter.obsNoiseCov sensorCov obs = none) := by
  constructor
  · intro hsq hm
    refine ⟨fun i hi => ?_, _, UnscentedKalmanFilter.obsNoiseCov_eq sensorCov hsq hm obs⟩
    have hj : i % sensorCov.rows < sensorCov.rows := Nat.mod_lt _ hm
    exact ⟨hj, hsq ▸ hj, hi, hi⟩
  · intro hr hc hL
    have hsq : sensorCov.rows = sensorCov.cols := hr.trans hc.symm
    refine ⟨hsq, ?_⟩
    obtain ⟨k, hk⟩ : ∃ k, obs.size = k + 1 := ⟨obs.size - 1, by omega⟩
    rw [UnscentedKalmanFilter.obsNoiseCov, if_pos hsq, hk]
    exact UnscentedKalmanFilter.tileLoop_rows_zero sensorCov hr k _

/-- Witness of C20: the `2 x 2` covariance with three observations completes, the empty
covariance with three observations does not. -/
theorem tileLoop_safe_witness :
    (∃ obsCov, UnscentedKalmanFilter.obsNoiseCov Examples.corrCov Examples.ones3 = some obsCov)
    ∧ UnscentedKalmanFilter.obsNoiseCov (MatrixXd.zero 0 0) Examples.ones3 = none :=
  ⟨((tileLoop_safe Examples.corrCov Examples.ones3).1 rfl (by decide)).2,
    ((tileLoop_safe (MatrixXd.zero 0 0) Examples.ones3).2 rfl rfl (by decide)).2⟩

/-! ## Shape and symmetry of the sigma points -/

/-- C18: for a mean `mu` of dimension `n` and any covariance, whatever the decomposition
returns as square root, `calcSigmaPoints(mu, Sigma)` with the identity normalisation has
`2n+1` points of dimension `n` and two weight rows of length `2n+1`; point `0` is `mu`, and
for `i = 1..n` the points `i` and `n+i` add up to `2 * mu`. -/
theorem sigmaPoints_symmetric (T : UnscentedTransform K) (mu : VectorXd K) (Sigma : MatrixXd K) :
    ((T.calcSigmaPoints mu Sigma id).points.rows = mu.size
      ∧ (T.calcSigmaPoints mu Sigma id).points.cols = 2 * mu.size + 1
      ∧ (T.calcSigmaPoints mu Sigma id).weights.rows = 2
      ∧ (T.calcSigmaPoints mu Sigma id).weights.cols = 2 * mu.size + 1)
    ∧ (T.calcSigmaPoints mu Sigma id).points.col 0 = mu
    ∧ ∀ i r, i < mu.size → r < mu.size →
      (T.calcSigmaPoints mu Sigma id).points.get r (i + 1)
        + (T.calcSigmaPoints mu Sigma id).points.get r (mu.size + i + 1) = 2 * mu.get r := by
  refine ⟨⟨rfl, rfl, rfl, rfl⟩, ?_, ?_⟩
  · refine VectorXd.extv_get rfl fun r hr => ?_
    have hr1 : r < mu.size := hr
    rw [MatrixXd.get_col, UnscentedTransform.calcSigmaPoints_points_get T mu Sigma hr1 (by omega),
      UnscentedTransform.rawPoint_get_zero mu _ hr1]
  · intro i r hi hr
    rw [UnscentedTransform.calcSigmaPoints_points_get T mu Sigma hr (by omega),
      UnscentedTransform.calcSigmaPoints_points_get T mu Sigma hr (by omega),
      UnscentedTransform.rawPoint_get_pos mu _ hr hi, UnscentedTransform.rawPoint_get_neg mu _ i hr]
    ring

/-- Witness of C18: the sigma points of `((1, 1, 1), diag(1, 0, 0))`; the second and the
fifth point add up to `2` in the first coordinate. -/
theorem sigmaPoints_symmetric_witness :
    (Examples.trans111.calcSigmaPoints Examples.ones3 Examples.cov100 id).points.col 0
      = Examples.ones3
    ∧ (Examples.trans111.calcSigmaPoints Examples.ones3 Examples.cov100 id).points.get 0 (0 + 1)
      + (Examples.trans111.calcSigmaPoints Examples.ones3 Examples.cov100 id).points.get 0
          (Examples.ones3.size + 0 + 1)
      = 2 * Examples.ones3.get 0 :=
  ⟨(sigmaPoints_symmetric Examples.trans111 Examples.ones3 Examples.cov100).2.1,
    (sigmaPoints_symmetric Examples.trans111 Examples.ones3 Examples.cov100).2.2 0 0
      (by decide) (by decide)⟩

/-! ## The five assertions of `correct` -/

namespace UnscentedKalmanFilter

/-- The sensor loop does not look at the inversion routine. -/
theorem sensorLoop_inv (f : UnscentedKalmanFilter K) (inv1 : MatrixXd K → MatrixXd K)
    (observations : MatrixXd K) (A : SigmaPoints K) (k : Nat) (B : MatrixXd K) :
    sensorLoop { f with inv := inv1 } observations A k B = sensorLoop f observations A k B := by
  induction k with
  | zero => rfl
  | succ k ih => rw [sensorLoop, sensorLoop, ih]

/-- When the two loops of `correct` have completed and one of the five assertions does not
hold, `correct` fails. -/
theorem correct_none_of_assert (f : UnscentedKalmanFilter K)
    (observations sensorCov obsCov pointsB : MatrixXd K)
    (h1 : obsNoiseCov sensorCov (f.mat2vec observations) = some obsCov)
    (h2 : f.sensorLoop observations f.stateSigma f.stateSigma.points.cols
      ((MatrixXd.zero 0 0).resize 0 f.stateSigma.points.cols fun _ _ => 0) = some pointsB)
    (hbad : ¬ ((f.obsMean pointsB).size = (f.mat2vec observations).size
      ∧ (f.obsCovariance pointsB).rows = obsCov.rows
      ∧ (f.obsCovariance pointsB).cols = obsCov.cols
      ∧ (f.crossCovariance pointsB).rows = f.state_.size
      ∧ (f.crossCovariance pointsB).cols = (f.obsMean pointsB).size)) :
    f.correct observations sensorCov = none := by
  have h2a : sensorLoop f observations
      (f.unscentTrans_.calcSigmaPoints f.state_ f.cov_ f.normState_)
      (f.unscentTrans_.calcSigmaPoints f.state_ f.cov_ f.normState_).points.cols
      ((MatrixXd.zero 0 0).resize 0
        (f.unscentTrans_.calcSigmaPoints f.state_ f.cov_ f.normState_).points.cols
        fun _ _ => 0) = some pointsB := h2
  rw [correct]
  simp only [Option.bind_eq_bind, h1, h2a, Option.some_bind]
  exact if_neg hbad

end UnscentedKalmanFilter

/-- C17: when the loops of `correct` have produced the noise covariance and the observation
sigma points, and the predicted-observation mean's length differs from the flattened
observation length, or the shape of the recovered observation covariance differs from the
shape of the tiled noise covariance, or `crossCov` is not (state size) x
(predicted-observation size), then `correct` fails, whatever the inversion routine is (the
inverse is not taken), so that no filter with a changed belief results. -/
theorem correct_dimension_checks (f : UnscentedKalmanFilter K)
    (observations sensorCov obsCov pointsB : MatrixXd K)
    (h1 : UnscentedKalmanFilter.obsNoiseCov sensorCov (f.mat2vec observations) = some obsCov)
    (h2 : f.sensorLoop observations f.stateSigma f.stateSigma.points.cols
      ((MatrixXd.zero 0 0).resize 0 f.stateSigma.points.cols fun _ _ => 0) = some pointsB)
    (hbad : (f.obsMean pointsB).size ≠ (f.mat2vec observations).size
      ∨ ((f.obsCovariance pointsB).rows ≠ obsCov.rows
        ∨ (f.obsCovariance pointsB).cols ≠ obsCov.cols)
      ∨ ((f.crossCovariance pointsB).rows ≠ f.state_.size
        ∨ (f.crossCovariance pointsB).cols ≠ (f.obsMean pointsB).size))
    (inv1 : MatrixXd K → MatrixXd K) :
    ({ f with inv := inv1 } : UnscentedKalmanFilter K).correct observations sensorCov
      = none := by
  refine UnscentedKalmanFilter.correct_none_of_assert { f with inv := inv1 } observations
    sensorCov obsCov pointsB h1 ?_ ?_
  · exact (UnscentedKalmanFilter.sensorLoop_inv f inv1 observations _ _ _).trans h2
  · rintro ⟨a1, a2, a3, a4, a5⟩
    rcases hbad with h | h | h
    · exact h a1
    · rcases h with h | h
      · exact h a2
      · exact h a3
    · rcases h with h | h
      · exact h a4
      · exact h a5

/-- Witness of C17: the example filter of dimension `3`, whose sensor model returns three
values, with an observation of length `2`. -/
theorem correct_dimension_checks_witness :
    ({ Examples.filter3 with inv := fun M => M } : UnscentedKalmanFilter ℚ).correct
      Examples.ones2.asMatrix (MatrixXd.zero 1 1) = none :=
  correct_dimension_checks Examples.filter3 Examples.ones2.asMatrix (MatrixXd.zero 1 1) _
    Examples.filter3.stateSigma.points
    (UnscentedKalmanFilter.obsNoiseCov_eq (MatrixXd.zero 1 1) rfl (by decide) _)
    (UnscentedKalmanFilter.sensorLoop_identity Examples.filter3 Examples.ones2.asMatrix
      Examples.filter3.stateSigma _ (MatrixXd.resize_rows _ _ _ _) (MatrixXd.resize_cols _ _ _ _)
      (Nat.succ_pos _) rfl (fun _ _ => rfl) Examples.stackCols_asMatrix)
    (Or.inl (by decide)) (fun M => M)

/-! ## Shapes and symmetry through the matrix operations -/

namespace VectorXd

theorem add_size {a b c : VectorXd K} (h : a.add b = some c) : c.size = a.size := by
  rw [add] at h
  split_ifs at h
  rw [← Option.some.inj h]
  rfl

end VectorXd

namespace MatrixXd

theorem add_shape {A B C : MatrixXd K} (h : A.add B = some C) :
    C.rows = A.rows ∧ C.cols = A.cols ∧ B.rows = A.rows ∧ B.cols = A.cols
    ∧ ∀ i j, i < A.rows → j < A.cols → C.get i j = A.get i j + B.get i j := by
  rw [add] at h
  split_ifs at h with hd
  rw [← Option.some.inj h]
  refine ⟨rfl, rfl, hd.1.symm, hd.2.symm, fun i j hi hj => ?_⟩
  rw [get_ofFn, if_pos ⟨hi, hj⟩]

theorem sub_shape {A B C : MatrixXd K} (h : A.sub B = some C) :
    C.rows = A.rows ∧ C.cols = A.cols ∧ B.rows = A.rows ∧ B.cols = A.cols
    ∧ ∀ i j, i < A.rows → j < A.cols → C.get i j = A.get i j - B.get i j := by
  rw [sub] at h
  split_ifs at h with hd
  rw [← Option.some.inj h]
  refine ⟨rfl, rfl, hd.1.symm, hd.2.symm, fun i j hi hj => ?_⟩
  rw [get_ofFn, if_pos ⟨hi, hj⟩]

theorem mul_shape {A B C : MatrixXd K} (h : A.mul B = some C) :
    C.rows = A.rows ∧ C.cols = B.cols ∧ A.cols = B.rows
    ∧ ∀ i j, i < A.rows → j < B.cols →
      C.get i j = ∑ k ∈ Finset.range A.cols, A.get i k * B.get k j := by
  rw [mul] at h
  split_ifs at h with hd
  rw [← Option.some.inj h]
  refine ⟨rfl, rfl, hd, fun i j hi hj => ?_⟩
  rw [get_ofFn, if_pos ⟨hi, hj⟩]

theorem setCol_shape {A B : MatrixXd K} {j : Nat} {v : VectorXd K}
    (h : A.setCol j v = some B) : B.rows = A.rows ∧ B.cols = A.cols := by
  rw [setCol] at h
  split_ifs at h
  rw [← Option.some.inj h]
  exact ⟨rfl, rfl⟩

/-- The column loop keeps the shape of the matrix. -/
theorem forCols_shape (g : VectorXd K → Option (VectorXd K)) (M : MatrixXd K) (k : Nat) :
    ∀ N, M.forCols g k = some N → N.rows = M.rows ∧ N.cols = M.cols := by
  induction k with
  | zero =>
    intro N h
    rw [forCols] at h
    rw [← Option.some.inj h]
    exact ⟨rfl, rfl⟩
  | succ k ih =>
    intro N h
    rw [forCols] at h
    simp only [Option.bind_eq_bind, Option.bind_eq_some] at h
    obtain ⟨M1, h1, v, _, h3⟩ := h
    obtain ⟨r1, c1⟩ := ih M1 h1
    obtain ⟨r2, c2⟩ := setCol_shape h3
    exact ⟨r2.trans r1, c2.trans c1⟩

theorem IsSymmetric.add {A B C : MatrixXd K} (h : A.add B = some C) (hA : A.IsSymmetric)
    (hB : B.IsSymmetric) : C.IsSymmetric := by
  obtain ⟨hr, hc, hbr, _, hent⟩ := add_shape h
  refine ⟨by rw [hr, hc]; exact hA.1, fun i j hi hj => ?_⟩
  have hi1 : i < A.rows := hr ▸ hi
  have hj1 : j < A.rows := hr ▸ hj
  rw [hent i j hi1 (hA.1 ▸ hj1), hent j i hj1 (hA.1 ▸ hi1), hA.2 i j hi1 hj1,
    hB.2 i j (hbr ▸ hi1) (hbr ▸ hj1)]

theorem IsSymmetric.sub {A B C : MatrixXd K} (h : A.sub B = some C) (hA : A.IsSymmetric)
    (hB : B.IsSymmetric) : C.IsSymmetric := by
  obtain ⟨hr, hc, hbr, _, hent⟩ := sub_shape h
  refine ⟨by rw [hr, hc]; exact hA.1, fun i j hi hj => ?_⟩
  have hi1 : i < A.rows := hr ▸ hi
  have hj1 : j < A.rows := hr ▸ hj
  rw [hent i j hi1 (hA.1 ▸ hj1), hent j i hj1 (hA.1 ▸ hi1), hA.2 i j hi1 hj1,
    hB.2 i j (hbr ▸ hi1) (hbr ▸ hj1)]

end MatrixXd

namespace MatrixXd

/-- The product `K * S * K^T`, computed as `(K * S) * K^T`, is symmetric when `S` is. -/
theorem IsSymmetric.conj {Kg S KS KSK : MatrixXd K} (h1 : Kg.mul S = some KS)
    (h2 : KS.mul Kg.transpose = some KSK) (hS : S.IsSymmetric) : KSK.IsSymmetric := by
  obtain ⟨r1, c1, d1, e1⟩ := mul_shape h1
  obtain ⟨r2, c2, d2, e2⟩ := mul_shape h2
  have hcols : S.cols = Kg.cols := c1.symm.trans d2
  have hrows : S.rows = Kg.cols := d1.symm
  have hent : ∀ i j, i < Kg.rows → j < Kg.rows →
      KSK.get i j = ∑ b ∈ Finset.range Kg.cols, ∑ a ∈ Finset.range Kg.cols,
        Kg.get i a * S.get a b * Kg.get j b := by
    intro i j hi hj
    rw [e2 i j (r1 ▸ hi) hj, d2]
    show ∑ b ∈ Finset.range Kg.cols, KS.get i b * Kg.transpose.get b j = _
    refine Finset.sum_congr rfl fun b hb => ?_
    have hb1 : b < Kg.cols := Finset.mem_range.mp hb
    rw [e1 i b hi (hcols ▸ hb1), transpose, get_ofFn, if_pos ⟨hb1, hj⟩, Finset.sum_mul]
  have hrr : KSK.rows = Kg.rows := r2.trans r1
  have hcc : KSK.cols = Kg.rows := c2
  refine ⟨hrr.trans hcc.symm, fun i j hi hj => ?_⟩
  have hi1 : i < Kg.rows := hrr ▸ hi
  have hj1 : j < Kg.rows := hrr ▸ hj
  rw [hent i j hi1 hj1, hent j i hj1 hi1, Finset.sum_comm]
  refine Finset.sum_congr rfl fun a ha => ?_
  refine Finset.sum_congr rfl fun b hb => ?_
  have ha1 : a < S.rows := hrows ▸ Finset.mem_range.mp ha
  have hb1 : b < S.rows := hrows ▸ Finset.mem_range.mp hb
  rw [hS.2 a b ha1 hb1]
  ring

end MatrixXd

namespace UnscentedTransform

/-- A recovered covariance is symmetric, whatever the points, weights and normalisation. -/
theorem recoverCovariance_symmetric (T : UnscentedTransform K) (sigma : SigmaPoints K)
    (mean : VectorXd K) (nrm : VectorXd K → VectorXd K) :
    (T.recoverCovariance sigma mean nrm).IsSymmetric := by
  refine ⟨rfl, fun i j hi hj => ?_⟩
  have hi1 : i < sigma.points.rows := hi
  have hj1 : j < sigma.points.rows := hj
  rw [recoverCovariance, MatrixXd.get_ofFn, if_pos ⟨hi1, hj1⟩, MatrixXd.get_ofFn,
    if_pos ⟨hj1, hi1⟩]
  refine Finset.sum_congr rfl fun c _ => ?_
  ring

end UnscentedTransform

namespace UnscentedKalmanFilter

/-- The noise covariance built by `correct` is symmetric whenever it exists. -/
theorem obsNoiseCov_symmetric (sc : MatrixXd K) (obs : VectorXd K) (M : MatrixXd K)
    (h : obsNoiseCov sc obs = some M) : M.IsSymmetric := by
  have hsq : sc.rows = sc.cols := by
    rw [obsNoiseCov] at h
    split_ifs at h with hsq
    exact hsq
  by_cases hm : 0 < sc.rows
  · rw [obsNoiseCov_eq sc hsq hm obs] at h
    rw [← Option.some.inj h]
    refine ⟨rfl, fun i j hi hj => ?_⟩
    have hi1 : i < obs.size := hi
    have hj1 : j < obs.size := hj
    simp only [MatrixXd.get_ofFn, hi1, hj1, and_self, if_true]
    by_cases hij : i = j
    · subst hij
      rfl
    · rw [if_neg hij, if_neg (Ne.symm hij)]
  · have hz : sc.rows = 0 := by omega
    rw [obsNoiseCov, if_pos hsq] at h
    by_cases hL : obs.size = 0
    · rw [hL, tileLoop] at h
      rw [← Option.some.inj h]
      refine ⟨rfl, fun i j hi _ => ?_⟩
      have : i < 0 := hi
      omega
    · obtain ⟨k, hk⟩ : ∃ k, obs.size = k + 1 := ⟨obs.size - 1, by omega⟩
      rw [hk, tileLoop_rows_zero sc hz] at h
      exact absurd h (by simp)

/-- What a completed call of `predict` has computed. -/
theorem predict_some (f g : UnscentedKalmanFilter K) (controls : VectorXd K)
    (observations motionCov : MatrixXd K)
    (h : f.predict controls observations motionCov = some g) :
    ∃ points cov1,
      f.stateSigma.points.forCols
        (fun p => some (f.normState_ (f.motionModel p controls observations)))
        f.stateSigma.points.cols = some points
      ∧ (f.unscentTrans_.recoverCovariance
          { points := points, weights := f.stateSigma.weights }
          (f.unscentTrans_.recoverMean { points := points, weights := f.stateSigma.weights }
            f.normState_) f.normState_).add motionCov = some cov1
      ∧ g = { f with
          state_ := f.unscentTrans_.recoverMean
            { points := points, weights := f.stateSigma.weights } f.normState_
          cov_ := cov1 } := by
  rw [predict] at h
  split_ifs at h with hd
  simp only [Option.bind_eq_bind, Option.bind_eq_some] at h
  obtain ⟨points, h1, cov1, h2, h3⟩ := h
  exact ⟨points, cov1, h1, h2, (Option.some.inj h3).symm⟩

end UnscentedKalmanFilter

namespace MatrixXd

theorem Identity_symmetric (n : Nat) : (Identity n n : MatrixXd K).IsSymmetric := by
  refine ⟨rfl, fun i j hi hj => ?_⟩
  rw [Identity_get n i j hi hj, Identity_get n j i hj hi]
  by_cases hij : i = j
  · subst hij
    rfl
  · rw [if_neg hij, if_neg (Ne.symm hij)]

theorem zero_symmetric (n : Nat) : (zero n n : MatrixXd K).IsSymmetric :=
  ⟨rfl, fun i j _ _ => by rw [zero_get, zero_get]⟩

end MatrixXd

/-! ## Invariants of the belief -/

/-- Symmetry of the belief covariance in exact arithmetic (an ordered field): if the belief
covariance is symmetric, then after every completed `predict` with a symmetric `motionCov`,
and after every completed `correct` (with any `sensorCov`), the belief covariance is
symmetric again. This says nothing about the rounded products of `double` arithmetic,
where `(K * S) * K^T` need not be symmetric to the last bit. -/
theorem covariance_symmetric (f : UnscentedKalmanFilter K) (hsym : f.cov_.IsSymmetric) :
    (∀ controls observations motionCov g, motionCov.IsSymmetric →
      f.predict controls observations motionCov = some g → g.cov_.IsSymmetric)
    ∧ (∀ observations sensorCov g,
      f.correct observations sensorCov = some g → g.cov_.IsSymmetric) := by
  constructor
  · intro controls observations motionCov g hmc h
    obtain ⟨points, cov1, _, h2, hg⟩ :=
      UnscentedKalmanFilter.predict_some f g controls observations motionCov h
    subst hg
    exact MatrixXd.IsSymmetric.add h2
      (UnscentedTransform.recoverCovariance_symmetric _ _ _ _) hmc
  · intro observations sensorCov g h
    obtain ⟨obsCov, pointsB, S, Sinv, Kg, innovation, step, state1, KS, KSK, cov2, h1, _, _,
      hS, _, _, _, _, _, hKS, hKSK, hc2, hg⟩ :=
      (UnscentedKalmanFilter.correct_eq_some_iff f g observations sensorCov).mp h
    subst hg
    have hSsym : S.IsSymmetric := MatrixXd.IsSymmetric.add hS
      (UnscentedTransform.recoverCovariance_symmetric _ _ _ _)
      (UnscentedKalmanFilter.obsNoiseCov_symmetric _ _ _ h1)
    exact MatrixXd.IsSymmetric.sub hc2 hsym (MatrixXd.IsSymmetric.conj hKS hKSK hSsym)

/-- The example filter with the symmetric covariance `I`, after its `predict` and after its
`correct`. -/
theorem covariance_symmetric_witness :
    Examples.filter3.cov_.IsSymmetric
    ∧ ({ Examples.filter3 with cov_ := MatrixXd.zero 3 3 } : UnscentedKalmanFilter ℚ).cov_.IsSymmetric :=
  ⟨(covariance_symmetric Examples.filter3 (MatrixXd.Identity_symmetric 3)).1 Examples.ones3
      (MatrixXd.zero 3 3) (MatrixXd.zero 3 3) Examples.filter3 (MatrixXd.zero_symmetric 3)
      Examples.filter3_predict,
    (covariance_symmetric Examples.filter3 (MatrixXd.Identity_symmetric 3)).2
      Examples.filter3.state_.asMatrix (MatrixXd.zero 3 3) _ Examples.filter3_correct⟩

/-- C15: if the belief is a state of size `n` with an `n x n` covariance, and the state
normalisation returns vectors of the size of its argument, then after every completed
`predict` and every completed `correct` the belief mean has size `n` and the belief
covariance has shape `n x n`. -/
theorem dimension_fixed (f : UnscentedKalmanFilter K)
    (hrows : f.cov_.rows = f.state_.size) (hcols : f.cov_.cols = f.state_.size)
    (hnorm : ∀ v, (f.normState_ v).size = v.size) :
    (∀ controls observations motionCov g,
      f.predict controls observations motionCov = some g →
      g.state_.size = f.state_.size ∧ g.cov_.rows = f.state_.size
      ∧ g.cov_.cols = f.state_.size)
    ∧ (∀ observations sensorCov g,
      f.correct observations sensorCov = some g →
      g.state_.size = f.state_.size ∧ g.cov_.rows = f.state_.size
      ∧ g.cov_.cols = f.state_.size) := by
  constructor
  · intro controls observations motionCov g h
    obtain ⟨points, cov1, h1, h2, hg⟩ :=
      UnscentedKalmanFilter.predict_some f g controls observations motionCov h
    subst hg
    obtain ⟨hpr, _⟩ := MatrixXd.forCols_shape _ _ _ points h1
    have hpr1 : points.rows = f.state_.size := hpr
    obtain ⟨r, c, _⟩ := MatrixXd.add_shape h2
    refine ⟨?_, ?_, ?_⟩
    · show (f.unscentTrans_.recoverMean _ f.normState_).size = f.state_.size
      rw [UnscentedTransform.recoverMean, hnorm]
      exact hpr1
    · exact r.trans hpr1
    · exact c.trans hpr1
  · intro observations sensorCov g h
    obtain ⟨obsCov, pointsB, S, Sinv, Kg, innovation, step, state1, KS, KSK, cov2, _, _, _,
      _, _, _, _, _, hst, _, _, hc2, hg⟩ :=
      (UnscentedKalmanFilter.correct_eq_some_iff f g observations sensorCov).mp h
    subst hg
    obtain ⟨r, c, _⟩ := MatrixXd.sub_shape hc2
    exact ⟨VectorXd.add_size hst, r.trans hrows, c.trans hcols⟩

/-- Witness of C15: the example filter of dimension `3` after its `correct`. -/
theorem dimension_fixed_witness :
    ({ Examples.filter3 with cov_ := MatrixXd.zero 3 3 } : UnscentedKalmanFilter ℚ).state_.size
      = Examples.filter3.state_.size
    ∧ ({ Examples.filter3 with cov_ := MatrixXd.zero 3 3 } : UnscentedKalmanFilter ℚ).cov_.rows
      = Examples.filter3.state_.size
    ∧ ({ Examples.filter3 with cov_ := MatrixXd.zero 3 3 } : UnscentedKalmanFilter ℚ).cov_.cols
      = Examples.filter3.state_.size :=
  (dimension_fixed Examples.filter3 rfl rfl (fun _ => rfl)).2 Examples.filter3.state_.asMatrix
    (MatrixXd.zero 3 3) _ Examples.filter3_correct

/-! ## When the operations of `correct` go through -/

section Completion

variable {K : Type} [AddCommMonoid K] [Monoid K] [Sub K] [Div K] [NatCast K]

namespace VectorXd

theorem subv_eq {a b : VectorXd K} (h : a.size = b.size) :
    a.sub b = some (ofFn a.size fun i => a.get i - b.get i) := by
  rw [sub, if_pos h]

theorem addv_eq {a b : VectorXd K} (h : a.size = b.size) :
    a.add b = some (ofFn a.size fun i => a.get i + b.get i) := by
  rw [add, if_pos h]

end VectorXd

namespace MatrixXd

theorem add_eq {A B : MatrixXd K} (hr : A.rows = B.rows) (hc : A.cols = B.cols) :
    A.add B = some (ofFn A.rows A.cols fun i j => A.get i j + B.get i j) := by
  rw [add, if_pos ⟨hr, hc⟩]

theorem sub_eq {A B : MatrixXd K} (hr : A.rows = B.rows) (hc : A.cols = B.cols) :
    A.sub B = some (ofFn A.rows A.cols fun i j => A.get i j - B.get i j) := by
  rw [sub, if_pos ⟨hr, hc⟩]

theorem mul_eq {A B : MatrixXd K} (h : A.cols = B.rows) :
    A.mul B = some (ofFn A.rows B.cols fun i j =>
      ∑ k ∈ Finset.range A.cols, A.get i k * B.get k j) := by
  rw [mul, if_pos h]

theorem mulVec_eq {A : MatrixXd K} {v : VectorXd K} (h : A.cols = v.size) :
    A.mulVec v = some (VectorXd.ofFn A.rows fun i =>
      ∑ k ∈ Finset.range A.cols, A.get i k * v.get k) := by
  rw [mulVec, if_pos h]

theorem inverse_eq (inv : MatrixXd K → MatrixXd K) {A : MatrixXd K} (h : A.rows = A.cols) :
    A.inverse inv = some (ofFn A.rows A.cols fun i j => (inv A).get i j) := by
  rw [inverse, if_pos h]

end MatrixXd

namespace UnscentedKalmanFilter

/-- When the two loops of `correct` have completed, the five assertions hold, the
observation normalisation keeps the size of its argument and the belief covariance has
the shape of the state, `correct` completes. -/
theorem correct_completes (f : UnscentedKalmanFilter K)
    (observations sensorCov obsCov pointsB : MatrixXd K)
    (h1 : obsNoiseCov sensorCov (f.mat2vec observations) = some obsCov)
    (h2 : f.sensorLoop observations f.stateSigma f.stateSigma.points.cols
      ((MatrixXd.zero 0 0).resize 0 f.stateSigma.points.cols fun _ _ => 0) = some pointsB)
    (hd : (f.obsMean pointsB).size = (f.mat2vec observations).size
      ∧ (f.obsCovariance pointsB).rows = obsCov.rows
      ∧ (f.obsCovariance pointsB).cols = obsCov.cols
      ∧ (f.crossCovariance pointsB).rows = f.state_.size
      ∧ (f.crossCovariance pointsB).cols = (f.obsMean pointsB).size)
    (hnorm : ∀ v, (f.normObs_ v).size = v.size)
    (hrows : f.cov_.rows = f.state_.size) (hcols : f.cov_.cols = f.state_.size) :
    ∃ g, f.correct observations sensorCov = some g := by
  obtain ⟨d1, d2, d3, _, d5⟩ := hd
  have e2 : pointsB.rows = obsCov.rows := d2
  have e3 : pointsB.rows = obsCov.cols := d3
  have e5 : pointsB.rows = (f.obsMean pointsB).size := d5
  refine ⟨_, (correct_eq_some_iff f _ observations sensorCov).mpr
    ⟨obsCov, pointsB, _, _, _, _, _, _, _, _, _, h1, h2, ⟨d1, d2, d3, rfl, d5⟩,
      MatrixXd.add_eq d2 d3, MatrixXd.inverse_eq f.inv rfl, MatrixXd.mul_eq rfl,
      VectorXd.subv_eq d1.symm, MatrixXd.mulVec_eq ?_, VectorXd.addv_eq rfl, MatrixXd.mul_eq rfl,
      MatrixXd.mul_eq rfl, MatrixXd.sub_eq hrows hcols, rfl⟩⟩
  rw [hnorm]
  exact e5.trans d1

end UnscentedKalmanFilter

end Completion

/-! ## A sensor result that grows after the first sigma point -/

namespace UnscentedKalmanFilter

/-- The first iteration of the sensor loop gives `sigmaB` the length of the first result. -/
theorem sensorLoop_first (f : UnscentedKalmanFilter K) (observations : MatrixXd K)
    (A : SigmaPoints K) (d0 : Nat) (B0 : MatrixXd K) (hB0r : B0.rows = 0)
    (hB0c : B0.cols = A.points.cols) (hcols : 0 < A.points.cols)
    (hs : (f.sensorModel (A.points.col 0) observations).size = d0)
    (hv : (f.normObs_ (f.mat2vec (f.sensorModel (A.points.col 0) observations))).size = d0) :
    ∃ B1, sensorLoop f observations A 1 B0 = some B1 ∧ B1.rows = d0
      ∧ B1.cols = A.points.cols := by
  rw [sensorLoop, sensorLoop]
  simp only [Option.bind_eq_bind, Option.some_bind, hs, hB0r]
  by_cases hd : 0 < d0
  · have hne : ¬ (B0.rows = d0 ∧ B0.cols = A.points.cols) := by
      intro h
      omega
    have hcond : 0 < (MatrixXd.ofFn d0 A.points.cols (f.uninit 0)).cols ∧
        (f.normObs_ (f.mat2vec (f.sensorModel (A.points.col 0) observations))).size
          = (MatrixXd.ofFn d0 A.points.cols (f.uninit 0)).rows := ⟨hcols, hv⟩
    rw [if_pos hd, MatrixXd.resize, if_neg hne, MatrixXd.setCol, if_pos hcond]
    exact ⟨_, rfl, rfl, rfl⟩
  · have hd0 : d0 = 0 := by omega
    rw [if_neg hd]
    have hcond : 0 < B0.cols ∧
        (f.normObs_ (f.mat2vec (f.sensorModel (A.points.col 0) observations))).size
          = B0.rows := by
      rw [hB0c, hB0r, hv]
      exact ⟨hcols, hd0⟩
    rw [MatrixXd.setCol, if_pos hcond]
    exact ⟨_, rfl, by rw [MatrixXd.rows_ofFn, hB0r, hd0], hB0c⟩

/-- When the first flattened result has `d0` entries and every later one has `d > d0`
entries, the sensor loop does not fail: the second iteration resizes `sigmaB` to `d` rows,
and after `k+2` iterations column `0` holds what the fresh storage held, the columns
`1..k+1` hold the normalised results, and the rest is fresh storage as well. -/
theorem sensorLoop_grow (f : UnscentedKalmanFilter K) (observations : MatrixXd K)
    (A : SigmaPoints K) (d0 d : Nat) (B0 : MatrixXd K) (hB0r : B0.rows = 0)
    (hB0c : B0.cols = A.points.cols) (hd : d0 < d)
    (hs0 : (f.sensorModel (A.points.col 0) observations).size = d0)
    (hv0 : (f.normObs_ (f.mat2vec (f.sensorModel (A.points.col 0) observations))).size = d0)
    (hs : ∀ c, 1 ≤ c → c < A.points.cols →
      (f.sensorModel (A.points.col c) observations).size = d)
    (hv : ∀ c, 1 ≤ c → c < A.points.cols →
      (f.normObs_ (f.mat2vec (f.sensorModel (A.points.col c) observations))).size = d)
    (k : Nat) (hk : k + 2 ≤ A.points.cols) :
    sensorLoop f observations A (k + 2) B0 = some (MatrixXd.ofFn d A.points.cols fun r c =>
      if 1 ≤ c ∧ c < k + 2 then
        (f.normObs_ (f.mat2vec (f.sensorModel (A.points.col c) observations))).get r
      else f.uninit 1 r c) := by
  induction k with
  | zero =>
    have h1 : 1 < A.points.cols := hk
    obtain ⟨B1, hB1, hr1, hc1⟩ := sensorLoop_first f observations A d0 B0 hB0r hB0c
      (by omega) hs0 hv0
    rw [sensorLoop, hB1]
    simp only [Option.bind_eq_bind, Option.some_bind, hs 1 (Nat.le_refl _) h1, hr1, hd, if_true]
    have hne : ¬ (B1.rows = d ∧ B1.cols = A.points.cols) := by
      intro h
      omega
    rw [MatrixXd.resize, if_neg hne]
    simp only [MatrixXd.setCol, MatrixXd.rows_ofFn, MatrixXd.cols_ofFn, h1,
      hv 1 (Nat.le_refl _) h1, and_self, if_true, Option.some.injEq]
    refine MatrixXd.ofFn_congr fun r c hr hc => ?_
    by_cases hc1 : c = 1
    · simp [hc1]
    · have hno : ¬ (1 ≤ c ∧ c < 0 + 2) := by omega
      simp [hc1, hr, hc, hno]
  | succ k ih =>
    have hk1 : k + 2 < A.points.cols := hk
    rw [sensorLoop, ih (Nat.le_of_lt hk1)]
    simp only [Option.bind_eq_bind, Option.some_bind, hs (k + 2) (by omega) hk1,
      MatrixXd.rows_ofFn, lt_irrefl, if_false]
    simp only [MatrixXd.setCol, MatrixXd.rows_ofFn, MatrixXd.cols_ofFn, hk1,
      hv (k + 2) (by omega) hk1, and_self, if_true, Option.some.injEq]
    refine MatrixXd.ofFn_congr fun r c hr hc => ?_
    by_cases hc0 : c = k + 2
    · simp [hc0]
    · have : (1 ≤ c ∧ c < k + 1 + 2) ↔ (1 ≤ c ∧ c < k + 2) := by omega
      simp [hc0, hr, hc, this]

end UnscentedKalmanFilter

namespace Examples

theorem trans103_denominator : (one1.size : ℚ) + trans103.calcLambda one1.size = 2 * 2 := by
  norm_num [UnscentedTransform.calcLambda, trans103, one1]

/-- The three sigma points of the belief `((1), I)`: `1`, `3` and `-1`. -/
theorem filterGrow_points (c : Nat) (hc : c < 3) :
    filterGrow.stateSigma.points.get 0 c = if c = 0 then 1 else if c = 1 then 3 else -1 := by
  have hr : 0 < one1.size := by decide
  have hc1 : c < 2 * one1.size + 1 := hc
  have hS : (diagSqrt (MatrixXd.smul (2 * 2) (MatrixXd.Identity 1 1))).get 0 0 = 2 := by
    rw [diagSqrt_smul_identity_eq 1 2 (by norm_num)]
    simp [MatrixXd.smul, MatrixXd.Identity]
  show (trans103.calcSigmaPoints one1 (MatrixXd.Identity 1 1) id).points.get 0 c = _
  rw [UnscentedTransform.calcSigmaPoints_points_get _ _ _ hr hc1, trans103_denominator]
  show (UnscentedTransform.rawPoint one1
    (diagSqrt (MatrixXd.smul (2 * 2) (MatrixXd.Identity 1 1))) c).get 0 = _
  interval_cases c
  · rw [UnscentedTransform.rawPoint_get_zero _ _ hr]
    simp [one1]
  · rw [UnscentedTransform.rawPoint_get_pos _ _ hr hr, hS]
    norm_num [one1]
  · rw [show (2 : Nat) = one1.size + 0 + 1 from rfl,
      UnscentedTransform.rawPoint_get_neg _ _ 0 hr, hS]
    norm_num [one1]

/-- The sensor result of the first sigma point has one entry, that of the others two. -/
theorem filterGrow_sensor (observations : MatrixXd ℚ) (c : Nat) (hc : c < 3) :
    filterGrow.sensorModel (filterGrow.stateSigma.points.col c) observations
      = if c = 0 then MatrixXd.ofFn 1 1 fun _ _ => 1
        else MatrixXd.ofFn 2 1 fun _ _ => if c = 1 then 3 else -1 := by
  show growingSensor (filterGrow.stateSigma.points.col c) observations = _
  rw [growingSensor, MatrixXd.get_col, filterGrow_points c hc]
  interval_cases c <;> norm_num

theorem filterGrow_sensor_size (observations : MatrixXd ℚ) (c : Nat) (hc : c < 3) :
    (filterGrow.sensorModel (filterGrow.stateSigma.points.col c) observations).size
      = if c = 0 then 1 else 2 := by
  rw [filterGrow_sensor observations c hc]
  by_cases h0 : c = 0
  · simp [h0, MatrixXd.size]
  · simp [h0, MatrixXd.size]

theorem filterGrow_vec_size (observations : MatrixXd ℚ) (c : Nat) (hc : c < 3) :
    (filterGrow.normObs_ (filterGrow.mat2vec
      (filterGrow.sensorModel (filterGrow.stateSigma.points.col c) observations))).size
      = if c = 0 then 1 else 2 := by
  rw [filterGrow_sensor observations c hc]
  by_cases h0 : c = 0
  · simp [h0, filterGrow, identityFilter, noNormalize, stackCols]
  · simp [h0, filterGrow, identityFilter, noNormalize, stackCols]

/-- The sensor loop of the growing sensor completes with a `sigmaB` of two rows. -/
theorem filterGrow_loop (observations : MatrixXd ℚ) :
    filterGrow.sensorLoop observations filterGrow.stateSigma filterGrow.stateSigma.points.cols
      ((MatrixXd.zero 0 0).resize 0 filterGrow.stateSigma.points.cols fun _ _ => 0)
      = some (MatrixXd.ofFn 2 filterGrow.stateSigma.points.cols fun r c =>
        if 1 ≤ c ∧ c < 1 + 2 then
          (filterGrow.normObs_ (filterGrow.mat2vec (filterGrow.sensorModel
            (filterGrow.stateSigma.points.col c) observations))).get r
        else filterGrow.uninit 1 r c) :=
  UnscentedKalmanFilter.sensorLoop_grow filterGrow observations filterGrow.stateSigma 1 2 _
    (MatrixXd.resize_rows _ _ _ _) (MatrixXd.resize_cols _ _ _ _) (by decide)
    (by rw [filterGrow_sensor_size observations 0 (by decide)]; rfl)
    (by rw [filterGrow_vec_size observations 0 (by decide)]; rfl)
    (fun c h1 hc => by
      have hc3 : c < 3 := hc
      rw [filterGrow_sensor_size observations c hc3, if_neg (by omega)])
    (fun c h1 hc => by
      have hc3 : c < 3 := hc
      rw [filterGrow_vec_size observations c hc3, if_neg (by omega)])
    1 (Nat.le_refl _)

end Examples

namespace Examples

/-- With the growing sensor, a flattened observation of two entries and a `1 x 1` sensor
covariance, `correct` passes its five assertions and completes, whatever the inversion
routine returns. -/
theorem filterGrow_correct (inv1 : MatrixXd ℚ → MatrixXd ℚ) :
    ∃ g, ({ filterGrow with inv := inv1 } : UnscentedKalmanFilter ℚ).correct
      ones2.asMatrix (MatrixXd.Identity 1 1) = some g :=
  UnscentedKalmanFilter.correct_completes _ ones2.asMatrix (MatrixXd.Identity 1 1) _ _
    (UnscentedKalmanFilter.obsNoiseCov_eq (MatrixXd.Identity 1 1) rfl (by decide) _)
    ((UnscentedKalmanFilter.sensorLoop_inv filterGrow inv1 ones2.asMatrix _ _ _).trans
      (filterGrow_loop ones2.asMatrix))
    ⟨rfl, rfl, rfl, rfl, rfl⟩ (fun _ => rfl) rfl rfl

end Examples

/-- Evidence for claim C13 at the filter `Examples.filterGrow`: the flattened sensor result
of the first sigma point has one entry and that of the second sigma point has two
entries, and still `correct` does not fail: it returns an updated filter, whatever the
inversion routine computes. -/
theorem sensor_growth_accepted :
    (Examples.filterGrow.normObs_ (Examples.filterGrow.mat2vec
        (Examples.filterGrow.sensorModel (Examples.filterGrow.stateSigma.points.col 0)
          Examples.ones2.asMatrix))).size = 1
      ∧ (Examples.filterGrow.normObs_ (Examples.filterGrow.mat2vec
        (Examples.filterGrow.sensorModel (Examples.filterGrow.stateSigma.points.col 1)
          Examples.ones2.asMatrix))).size = 2
      ∧ ∀ inv1 : MatrixXd ℚ → MatrixXd ℚ,
        ∃ g, ({ Examples.filterGrow with inv := inv1 } : UnscentedKalmanFilter ℚ).correct
          Examples.ones2.asMatrix (MatrixXd.Identity 1 1) = some g :=
  ⟨(Examples.filterGrow_vec_size _ 0 (by decide)).trans rfl,
    (Examples.filterGrow_vec_size _ 1 (by decide)).trans rfl,
    Examples.filterGrow_correct⟩

/-- Evidence for claim C19 at the filter `Examples.filterGrow`: the sensor loop completes
with an observation sigma set of three points, as many as the state sigma set, but its
point `0` is not the normalised flattened sensor result of the state sigma point `0`:
that result is the vector `(1)`, while point `0` has two entries, both the content `7` of
the fresh storage; and `correct` goes on with this set and completes. -/
theorem sensor_growth_first_point_lost :
    ∃ pointsB : MatrixXd ℚ,
      Examples.filterGrow.sensorLoop Examples.ones2.asMatrix Examples.filterGrow.stateSigma
          Examples.filterGrow.stateSigma.points.cols
          ((MatrixXd.zero 0 0).resize 0 Examples.filterGrow.stateSigma.points.cols
            fun _ _ => 0) = some pointsB
        ∧ pointsB.cols = Examples.filterGrow.stateSigma.points.cols
        ∧ (Examples.filterGrow.normObs_ (Examples.filterGrow.mat2vec
            (Examples.filterGrow.sensorModel (Examples.filterGrow.stateSigma.points.col 0)
              Examples.ones2.asMatrix))).size = 1
        ∧ (Examples.filterGrow.normObs_ (Examples.filterGrow.mat2vec
            (Examples.filterGrow.sensorModel (Examples.filterGrow.stateSigma.points.col 0)
              Examples.ones2.asMatrix))).get 0 = 1
        ∧ (pointsB.col 0).size = 2
        ∧ (pointsB.col 0).get 0 = 7 ∧ (pointsB.col 0).get 1 = 7
        ∧ pointsB.col 0 ≠ Examples.filterGrow.normObs_ (Examples.filterGrow.mat2vec
            (Examples.filterGrow.sensorModel (Examples.filterGrow.stateSigma.points.col 0)
              Examples.ones2.asMatrix))
        ∧ ∃ g, Examples.filterGrow.correct Examples.ones2.asMatrix (MatrixXd.Identity 1 1)
            = some g := by
  have hsz := (Examples.filterGrow_vec_size Examples.ones2.asMatrix 0 (by decide)).trans
    (if_pos rfl)
  refine ⟨_, Examples.filterGrow_loop Examples.ones2.asMatrix, rfl, hsz, ?_, rfl, ?_, ?_, ?_,
    Examples.filterGrow_correct Examples.filterGrow.inv⟩
  · rw [Examples.filterGrow_sensor _ 0 (by decide)]
    simp [Examples.filterGrow, Examples.identityFilter, noNormalize, Examples.stackCols,
      VectorXd.get, VectorXd.ofFn, MatrixXd.get, MatrixXd.ofFn]
  · have hc : (0 : Nat) < Examples.filterGrow.stateSigma.points.cols := by decide
    rw [MatrixXd.get_col, MatrixXd.get_ofFn, if_pos ⟨by decide, hc⟩, if_neg (by decide)]
    rfl
  · have hc : (0 : Nat) < Examples.filterGrow.stateSigma.points.cols := by decide
    rw [MatrixXd.get_col, MatrixXd.get_ofFn, if_pos ⟨by decide, hc⟩, if_neg (by decide)]
    rfl
  · intro h
    have h2 := congrArg VectorXd.size h
    rw [hsz] at h2
    exact absurd h2 (by decide)

/-! ## Arithmetic with a value that is not finite -/

namespace Double

@[simp] theorem fin_add_fin (a b : ℚ) : fin a + fin b = fin (a + b) := rfl
@[simp] theorem fin_sub_fin (a b : ℚ) : fin a - fin b = fin (a - b) := rfl
@[simp] theorem fin_mul_fin (a b : ℚ) : fin a * fin b = fin (a * b) := rfl
theorem fin_div_fin (a b : ℚ) (h : b ≠ 0) : fin a / fin b = fin (a / b) := by
  show div (fin a) (fin b) = _
  simp [div, h]
@[simp] theorem zero_eq : (0 : Double) = fin 0 := rfl
@[simp] theorem one_eq : (1 : Double) = fin 1 := rfl
@[simp] theorem natCast_eq (n : ℕ) : ((n : ℕ) : Double) = fin n := rfl
@[simp] theorem ofNat_eq (n : ℕ) [n.AtLeastTwo] : (OfNat.ofNat n : Double) = fin (OfNat.ofNat n) := rfl
@[simp] theorem mul_nan (a : Double) : a * nan = nan := by
  show mul a nan = nan
  cases a <;> rfl
@[simp] theorem nan_mul (a : Double) : nan * a = nan := by
  show mul nan a = nan
  cases a <;> rfl
@[simp] theorem add_nan (a : Double) : a + nan = nan := by
  show add a nan = nan
  cases a <;> rfl
@[simp] theorem nan_add (a : Double) : nan + a = nan := by
  show add nan a = nan
  cases a <;> rfl
theorem div_zero_eq (a : Double) : a / fin 0 = nan := by
  show div a (fin 0) = nan
  cases a <;> simp [div]

/-- A finite value minus itself is zero. -/
theorem sub_self_of_finite {a : Double} (h : a ≠ nan) : a - a = 0 := by
  cases a with
  | fin q => simp
  | nan => exact absurd rfl h

/-- A finite value times zero is zero. -/
theorem mul_zero_of_finite {a : Double} (h : a ≠ nan) : a * 0 = 0 := by
  cases a with
  | fin q => simp
  | nan => exact absurd rfl h

end Double

/-! ## The mean after `correct` -/

section StateUpdate

variable {K : Type} [AddCommMonoid K] [Monoid K] [Sub K] [Div K] [NatCast K]

namespace UnscentedKalmanFilter

/-- The mean after a completed `correct`, entry by entry, in terms of the gain and the
innovation. -/
theorem correct_state_eq (f g : UnscentedKalmanFilter K)
    (observations sensorCov obsCov pointsB Kg : MatrixXd K) (innovation : VectorXd K)
    (h1 : obsNoiseCov sensorCov (f.mat2vec observations) = some obsCov)
    (h2 : f.sensorLoop observations f.stateSigma f.stateSigma.points.cols
      ((MatrixXd.zero 0 0).resize 0 f.stateSigma.points.cols fun _ _ => 0) = some pointsB)
    (hK : f.kalGain pointsB obsCov = some Kg)
    (hinn : (f.mat2vec observations).sub (f.obsMean pointsB) = some innovation)
    (hc : f.correct observations sensorCov = some g) :
    g.state_ = VectorXd.ofFn f.state_.size fun i =>
      f.state_.get i + ∑ k ∈ Finset.range Kg.cols, Kg.get i k * (f.normObs_ innovation).get k := by
  obtain ⟨oC, pB, S, Sinv, Kg1, inn1, step, state1, KS, KSK, cov2, h1a, h2a, _, hS, hSinv,
    hKg, hin, hstep, hadd, _, _, _, hg⟩ :=
    (correct_eq_some_iff f g observations sensorCov).mp hc
  have e1 : oC = obsCov := Option.some.inj (h1a.symm.trans h1)
  have e2 : pB = pointsB := Option.some.inj (h2a.symm.trans h2)
  subst e1
  subst e2
  have hS1 : (f.obsCovariance pB).add oC = some S := hS
  have hKg1 : (f.crossCovariance pB).mul Sinv = some Kg1 := hKg
  have hK2 : ((f.obsCovariance pB).add oC).bind (fun cov1 =>
      (cov1.inverse f.inv).bind fun covInv => (f.crossCovariance pB).mul covInv) = some Kg := hK
  rw [hS1, Option.some_bind, hSinv, Option.some_bind, hKg1] at hK2
  have e3 : Kg1 = Kg := Option.some.inj hK2
  subst e3
  have hin1 : (f.mat2vec observations).sub (f.obsMean pB) = some inn1 := hin
  have e4 : inn1 = innovation := Option.some.inj (hin1.symm.trans hinn)
  subst e4
  have hrows : Kg1.rows = f.state_.size := by
    rw [MatrixXd.mul] at hKg1
    split_ifs at hKg1 with hc1
    rw [← Option.some.inj hKg1]
    rfl
  rw [MatrixXd.mulVec] at hstep
  split_ifs at hstep with hc2
  rw [VectorXd.add] at hadd
  split_ifs at hadd with hs
  rw [hg, ← Option.some.inj hadd, ← Option.some.inj hstep]
  dsimp only
  refine VectorXd.ofFnv_congr fun i hi => ?_
  rw [VectorXd.getv_ofFn, if_pos (by rw [hrows]; exact hi)]

end UnscentedKalmanFilter

end StateUpdate

/-! ## A filter of dimension one with `double` values -/

namespace Examples

theorem trans103D_lambda : trans103D.calcLambda one1D.size = Double.fin 3 := by
  simp [UnscentedTransform.calcLambda, trans103D, one1D, pow_two]

theorem trans103D_denominator :
    ((one1D.size : ℕ) : Double) + trans103D.calcLambda one1D.size = Double.fin 4 := by
  rw [trans103D_lambda]
  simp [one1D]
  norm_num

theorem filterD_points (c : Double) (s : ℚ) (hs : (Double.fin 4 * c).sqrt = Double.fin s)
    (j : Nat) (hj : j < 3) :
    (filterD c).stateSigma.points.get 0 j
      = Double.fin (if j = 0 then 1 else if j = 1 then 1 + s else 1 - s) := by
  have hr : 0 < one1D.size := by decide
  have hc1 : j < 2 * one1D.size + 1 := hj
  show (trans103D.calcSigmaPoints one1D (MatrixXd.ofFn 1 1 fun _ _ => c) id).points.get 0 j = _
  rw [UnscentedTransform.calcSigmaPoints_points_get _ _ _ hr hc1, trans103D_denominator]
  interval_cases j
  · rw [UnscentedTransform.rawPoint_get_zero _ _ hr]
    simp [one1D]
  · rw [UnscentedTransform.rawPoint_get_pos _ _ hr hr]
    simp [one1D, trans103D, diagSqrtD, MatrixXd.smul, hs]
  · rw [show (2 : Nat) = one1D.size + 0 + 1 from rfl,
      UnscentedTransform.rawPoint_get_neg _ _ 0 hr]
    simp [one1D, trans103D, diagSqrtD, MatrixXd.smul, hs]

theorem filterD_weights (c : Double) (r j : Nat) (hr : r < 2) (hj : j < 3) :
    (filterD c).stateSigma.weights.get r j
      = Double.fin (if j = 0 then 3 / 4 else 1 / 8) := by
  have hc1 : j < 2 * one1D.size + 1 := hj
  show (trans103D.calcSigmaPoints one1D (MatrixXd.ofFn 1 1 fun _ _ => c) noNormalize).weights.get
    r j = _
  rw [UnscentedTransform.calcSigmaPoints_weights_get _ _ _ _ hr hc1, trans103D_denominator,
    trans103D_lambda]
  have h4 : (4 : ℚ) ≠ 0 := by norm_num
  have h8 : (2 * 4 : ℚ) ≠ 0 := by norm_num
  by_cases h0 : j = 0
  · simp only [h0, if_true]
    rw [Double.fin_div_fin 3 4 h4]
    by_cases hr0 : r = 0
    · simp [hr0]
    · simp [hr0, trans103D, pow_two]
  · simp only [h0, if_false]
    simp only [Double.ofNat_eq, Double.one_eq, Double.fin_mul_fin]
    rw [Double.fin_div_fin 1 (2 * 4) h8]
    norm_num


theorem filterD_obsMean (c : Double) (s : ℚ) (hs : (Double.fin 4 * c).sqrt = Double.fin s) :
    (filterD c).obsMean (filterD c).stateSigma.points = one1D := by
  refine VectorXd.extv_get rfl fun r hr => ?_
  have hr0 : r = 0 := by
    have : r < 1 := hr
    omega
  subst hr0
  show (VectorXd.ofFn 1 fun r => ∑ j ∈ Finset.range 3,
    (filterD c).stateSigma.weights.get 0 j * (filterD c).stateSigma.points.get r j).get 0 = _
  rw [VectorXd.getv_ofFn, if_pos (by decide)]
  simp only [Finset.sum_range_succ, Finset.sum_range_zero]
  rw [filterD_weights c 0 0 (by decide) (by decide), filterD_weights c 0 1 (by decide) (by decide),
    filterD_weights c 0 2 (by decide) (by decide), filterD_points c s hs 0 (by decide),
    filterD_points c s hs 1 (by decide), filterD_points c s hs 2 (by decide)]
  simp [one1D]
  ring


theorem filterD_deviation (c : Double) (s : ℚ) (hs : (Double.fin 4 * c).sqrt = Double.fin s)
    (j : Nat) (hj : j < 3) :
    (UnscentedTransform.deviation (filterD c).stateSigma one1D noNormalize j).get 0
      = Double.fin (if j = 0 then 0 else if j = 1 then s else -s) := by
  show (VectorXd.ofFn 1 fun a => (filterD c).stateSigma.points.get a j - one1D.get a).get 0 = _
  rw [VectorXd.getv_ofFn, if_pos (by decide), filterD_points c s hs j hj]
  interval_cases j <;> simp [one1D]

theorem filterD_obsCovariance (c : Double) (s : ℚ)
    (hs : (Double.fin 4 * c).sqrt = Double.fin s) :
    ((filterD c).obsCovariance (filterD c).stateSigma.points).get 0 0
      = Double.fin (s * s / 4) := by
  rw [UnscentedKalmanFilter.obsCovariance, filterD_obsMean c s hs]
  show (MatrixXd.ofFn 1 1 fun r t => ∑ j ∈ Finset.range 3,
    (filterD c).stateSigma.weights.get 1 j
      * (UnscentedTransform.deviation (filterD c).stateSigma one1D noNormalize j).get r
      * (UnscentedTransform.deviation (filterD c).stateSigma one1D noNormalize j).get t).get 0 0
    = _
  rw [MatrixXd.get_ofFn, if_pos ⟨by decide, by decide⟩]
  simp only [Finset.sum_range_succ, Finset.sum_range_zero]
  rw [filterD_weights c 1 0 (by decide) (by decide), filterD_weights c 1 1 (by decide) (by decide),
    filterD_weights c 1 2 (by decide) (by decide), filterD_deviation c s hs 0 (by decide),
    filterD_deviation c s hs 1 (by decide), filterD_deviation c s hs 2 (by decide)]
  simp
  ring

theorem filterD_crossCovariance (c : Double) (s : ℚ)
    (hs : (Double.fin 4 * c).sqrt = Double.fin s) :
    ((filterD c).crossCovariance (filterD c).stateSigma.points).get 0 0
      = Double.fin (s * s / 4) := by
  rw [UnscentedKalmanFilter.crossCovariance, filterD_obsMean c s hs]
  show (MatrixXd.ofFn 1 1 fun r t => ∑ j ∈ Finset.range 3,
    (filterD c).stateSigma.weights.get 1 j
      * (UnscentedTransform.deviation (filterD c).stateSigma one1D noNormalize j).get r
      * (UnscentedTransform.deviation (filterD c).stateSigma one1D noNormalize j).get t).get 0 0
    = _
  rw [MatrixXd.get_ofFn, if_pos ⟨by decide, by decide⟩]
  simp only [Finset.sum_range_succ, Finset.sum_range_zero]
  rw [filterD_weights c 1 0 (by decide) (by decide), filterD_weights c 1 1 (by decide) (by decide),
    filterD_weights c 1 2 (by decide) (by decide), filterD_deviation c s hs 0 (by decide),
    filterD_deviation c s hs 1 (by decide), filterD_deviation c s hs 2 (by decide)]
  simp
  ring

end Examples

namespace Examples

theorem sqrtD_zero : (Double.fin 4 * 0).sqrt = Double.fin 0 := by
  simp [Double.sqrt, Rat.sqrt]

theorem sqrtD_four : (Double.fin 4 * 1).sqrt = Double.fin 2 := by
  have h : Rat.sqrt (2 * 2) = 2 := by rw [Rat.sqrt_eq]; norm_num
  have h4 : (4 : ℚ) = 2 * 2 := by norm_num
  simp [Double.sqrt, h4, h]

/-- With the identity sensor model the observation sigma points are the state sigma
points. -/
theorem filterD_loop (c : Double) (observations : MatrixXd Double) :
    (filterD c).sensorLoop observations (filterD c).stateSigma
        (filterD c).stateSigma.points.cols
        ((MatrixXd.zero 0 0).resize 0 (filterD c).stateSigma.points.cols fun _ _ => 0)
      = some (filterD c).stateSigma.points :=
  UnscentedKalmanFilter.sensorLoop_identity (filterD c) observations (filterD c).stateSigma _
    (MatrixXd.resize_rows _ _ _ _) (MatrixXd.resize_cols _ _ _ _) (Nat.succ_pos _) rfl
    (fun _ _ => rfl) stackCols_asMatrix

/-- The noise covariance for one observed entry and no sensor noise. -/
theorem filterD_noise (c : Double) :
    UnscentedKalmanFilter.obsNoiseCov (MatrixXd.zero 1 1) ((filterD c).mat2vec one1D.asMatrix)
      = some (MatrixXd.ofFn 1 1 fun a b =>
        if a = b then (MatrixXd.zero 1 1 : MatrixXd Double).get (a % 1) (a % 1) else 0) :=
  UnscentedKalmanFilter.obsNoiseCov_eq (MatrixXd.zero 1 1) rfl (by decide) _

/-- The Kalman gain of the filter `filterD c`: the cross covariance `s^2 / 4` divided by the
innovation covariance `s^2 / 4 + 0`. -/
theorem filterD_kalGain (c : Double) (s : ℚ) (hs : (Double.fin 4 * c).sqrt = Double.fin s) :
    ∃ Kg, (filterD c).kalGain (filterD c).stateSigma.points
        (MatrixXd.ofFn 1 1 fun a b =>
          if a = b then (MatrixXd.zero 1 1 : MatrixXd Double).get (a % 1) (a % 1) else 0)
        = some Kg
      ∧ Kg.cols = 1
      ∧ ∀ i k, Kg.get i k = if i < 1 ∧ k < 1 then
          Double.fin (s * s / 4) * (1 / Double.fin (s * s / 4)) else 0 := by
  have hadd := @MatrixXd.add_eq Double _ _ _ _ _
    ((filterD c).obsCovariance (filterD c).stateSigma.points)
    (MatrixXd.ofFn 1 1 fun a b =>
      if a = b then (MatrixXd.zero 1 1 : MatrixXd Double).get (a % 1) (a % 1) else 0) rfl rfl
  obtain ⟨Kg, hK⟩ : ∃ Kg, (filterD c).kalGain (filterD c).stateSigma.points
      (MatrixXd.ofFn 1 1 fun a b =>
        if a = b then (MatrixXd.zero 1 1 : MatrixXd Double).get (a % 1) (a % 1) else 0)
      = some Kg := by
    rw [UnscentedKalmanFilter.kalGain]
    simp only [Option.bind_eq_bind]
    rw [hadd, Option.some_bind, MatrixXd.inverse_eq _ rfl, Option.some_bind,
      MatrixXd.mul_eq rfl]
    exact ⟨_, rfl⟩
  refine ⟨Kg, hK, ?_, ?_⟩
  · rw [UnscentedKalmanFilter.kalGain] at hK
    simp only [Option.bind_eq_bind] at hK
    rw [hadd, Option.some_bind, MatrixXd.inverse_eq _ rfl, Option.some_bind,
      MatrixXd.mul_eq rfl] at hK
    rw [← Option.some.inj hK]
    rfl
  rw [UnscentedKalmanFilter.kalGain] at hK
  simp only [Option.bind_eq_bind] at hK
  rw [hadd, Option.some_bind, MatrixXd.inverse_eq _ rfl, Option.some_bind,
    MatrixXd.mul_eq rfl] at hK
  have e := Option.some.inj hK
  subst e
  intro i k
  rw [MatrixXd.get_ofFn]
  show (if i < 1 ∧ k < 1 then _ else (0 : Double)) = _
  by_cases h : i < 1 ∧ k < 1
  · have hi : i = 0 := by omega
    have hk : k = 0 := by omega
    subst hi
    subst hk
    rw [if_pos h, if_pos h]
    show ∑ k ∈ Finset.range 1, _ = _
    rw [Finset.sum_range_one, filterD_crossCovariance c s hs, MatrixXd.get_ofFn]
    show _ * (if 0 < 1 ∧ 0 < 1 then _ else (0 : Double)) = _
    rw [if_pos ⟨Nat.zero_lt_one, Nat.zero_lt_one⟩]
    show _ * (1 / (MatrixXd.ofFn 1 1 _).get 0 0) = _
    rw [MatrixXd.get_ofFn, if_pos ⟨Nat.zero_lt_one, Nat.zero_lt_one⟩,
      filterD_obsCovariance c s hs, MatrixXd.get_ofFn,
      if_pos ⟨Nat.zero_lt_one, Nat.zero_lt_one⟩]
    simp [MatrixXd.zero]
  · rw [if_neg h, if_neg h]

/-- The five assertions of `correct` hold for the filter `filterD c` with one observed
entry, whatever `c` is. -/
theorem filterD_correct (c : Double) :
    ∃ g, (filterD c).correct one1D.asMatrix (MatrixXd.zero 1 1) = some g :=
  UnscentedKalmanFilter.correct_completes _ one1D.asMatrix (MatrixXd.zero 1 1) _ _
    (filterD_noise c) (filterD_loop c one1D.asMatrix)
    ⟨rfl, rfl, rfl, rfl, rfl⟩ (fun _ => rfl) rfl rfl

end Examples

/-! ## An observation that equals the predicted one -/

/-- C21 (amended): in a completed `correct` call in which the flattened observation has
finite entries and equals the predicted-observation mean, `normalizeObservation` maps every
zero vector to the zero vector, and the Kalman gain has finite entries, the belief mean
after `correct` is the belief mean before it, whatever the finite gain is. -/
theorem zero_innovation_mean (f g : UnscentedKalmanFilter Double)
    (observations sensorCov obsCov pointsB Kg : MatrixXd Double)
    (h1 : UnscentedKalmanFilter.obsNoiseCov sensorCov (f.mat2vec observations) = some obsCov)
    (h2 : f.sensorLoop observations f.stateSigma f.stateSigma.points.cols
      ((MatrixXd.zero 0 0).resize 0 f.stateSigma.points.cols fun _ _ => 0) = some pointsB)
    (hK : f.kalGain pointsB obsCov = some Kg)
    (hfinK : ∀ i k, Kg.get i k ≠ Double.nan)
    (hobs : f.mat2vec observations = f.obsMean pointsB)
    (hfinObs : ∀ i, (f.mat2vec observations).get i ≠ Double.nan)
    (hzero : ∀ n, f.normObs_ (VectorXd.ofFn n fun _ => 0) = VectorXd.ofFn n fun _ => 0)
    (hc : f.correct observations sensorCov = some g) :
    g.state_ = f.state_ := by
  have hinn : (f.mat2vec observations).sub (f.obsMean pointsB)
      = some (VectorXd.ofFn (f.mat2vec observations).size fun _ => 0) := by
    rw [← hobs, VectorXd.subv_eq rfl]
    exact congrArg some (VectorXd.ofFnv_congr fun i _ => Double.sub_self_of_finite (hfinObs i))
  rw [UnscentedKalmanFilter.correct_state_eq f g observations sensorCov obsCov pointsB Kg _
    h1 h2 hK hinn hc, hzero]
  refine VectorXd.extv_get rfl fun i hi => ?_
  have hi1 : i < f.state_.size := hi
  rw [VectorXd.getv_ofFn, if_pos hi1]
  have hz : ∑ k ∈ Finset.range Kg.cols,
      Kg.get i k * (VectorXd.ofFn (f.mat2vec observations).size fun _ => (0 : Double)).get k
      = 0 := by
    refine Finset.sum_eq_zero fun k _ => ?_
    have h0 : (VectorXd.ofFn (f.mat2vec observations).size fun _ => (0 : Double)).get k = 0 := by
      rw [VectorXd.getv_ofFn]
      split_ifs <;> rfl
    rw [h0]
    exact Double.mul_zero_of_finite (hfinK i k)
  rw [hz, add_zero]

/-- C21 (refuted as stated): the filter of dimension `1` with belief `((1), (0))`, identity
sensor model, default normalisation, no sensor noise and the mean `(1)` as observation. The
call of `correct` completes, the flattened observation equals the predicted-observation
mean and the default normalisation keeps zero vectors; the innovation covariance is `(0)`,
its inverse `(1 / 0)` is not finite, the gain `0 * (1 / 0)` is not finite either, and the
mean after the call is not the mean `(1)` before it: its entry is not a finite number. -/
theorem zero_innovation_nan_gain :
    ∃ g : UnscentedKalmanFilter Double,
      (Examples.filterD 0).correct Examples.one1D.asMatrix (MatrixXd.zero 1 1) = some g
      ∧ (Examples.filterD 0).sensorLoop Examples.one1D.asMatrix (Examples.filterD 0).stateSigma
          (Examples.filterD 0).stateSigma.points.cols
          ((MatrixXd.zero 0 0).resize 0 (Examples.filterD 0).stateSigma.points.cols
            fun _ _ => 0) = some (Examples.filterD 0).stateSigma.points
      ∧ (Examples.filterD 0).mat2vec Examples.one1D.asMatrix
        = (Examples.filterD 0).obsMean (Examples.filterD 0).stateSigma.points
      ∧ (∀ n, (Examples.filterD 0).normObs_ (VectorXd.ofFn n fun _ => 0)
        = VectorXd.ofFn n fun _ => 0)
      ∧ (Examples.filterD 0).state_.get 0 = Double.fin 1
      ∧ g.state_.get 0 = Double.nan
      ∧ g.state_ ≠ (Examples.filterD 0).state_ := by
  obtain ⟨g, hg⟩ := Examples.filterD_correct 0
  obtain ⟨Kg, hK, hcols, hKget⟩ := Examples.filterD_kalGain 0 0 Examples.sqrtD_zero
  have hmean : (Examples.filterD 0).mat2vec Examples.one1D.asMatrix
      = (Examples.filterD 0).obsMean (Examples.filterD 0).stateSigma.points :=
    (Examples.stackCols_asMatrix Examples.one1D).trans
      (Examples.filterD_obsMean 0 0 Examples.sqrtD_zero).symm
  have hinn : ((Examples.filterD 0).mat2vec Examples.one1D.asMatrix).sub
      ((Examples.filterD 0).obsMean (Examples.filterD 0).stateSigma.points) = some _ :=
    VectorXd.subv_eq (congrArg VectorXd.size hmean)
  have hstate := UnscentedKalmanFilter.correct_state_eq (Examples.filterD 0) g
    Examples.one1D.asMatrix (MatrixXd.zero 1 1) _ _ Kg _ (Examples.filterD_noise 0)
    (Examples.filterD_loop 0 Examples.one1D.asMatrix) hK hinn hg
  have hnan : g.state_.get 0 = Double.nan := by
    have h0 : 0 < (Examples.filterD 0).state_.size := Nat.zero_lt_one
    rw [hstate, VectorXd.getv_ofFn, if_pos h0, hcols, Finset.sum_range_one, hKget 0 0,
      if_pos ⟨Nat.zero_lt_one, Nat.zero_lt_one⟩]
    norm_num [Double.div_zero_eq]
  refine ⟨g, hg, Examples.filterD_loop 0 _, hmean, fun _ => rfl, rfl, hnan, ?_⟩
  intro h
  rw [h] at hnan
  exact absurd hnan (by decide)

/-- Witness for C21: the filter of dimension `1` with belief `((1), (1))`, identity sensor
model, default normalisation, no sensor noise and the mean `(1)` as observation; the gain
is `(1)`. -/
theorem zero_innovation_mean_witness :
    ∃ g : UnscentedKalmanFilter Double,
      (Examples.filterD 1).correct Examples.one1D.asMatrix (MatrixXd.zero 1 1) = some g
      ∧ (Examples.filterD 1).mat2vec Examples.one1D.asMatrix
        = (Examples.filterD 1).obsMean (Examples.filterD 1).stateSigma.points
      ∧ g.state_ = (Examples.filterD 1).state_ := by
  obtain ⟨g, hg⟩ := Examples.filterD_correct 1
  obtain ⟨Kg, hK, _, hKget⟩ := Examples.filterD_kalGain 1 2 Examples.sqrtD_four
  have hmean : (Examples.filterD 1).mat2vec Examples.one1D.asMatrix
      = (Examples.filterD 1).obsMean (Examples.filterD 1).stateSigma.points :=
    (Examples.stackCols_asMatrix Examples.one1D).trans
      (Examples.filterD_obsMean 1 2 Examples.sqrtD_four).symm
  have hfinK : ∀ i k, Kg.get i k ≠ Double.nan := by
    intro i k
    rw [hKget]
    have h1 : (2 * 2 / 4 : ℚ) ≠ 0 := by norm_num
    have h2 : (2 * 2 / 4 : ℚ) = 1 := by norm_num
    rw [h2, Double.one_eq, Double.fin_div_fin 1 1 one_ne_zero]
    split_ifs <;> simp
  have hfinObs : ∀ i, ((Examples.filterD 1).mat2vec Examples.one1D.asMatrix).get i
      ≠ Double.nan := by
    intro i
    have h : (Examples.filterD 1).mat2vec Examples.one1D.asMatrix = Examples.one1D :=
      Examples.stackCols_asMatrix Examples.one1D
    rw [h, Examples.one1D, VectorXd.getv_ofFn]
    split_ifs <;> simp
  exact ⟨g, hg, hmean,
    zero_innovation_mean (Examples.filterD 1) g Examples.one1D.asMatrix (MatrixXd.zero 1 1) _ _
      Kg (Examples.filterD_noise 1) (Examples.filterD_loop 1 Examples.one1D.asMatrix) hK hfinK
      hmean hfinObs (fun _ => rfl) hg⟩

end bf
